import Mathlib

set_option linter.unusedVariables false
set_option linter.unreachableTactic false
set_option linter.unusedTactic false

/-!
Verification of the Needleman-Wunsch edit-distance engines of
src/Needleman-Wunsch-recmemo.c (the four engines EditDistance_NW_Rec,
EditDistance_NW_Iter, EditDistance_NW_Iter_CA and EditDistance_NW_Iter_CO)
against the recurrence of the specification.

Shallow embedding conventions:
  - a C sequence (char pointer plus length) is a List Char;
  - C long values are Int (the computed distances are tiny relative to 2^63,
    so machine overflow is irrelevant to every property checked here);
  - the mutable working buffers (Y_col, Z_row, memo) become explicit
    state threaded through structurally recursive loop functions, one
    recursion step per iteration of the corresponding C loop;
  - the external collaborator characters_to_base.h and the cost macros of
    Needleman-Wunsch-recmemo.h are not part of the sources, so the engines
    are parametric in a BaseInterface and a Costs record, with concrete
    instances modelled from the specification for concrete evaluation.
-/

/-- Cost model of Needleman-Wunsch-recmemo.h: the three scalar constants. -/
structure Costs where
  SUBSTITUTION_COST : Int
  SUBSTITUTION_UNKNOWN_COST : Int
  INSERTION_COST : Int
  deriving DecidableEq

/-- Symbol classifier collaborator (characters_to_base.h): classification of a
character as a base, as the ambiguous wildcard base, and equality of bases. -/
structure BaseInterface where
  isBase : Char → Bool
  isUnknownBase : Char → Bool
  isSameBase : Char → Char → Bool

/-- Modelled from the spec: the repository does not ship characters_to_base.h,
only its callers.  Per the spec the classifier reports whether a character
denotes a nucleotide base, whether it is the ambiguous wildcard, and whether
two base symbols are equal.  Bases are the nucleotides A, C, G, T plus the
wildcard N (the wildcard is itself a base: it flows through the diagonal rule
of the recurrence, not through the skip rule); base equality is plain symbol
equality. -/
def specBase : BaseInterface where
  isBase := fun c => c = 'A' || c = 'C' || c = 'G' || c = 'T' || c = 'N'
  isUnknownBase := fun c => c = 'N'
  isSameBase := fun a b => a = b

/-- Modelled from the spec: representative cost configuration of section 8,
substitution = 1, unknown-substitution = 2, insertion = 2. -/
def specCosts : Costs where
  SUBSTITUTION_COST := 1
  SUBSTITUTION_UNKNOWN_COST := 2
  INSERTION_COST := 2

/-- Sentinel marking a memo cell as not yet computed (NOT_YET_COMPUTED of
Needleman-Wunsch-recmemo.c, defined as -1L). -/
def NOT_YET_COMPUTED : Int := -1

/-- Three-way minimum, mirroring the helper long min(long a, long b, long c)
of the source file. -/
def min3 (a b c : Int) : Int :=
  if a ≤ b ∧ a ≤ c then a
  else if b ≤ a ∧ b ≤ c then b
  else c

/-- Cost of the diagonal option for symbols x (from the primary sequence X)
and y (from the secondary sequence Y): the ternary expression
(isUnknownBase(Xi) ? SUBSTITUTION_UNKNOWN_COST : (isSameBase(Xi,Yj) ? 0 :
SUBSTITUTION_COST)) that appears verbatim in every engine. -/
def diagCost (cl : BaseInterface) (co : Costs) (x y : Char) : Int :=
  if cl.isUnknownBase x then co.SUBSTITUTION_UNKNOWN_COST
  else if cl.isSameBase x y then 0 else co.SUBSTITUTION_COST

/-- Insertion cost charged for a symbol only when it is a base: the
expression (isBase(c) ? INSERTION_COST : 0) of the source. -/
def insIfBase (cl : BaseInterface) (co : Costs) (c : Char) : Int :=
  if cl.isBase c then co.INSERTION_COST else 0

/-- Reference recurrence phi of spec section 4.2 over suffixes, with fuel to
keep the recursion structural.  phiLF fuel X Y computes phi applied to the
suffix lists X and Y provided fuel exceeds X.length + Y.length; the branches
mirror, in order, the branches of EditDistance_NW_RecMemo: both ends reached,
end of X, end of Y, non-base skip in X, non-base skip in Y, and the three-way
minimum over diagonal, case 2 (advance in X) and case 3 (advance in Y). -/
def phiLF (cl : BaseInterface) (co : Costs) : Nat → List Char → List Char → Int
  | 0, _, _ => 0
  | fuel + 1, X, Y =>
    match X, Y with
    | [], [] => 0
    | [], b :: ys => insIfBase cl co b + phiLF cl co fuel [] ys
    | a :: xs, [] => insIfBase cl co a + phiLF cl co fuel xs []
    | a :: xs, b :: ys =>
      if ¬ cl.isBase a then phiLF cl co fuel xs (b :: ys)
      else if ¬ cl.isBase b then phiLF cl co fuel (a :: xs) ys
      else
        min3 (diagCost cl co a b + phiLF cl co fuel xs ys)
          (co.INSERTION_COST + phiLF cl co fuel xs (b :: ys))
          (co.INSERTION_COST + phiLF cl co fuel (a :: xs) ys)

/-- The recurrence phi of spec section 4.2 on a pair of suffix lists:
phiL X Y is phi(i, j) where X and Y are the suffixes of the primary and the
secondary sequence starting at positions i and j. -/
def phiL (cl : BaseInterface) (co : Costs) (X Y : List Char) : Int :=
  phiLF cl co (X.length + Y.length + 1) X Y

/-- Memo-state update: writing res into memo[i][j]. -/
def memoSet (m : Nat → Nat → Int) (i j : Nat) (v : Int) : Nat → Nat → Int :=
  fun i' j' => if i' = i ∧ j' = j then v else m i' j'

/-- Character fetched by c->X[i] in the C sources.  Reading index M (one past
the last symbol) reaches the NUL terminator of the C string; positions past
the sequence are therefore modelled as the NUL character, which is not a
base. -/
def chAt (S : List Char) (i : Nat) : Char := S.getD i '\x00'

/-- EditDistance_NW_RecMemo of Needleman-Wunsch-recmemo.c: recursive
computation of phi(i, j) with memoization, the memo table threaded as
explicit state and the recursion made structural on fuel (any fuel
exceeding (M - i) + (N - j) is enough, cf. recMemoF_correct).  The branch
structure, the order of the three recursive calls of the minimum case and
the accumulation of the minimum through two comparisons mirror the source;
ManageBaseError only prints a diagnostic and is dropped. -/
def recMemoF (cl : BaseInterface) (co : Costs) (X Y : List Char) (M N : Nat) :
    Nat → Nat → Nat → (Nat → Nat → Int) → Int × (Nat → Nat → Int)
  | 0, _, _, memo => (0, memo)
  | fuel + 1, i, j, memo =>
    if memo i j = NOT_YET_COMPUTED then
      let Xi := chAt X i
      let Yj := chAt Y j
      let rm :=
        if i = M then
          if j = N then (0, memo)
          else
            let vm := recMemoF cl co X Y M N fuel i (j + 1) memo
            (insIfBase cl co Yj + vm.1, vm.2)
        else if j = N then
          let vm := recMemoF cl co X Y M N fuel (i + 1) j memo
          (insIfBase cl co Xi + vm.1, vm.2)
        else if ¬ cl.isBase Xi then
          recMemoF cl co X Y M N fuel (i + 1) j memo
        else if ¬ cl.isBase Yj then
          recMemoF cl co X Y M N fuel i (j + 1) memo
        else
          let vm1 := recMemoF cl co X Y M N fuel (i + 1) (j + 1) memo
          let mn1 := diagCost cl co Xi Yj + vm1.1
          let vm2 := recMemoF cl co X Y M N fuel (i + 1) j vm1.2
          let cas2 := co.INSERTION_COST + vm2.1
          let mn2 := if cas2 < mn1 then cas2 else mn1
          let vm3 := recMemoF cl co X Y M N fuel i (j + 1) vm2.2
          let cas3 := co.INSERTION_COST + vm3.1
          let mn3 := if cas3 < mn2 then cas3 else mn2
          (mn3, vm3.2)
      (rm.1, memoSet rm.2 i j rm.1)
    else (memo i j, memo)

/-- Orientation normalizer shared by all four engines: the primary sequence X
is A when lengthA >= lengthB, otherwise B; the secondary Y is the other one. -/
def orientX (A B : List Char) : List Char :=
  if A.length ≥ B.length then A else B

/-- Secondary sequence of the orientation normalizer. -/
def orientY (A B : List Char) : List Char :=
  if A.length ≥ B.length then B else A

/-- EditDistance_NW_Rec of Needleman-Wunsch-recmemo.c: orientation
normalization, memo table allocated with every cell NOT_YET_COMPUTED, then
phi(0,0) computed by the memoized recursion.  The result is the first
component; the final memo table is exposed by NW_Rec_finalMemo below. -/
def EditDistance_NW_Rec (cl : BaseInterface) (co : Costs) (A B : List Char) : Int :=
  let X := orientX A B
  let Y := orientY A B
  let M := X.length
  let N := Y.length
  (recMemoF cl co X Y M N (M + N + 1) 0 0 (fun _ _ => NOT_YET_COMPUTED)).1

/-- Final memo table of a run of EditDistance_NW_Rec (the contents of
ctx.memo right before deallocation). -/
def NW_Rec_finalMemo (cl : BaseInterface) (co : Costs) (A B : List Char) :
    Nat → Nat → Int :=
  let X := orientX A B
  let Y := orientY A B
  let M := X.length
  let N := Y.length
  (recMemoF cl co X Y M N (M + N + 1) 0 0 (fun _ _ => NOT_YET_COMPUTED)).2

/-- Buffer update for the Nat-indexed working column of the iterative
engine. -/
def updN (b : Nat → Int) (r : Nat) (v : Int) : Nat → Int :=
  fun r' => if r' = r then v else b r'

/-- Body of the inner row loop of EditDistance_NW_Iter for column index c.
State is the working column Y_col together with the scalar prev_value; the
four branches (row == N, non-base X symbol, non-base Y symbol, three-way
minimum over diag, right, top) mirror the source, each branch saving the old
Y_col[row] into prev_value. -/
def iterRowStep (cl : BaseInterface) (co : Costs) (X Y : List Char) (N : Nat)
    (c : Nat) (s : (Nat → Int) × Int) (r : Nat) : (Nat → Int) × Int :=
  let Ycol := s.1
  let x := chAt X c
  if r = N then
    (updN Ycol r (insIfBase cl co x + Ycol r), Ycol r)
  else if ¬ cl.isBase x then
    (Ycol, Ycol r)
  else if ¬ cl.isBase (chAt Y r) then
    (updN Ycol r (Ycol (r + 1)), Ycol r)
  else
    let diag := diagCost cl co x (chAt Y r) + s.2
    let top := co.INSERTION_COST + Ycol (r + 1)
    let right := co.INSERTION_COST + Ycol r
    (updN Ycol r (min3 diag right top), Ycol r)

/-- Inner loop for (int row = N; row >= 0; row--) of EditDistance_NW_Iter:
iterRowLoop ... r s runs the body at rows r, r-1, ..., 0. -/
def iterRowLoop (cl : BaseInterface) (co : Costs) (X Y : List Char) (N : Nat)
    (c : Nat) : Nat → (Nat → Int) × Int → (Nat → Int) × Int
  | 0, s => iterRowStep cl co X Y N c s 0
  | r + 1, s => iterRowLoop cl co X Y N c r (iterRowStep cl co X Y N c s (r + 1))

/-- Outer loop for (int col = M - 1; col >= 0; col--) of EditDistance_NW_Iter:
iterColLoop ... k s processes columns k-1 down to 0 (so the call with k = M
starts at column M - 1). -/
def iterColLoop (cl : BaseInterface) (co : Costs) (X Y : List Char) (N : Nat) :
    Nat → (Nat → Int) × Int → (Nat → Int) × Int
  | 0, s => s
  | k + 1, s => iterColLoop cl co X Y N k (iterRowLoop cl co X Y N (k) N s)

/-- Loop initializing the working column: Y_col[N] = 0 and, for row = N - 1
down to 0, Y_col[row] = (isBase(Y[row]) ? INSERTION_COST : 0) + Y_col[row+1].
initColLoop Y k b writes rows k-1 down to 0 on top of b. -/
def initColLoop (cl : BaseInterface) (co : Costs) (Y : List Char) :
    Nat → (Nat → Int) → Nat → Int
  | 0, b => b
  | r + 1, b => initColLoop cl co Y r (updN b r (insIfBase cl co (chAt Y r) + b (r + 1)))

/-- EditDistance_NW_Iter of Needleman-Wunsch-recmemo.c: the linear-space
bottom-up engine.  The freshly allocated Y_col is modelled as the all-zero
buffer (the source only initializes Y_col[N] = 0, which the all-zero buffer
satisfies; every other cell is written by the loops before it is read).  The
result is Y_col[0] after the column loop. -/
def EditDistance_NW_Iter (cl : BaseInterface) (co : Costs) (A B : List Char) : Int :=
  let X := orientX A B
  let Y := orientY A B
  let M := X.length
  let N := Y.length
  let Ycol0 : Nat → Int := initColLoop cl co Y N (fun _ => 0)
  (iterColLoop cl co X Y N M (Ycol0, 0)).1 0

/-- Buffer update for the Int-indexed buffers of the blocked and
cache-oblivious engines. -/
def updI (b : Int → Int) (r : Int) (v : Int) : Int → Int :=
  fun r' => if r' = r then v else b r'

/-- Character fetched by an Int index (the blocked and cache-oblivious
engines compute indices in long arithmetic).  In every reachable read the
index is within the sequence; out-of-range indices give the non-base NUL
character like chAt. -/
def chAtI (S : List Char) (i : Int) : Char :=
  if 0 ≤ i then chAt S i.toNat else '\x00'

/-- Mutable locals of CalculateBlock_CO (and, with the naming of the blocked
engine, of the tile body of EditDistance_NW_Iter_CA): the working column
Y_col, the boundary row Z_row, and the scalars prev_value_y, prev_value_z and
value_to_keep. -/
structure NWBufState where
  Ycol : Int → Int
  Zrow : Int → Int
  pvy : Int
  pvz : Int
  vtk : Int

/-- Body of the innermost loop of CalculateBlock_CO at cell (col, row) of the
current block, whose column range ends at Zend and row range ends at Yend.
Branches mirror the source: row == ctx.N, non-base X symbol, non-base
Y symbol (reading Z_row[col] on the block's bottom row), and the three-way
minimum, whose diagonal and top operands come from Z_row on the bottom row
(Z_row[col+1] on the first column of the block, prev_value_z afterwards) and
from Y_col/prev_value_y elsewhere; every branch saves the old Y_col[row] into
prev_value_y, and value_to_keep becomes the new Y_col[row]. -/
def coCellStep (cl : BaseInterface) (co : Costs) (X Y : List Char) (N : Int)
    (Zend Yend : Int) (col row : Int) (s : NWBufState) : NWBufState :=
  let x := chAtI X col
  let y := chAtI Y row
  let s1 :=
    if row = N then
      { s with pvy := s.Ycol row, Ycol := updI s.Ycol row (insIfBase cl co x + s.Ycol row) }
    else if ¬ cl.isBase x then
      { s with pvy := s.Ycol row }
    else if ¬ cl.isBase y then
      { s with pvy := s.Ycol row,
               Ycol := updI s.Ycol row (if row = Yend then s.Zrow col else s.Ycol (row + 1)) }
    else
      let dc := diagCost cl co x y
      let diag :=
        if row = Yend then
          if col = Zend then dc + s.Zrow (col + 1) else dc + s.pvz
        else dc + s.pvy
      let left := co.INSERTION_COST + s.Ycol row
      let top :=
        if row = Yend then co.INSERTION_COST + s.Zrow col
        else co.INSERTION_COST + s.Ycol (row + 1)
      { s with pvy := s.Ycol row, Ycol := updI s.Ycol row (min3 diag left top) }
  { s1 with vtk := s1.Ycol row }

/-- Loop for (int row = Y_end; row >= Y_start; row--) of CalculateBlock_CO:
fuel is the number of iterations (Y_end - Y_start + 1, zero when the range is
empty), row the current row. -/
def coRowLoop (cl : BaseInterface) (co : Costs) (X Y : List Char) (N : Int)
    (Zend Yend col : Int) : Nat → Int → NWBufState → NWBufState
  | 0, _, s => s
  | f + 1, row, s =>
    coRowLoop cl co X Y N Zend Yend col f (row - 1)
      (coCellStep cl co X Y N Zend Yend col row s)

/-- Loop for (int col = Z_end; col >= Z_start; col--) of CalculateBlock_CO.
After the inner row loop each iteration saves the old Z_row[col] into
prev_value_z, stores value_to_keep into Z_row[col], and on the first column
(col == Z_end) additionally stores prev_value_y into Z_row[Z_end + 1]. -/
def coColLoop (cl : BaseInterface) (co : Costs) (X Y : List Char) (N : Int)
    (Zend Ystart Yend : Int) : Nat → Int → NWBufState → NWBufState
  | 0, _, s => s
  | f + 1, col, s =>
    let s1 := coRowLoop cl co X Y N Zend Yend col (Yend + 1 - Ystart).toNat Yend s
    let s2 := { s1 with pvz := s1.Zrow col, Zrow := updI s1.Zrow col s1.vtk }
    let s3 := if col = Zend then { s2 with Zrow := updI s2.Zrow (Zend + 1) s2.pvy } else s2
    coColLoop cl co X Y N Zend Ystart Yend f (col - 1) s3

/-- Recursion threshold CO_BREAKPOINT of the cache-oblivious engine. -/
def CO_BREAKPOINT : Int := 10

/-- CalculateBlock_CO of Needleman-Wunsch-recmemo.c: recursive block
decomposition over the column range [Zstart, Zend] and row range
[Ystart, Yend].  While the column range exceeds CO_BREAKPOINT it splits the
columns (far half first), then likewise the rows, and at the threshold runs
the direct scan coColLoop.  The recursion is structural on fuel; any fuel
of at least (Zend - Zstart).toNat + (Yend - Ystart).toNat + 1 is enough. -/
def CalculateBlock_CO (cl : BaseInterface) (co : Costs) (X Y : List Char) (N : Int) :
    Nat → Int → Int → Int → Int → NWBufState → NWBufState
  | 0, _, _, _, _, s => s
  | fuel + 1, Zstart, Zend, Ystart, Yend, s =>
    if Zend - Zstart > CO_BREAKPOINT then
      let s1 := CalculateBlock_CO cl co X Y N fuel
        (Zstart + (Zend - Zstart) / 2 + 1) Zend Ystart Yend s
      CalculateBlock_CO cl co X Y N fuel
        Zstart (Zstart + (Zend - Zstart) / 2) Ystart Yend s1
    else if Yend - Ystart > CO_BREAKPOINT then
      let s1 := CalculateBlock_CO cl co X Y N fuel
        Zstart Zend (Ystart + (Yend - Ystart) / 2 + 1) Yend s
      CalculateBlock_CO cl co X Y N fuel
        Zstart Zend Ystart (Ystart + (Yend - Ystart) / 2) s1
    else
      coColLoop cl co X Y N Zend Ystart Yend (Zend + 1 - Zstart).toNat Zend s

/-- Loop initializing an Int-indexed boundary buffer from a sequence S of
length L: buffer[L] = 0 already holds and, for r = L - 1 down to 0,
buffer[r] = (isBase(S[r]) ? INSERTION_COST : 0) + buffer[r + 1].
coInitLoop S k b writes indices k-1 down to 0 on top of b. -/
def coInitLoop (cl : BaseInterface) (co : Costs) (S : List Char) :
    Nat → (Int → Int) → Int → Int
  | 0, b => b
  | r + 1, b =>
    coInitLoop cl co S r
      (updI b (r : Int) (insIfBase cl co (chAt S r) + b ((r : Int) + 1)))

/-- EditDistance_NW_Iter_CO of Needleman-Wunsch-recmemo.c: orientation
normalization, Y_col initialized from Y and Z_row from X (both freshly
allocated buffers modelled as all-zero functions: the source sets index
length to 0 and the init loops write every other cell read later), then
CalculateBlock_CO over columns [0, M-1] and rows [0, N]; the result is
Y_col[0]. -/
def EditDistance_NW_Iter_CO (cl : BaseInterface) (co : Costs) (A B : List Char) : Int :=
  let X := orientX A B
  let Y := orientY A B
  let M := X.length
  let N := Y.length
  let Ycol0 : Int → Int := coInitLoop cl co Y N (fun _ => 0)
  let Zrow0 : Int → Int := coInitLoop cl co X M (fun _ => 0)
  let s0 : NWBufState := { Ycol := Ycol0, Zrow := Zrow0, pvy := 0, pvz := 0, vtk := 0 }
  (CalculateBlock_CO cl co X Y (N : Int) (M + N + 2) 0 ((M : Int) - 1) 0 (N : Int) s0).Ycol 0

/-- Tile edge length Z of EditDistance_NW_Iter_CA. -/
def CA_Z : Int := 100

/-- Body of the innermost loop of EditDistance_NW_Iter_CA, at within-tile
position (counter_col, counter_row) corresponding to grid cell (col, row).
Parameters nzr, Zrl, mc, mr are number_of_Z_rows, Z_row_length, max_cols and
max_rows of the source.  Branches mirror the source: row == N; non-base X
symbol; non-base Y symbol (reading the tile boundary
Z_row[counter_col + Z_row_length - max_cols] on the tile's top row); the
regular three-way minimum for tiles of the bottom tile row or rows below the
tile's top row; and the boundary three-way minimum reading Z_row (and prev_z
past the first tile column) on the top row of the other tiles. -/
def caCellStep (cl : BaseInterface) (co : Costs) (X Y : List Char) (N : Int)
    (nzr Zrl mc mr z_row : Int) (counter_col col counter_row row : Int)
    (s : NWBufState) : NWBufState :=
  let x := chAtI X col
  let y := chAtI Y row
  let s1 :=
    if row = N then
      { s with pvy := s.Ycol row, Ycol := updI s.Ycol row (insIfBase cl co x + s.Ycol row) }
    else if ¬ cl.isBase x then
      { s with pvy := s.Ycol row }
    else if ¬ cl.isBase y then
      { s with pvy := s.Ycol row,
               Ycol := updI s.Ycol row
                 (if counter_row = mr then s.Zrow (counter_col + Zrl - mc)
                  else s.Ycol (row + 1)) }
    else
      let dc := diagCost cl co x y
      if z_row = nzr - 1 ∨ counter_row ≠ mr then
        let diag := dc + s.pvy
        let top := co.INSERTION_COST + s.Ycol (row + 1)
        let right := co.INSERTION_COST + s.Ycol row
        { s with pvy := s.Ycol row, Ycol := updI s.Ycol row (min3 diag right top) }
      else
        let diag :=
          if counter_col = mc - 1 then dc + s.Zrow (counter_col + Zrl - mc + 1)
          else dc + s.pvz
        let top := co.INSERTION_COST + s.Zrow (counter_col + Zrl - mc)
        let right := co.INSERTION_COST + s.Ycol row
        { s with pvy := s.Ycol row, Ycol := updI s.Ycol row (min3 diag right top) }
  { s1 with vtk := s1.Ycol row }

/-- Loop for (int counter_row = max_rows; counter_row >= 0; counter_row--) of
EditDistance_NW_Iter_CA; each iteration recomputes the grid row index from
counter_row exactly as the source does. -/
def caRowLoop (cl : BaseInterface) (co : Costs) (X Y : List Char) (N : Int)
    (nzr Zrl mc mr z_row : Int) (counter_col col : Int) :
    Nat → Int → NWBufState → NWBufState
  | 0, _, s => s
  | f + 1, counter_row, s =>
    let row :=
      if z_row > 0 then counter_row + (z_row - 1) * CA_Z + N - (nzr - 1) * CA_Z
      else counter_row
    caRowLoop cl co X Y N nzr Zrl mc mr z_row counter_col col f (counter_row - 1)
      (caCellStep cl co X Y N nzr Zrl mc mr z_row counter_col col counter_row row s)

/-- Loop for (int counter_col = max_cols - 1; counter_col >= 0;
counter_col--) of EditDistance_NW_Iter_CA.  Each iteration recomputes the
grid column from counter_col, runs the inner row loop, saves the old
Z_row[counter_col + Z_row_length - max_cols] into prev_z, stores
value_to_keep there, and on the first column of the tile stores prev_value
into Z_row[Z_row_length]. -/
def caColLoop (cl : BaseInterface) (co : Costs) (X Y : List Char) (N M : Int)
    (nzr nzc Zrl mc mr z_row z_col : Int) :
    Nat → Int → NWBufState → NWBufState
  | 0, _, s => s
  | f + 1, counter_col, s =>
    let col :=
      if z_col > 0 then counter_col + (z_col - 1) * CA_Z + M - (nzc - 1) * CA_Z
      else counter_col
    let s1 := caRowLoop cl co X Y N nzr Zrl mc mr z_row counter_col col
      (mr + 1).toNat mr s
    let s2 := { s1 with pvz := s1.Zrow (counter_col + Zrl - mc),
                        Zrow := updI s1.Zrow (counter_col + Zrl - mc) s1.vtk }
    let s3 :=
      if counter_col = mc - 1 then { s2 with Zrow := updI s2.Zrow Zrl s2.pvy }
      else s2
    caColLoop cl co X Y N M nzr nzc Zrl mc mr z_row z_col f (counter_col - 1) s3

/-- Loop for (int z_row = number_of_Z_rows - 1; z_row >= 0; z_row--) of
EditDistance_NW_Iter_CA, computing max_rows (one less except on the bottom
tile row) before running the tile's column loop. -/
def caZrowLoop (cl : BaseInterface) (co : Costs) (X Y : List Char) (N M : Int)
    (nzr nzc Zrl mc z_col : Int) : Nat → Int → NWBufState → NWBufState
  | 0, _, s => s
  | f + 1, z_row, s =>
    let mr0 := if N - (nzr - 1 - z_row) * CA_Z > CA_Z then CA_Z
               else N - (nzr - 1 - z_row) * CA_Z
    let mr := if z_row ≠ nzr - 1 then mr0 - 1 else mr0
    caZrowLoop cl co X Y N M nzr nzc Zrl mc z_col f (z_row - 1)
      (caColLoop cl co X Y N M nzr nzc Zrl mc mr z_row z_col mc.toNat (mc - 1) s)

/-- Loop for (int z_col = number_of_Z_cols - 1; z_col >= 0; z_col--) of
EditDistance_NW_Iter_CA, computing max_cols before sweeping the tile column's
tiles bottom to top. -/
def caZcolLoop (cl : BaseInterface) (co : Costs) (X Y : List Char) (N M : Int)
    (nzr nzc Zrl : Int) : Nat → Int → NWBufState → NWBufState
  | 0, _, s => s
  | f + 1, z_col, s =>
    let mc := if M - (nzc - 1 - z_col) * CA_Z > CA_Z then CA_Z
              else M - (nzc - 1 - z_col) * CA_Z
    caZcolLoop cl co X Y N M nzr nzc Zrl f (z_col - 1)
      (caZrowLoop cl co X Y N M nzr nzc Zrl mc z_col nzr.toNat (nzr - 1) s)

/-- EditDistance_NW_Iter_CA of Needleman-Wunsch-recmemo.c: the cache-aware
blocked engine with tile size Z = 100.  The Z_row boundary buffer is
allocated by the source without initialization (and without a NULL check);
its initial contents are therefore the parameter junkZ, and the theorems
about this engine hold for every junkZ.  Y_col is initialized like in the
iterative engine; the result is Y_col[0] after all tiles are processed. -/
def EditDistance_NW_Iter_CA (cl : BaseInterface) (co : Costs) (junkZ : Int → Int)
    (A B : List Char) : Int :=
  let X := orientX A B
  let Y := orientY A B
  let M := X.length
  let N := Y.length
  let Ycol0 : Int → Int := coInitLoop cl co Y N (fun _ => 0)
  let nzr : Int := (N : Int) / CA_Z + 1
  let nzc : Int := (M : Int) / CA_Z + 1
  let Zrl : Int := if CA_Z > (M : Int) then (M : Int) else CA_Z
  let s0 : NWBufState := { Ycol := Ycol0, Zrow := junkZ, pvy := 0, pvz := 0, vtk := 0 }
  (caZcolLoop cl co X Y (N : Int) (M : Int) nzr nzc Zrl nzc.toNat (nzc - 1) s0).Ycol 0

/-- Allocation-sensitive model of EditDistance_NW_Iter_CA.  YcolOk and ZrowOk
tell whether the two mallocs succeed.  The source tests Y_col == NULL and
exits (modelled as the error result), but performs no such test on Z_row:
ZrowOk does not occur in the control flow at all, exactly like in the source,
and when the Z_row allocation fails the engine keeps computing with the
invalid buffer (modelled by the junkZ contents) instead of aborting. -/
def EditDistance_NW_Iter_CA_alloc (cl : BaseInterface) (co : Costs)
    (YcolOk ZrowOk : Bool) (junkZ : Int → Int) (A B : List Char) : Except Unit Int :=
  if ¬ YcolOk then Except.error ()
  else Except.ok (EditDistance_NW_Iter_CA cl co junkZ A B)

/-- Count-state update for the ghost execution counter. -/
def cntBump (c : Nat → Nat → Nat) (i j : Nat) : Nat → Nat → Nat :=
  fun i' j' => if i' = i ∧ j' = j then c i' j' + 1 else c i' j'

/-- EditDistance_NW_RecMemo instrumented with a ghost counter: identical to
recMemoF except that the state additionally carries, for each cell (i, j),
the number of completed executions of the recursive body (the code guarded
by memo[i][j] == NOT_YET_COMPUTED); a memo hit leaves the counter untouched.
Used to state that memoization executes each cell's body at most once. -/
def recMemoCntF (cl : BaseInterface) (co : Costs) (X Y : List Char) (M N : Nat) :
    Nat → Nat → Nat → (Nat → Nat → Int) × (Nat → Nat → Nat) →
    Int × (Nat → Nat → Int) × (Nat → Nat → Nat)
  | 0, _, _, mc => (0, mc)
  | fuel + 1, i, j, mc =>
    if mc.1 i j = NOT_YET_COMPUTED then
      let Xi := chAt X i
      let Yj := chAt Y j
      let rm :=
        if i = M then
          if j = N then (0, mc)
          else
            let vm := recMemoCntF cl co X Y M N fuel i (j + 1) mc
            (insIfBase cl co Yj + vm.1, vm.2)
        else if j = N then
          let vm := recMemoCntF cl co X Y M N fuel (i + 1) j mc
          (insIfBase cl co Xi + vm.1, vm.2)
        else if ¬ cl.isBase Xi then
          recMemoCntF cl co X Y M N fuel (i + 1) j mc
        else if ¬ cl.isBase Yj then
          recMemoCntF cl co X Y M N fuel i (j + 1) mc
        else
          let vm1 := recMemoCntF cl co X Y M N fuel (i + 1) (j + 1) mc
          let mn1 := diagCost cl co Xi Yj + vm1.1
          let vm2 := recMemoCntF cl co X Y M N fuel (i + 1) j vm1.2
          let cas2 := co.INSERTION_COST + vm2.1
          let mn2 := if cas2 < mn1 then cas2 else mn1
          let vm3 := recMemoCntF cl co X Y M N fuel i (j + 1) vm2.2
          let cas3 := co.INSERTION_COST + vm3.1
          let mn3 := if cas3 < mn2 then cas3 else mn2
          (mn3, vm3.2)
      (rm.1, memoSet rm.2.1 i j rm.1, cntBump rm.2.2 i j)
    else (mc.1 i j, mc)

/-- Ghost execution-counter table of a run of EditDistance_NW_Rec: how many
times the memoized body ran for each cell. -/
def NW_Rec_bodyCount (cl : BaseInterface) (co : Costs) (A B : List Char) :
    Nat → Nat → Nat :=
  let X := orientX A B
  let Y := orientY A B
  let M := X.length
  let N := Y.length
  (recMemoCntF cl co X Y M N (M + N + 1) 0 0
    (fun _ _ => NOT_YET_COMPUTED, fun _ _ => 0)).2.2

/-! Basic lemmas about min3 and the fuelled recurrence. -/

theorem min3_eq_min (a b c : Int) : min3 a b c = min a (min b c) := by
  unfold min3
  split
  · omega
  · split <;> omega

theorem min3_comm23 (a b c : Int) : min3 a b c = min3 a c b := by
  simp [min3_eq_min]
  omega

theorem phiLF_succ_nil_nil (cl : BaseInterface) (co : Costs) (f : Nat) :
    phiLF cl co (f + 1) [] [] = 0 := rfl

theorem phiLF_succ_nil_cons (cl : BaseInterface) (co : Costs) (f : Nat)
    (b : Char) (ys : List Char) :
    phiLF cl co (f + 1) [] (b :: ys) = insIfBase cl co b + phiLF cl co f [] ys := rfl

theorem phiLF_succ_cons_nil (cl : BaseInterface) (co : Costs) (f : Nat)
    (a : Char) (xs : List Char) :
    phiLF cl co (f + 1) (a :: xs) [] = insIfBase cl co a + phiLF cl co f xs [] := rfl

theorem phiLF_succ_cons_cons (cl : BaseInterface) (co : Costs) (f : Nat)
    (a b : Char) (xs ys : List Char) :
    phiLF cl co (f + 1) (a :: xs) (b :: ys) =
      if ¬ cl.isBase a then phiLF cl co f xs (b :: ys)
      else if ¬ cl.isBase b then phiLF cl co f (a :: xs) ys
      else
        min3 (diagCost cl co a b + phiLF cl co f xs ys)
          (co.INSERTION_COST + phiLF cl co f xs (b :: ys))
          (co.INSERTION_COST + phiLF cl co f (a :: xs) ys) := rfl

theorem phiLF_congr (cl : BaseInterface) (co : Costs) :
    ∀ (f g : Nat) (X Y : List Char), X.length + Y.length < f →
      X.length + Y.length < g → phiLF cl co f X Y = phiLF cl co g X Y := by
  intro f
  induction f with
  | zero => intro g X Y hf hg; omega
  | succ f ih =>
    intro g X Y hf hg
    cases g with
    | zero => omega
    | succ g =>
      cases X with
      | nil =>
        cases Y with
        | nil => rfl
        | cons b ys =>
          rw [phiLF_succ_nil_cons, phiLF_succ_nil_cons]
          simp only [List.length_nil, List.length_cons] at hf hg
          rw [ih g [] ys (by (try simp only [List.length_nil, List.length_cons] at *); omega) (by (try simp only [List.length_nil, List.length_cons] at *); omega)]
      | cons a xs =>
        cases Y with
        | nil =>
          rw [phiLF_succ_cons_nil, phiLF_succ_cons_nil]
          simp only [List.length_nil, List.length_cons] at hf hg
          rw [ih g xs [] (by (try simp only [List.length_nil, List.length_cons] at *); omega) (by (try simp only [List.length_nil, List.length_cons] at *); omega)]
        | cons b ys =>
          rw [phiLF_succ_cons_cons, phiLF_succ_cons_cons]
          simp only [List.length_cons] at hf hg
          rw [ih g xs (b :: ys) (by (try simp only [List.length_nil, List.length_cons] at *); omega) (by (try simp only [List.length_nil, List.length_cons] at *); omega),
            ih g (a :: xs) ys (by (try simp only [List.length_nil, List.length_cons] at *); omega) (by (try simp only [List.length_nil, List.length_cons] at *); omega),
            ih g xs ys (by (try simp only [List.length_nil, List.length_cons] at *); omega) (by (try simp only [List.length_nil, List.length_cons] at *); omega)]

theorem phiL_fuel (cl : BaseInterface) (co : Costs) (f : Nat) (X Y : List Char)
    (hf : X.length + Y.length < f) : phiLF cl co f X Y = phiL cl co X Y := by
  unfold phiL
  exact phiLF_congr cl co f (X.length + Y.length + 1) X Y hf (by omega)

theorem phiL_nil_nil (cl : BaseInterface) (co : Costs) : phiL cl co [] [] = 0 := rfl

theorem phiL_nil_cons (cl : BaseInterface) (co : Costs) (b : Char) (ys : List Char) :
    phiL cl co [] (b :: ys) = insIfBase cl co b + phiL cl co [] ys := by
  unfold phiL
  simp only [List.length_nil, List.length_cons]
  rw [show Nat.zero + (ys.length + 1) + 1 = (Nat.zero + (ys.length + 1)) + 1 from rfl]
  rw [phiLF_succ_nil_cons]
  rw [phiLF_congr cl co (Nat.zero + (ys.length + 1)) (Nat.zero + ys.length + 1) [] ys
    (by (try simp only [List.length_nil, List.length_cons] at *); omega) (by (try simp only [List.length_nil, List.length_cons] at *); omega)]

theorem phiL_cons_nil (cl : BaseInterface) (co : Costs) (a : Char) (xs : List Char) :
    phiL cl co (a :: xs) [] = insIfBase cl co a + phiL cl co xs [] := by
  unfold phiL
  simp only [List.length_nil, List.length_cons]
  rw [show xs.length + 1 + Nat.zero + 1 = (xs.length + 1 + Nat.zero) + 1 from rfl]
  rw [phiLF_succ_cons_nil]

theorem phiL_cons_cons (cl : BaseInterface) (co : Costs) (a b : Char)
    (xs ys : List Char) (ha : cl.isBase a = true) (hb : cl.isBase b = true) :
    phiL cl co (a :: xs) (b :: ys) =
      min3 (diagCost cl co a b + phiL cl co xs ys)
        (co.INSERTION_COST + phiL cl co xs (b :: ys))
        (co.INSERTION_COST + phiL cl co (a :: xs) ys) := by
  unfold phiL
  simp only [List.length_cons]
  rw [show xs.length + 1 + (ys.length + 1) + 1 = (xs.length + 1 + (ys.length + 1)) + 1
    from rfl]
  rw [phiLF_succ_cons_cons]
  simp only [ha, hb, not_true_eq_false, if_false]
  rw [phiLF_congr cl co (xs.length + 1 + (ys.length + 1)) (xs.length + ys.length + 1)
      xs ys (by omega) (by omega),
    phiLF_congr cl co (xs.length + 1 + (ys.length + 1)) (xs.length + (ys.length + 1) + 1)
      xs (b :: ys) (by (try simp only [List.length_nil, List.length_cons] at *); omega) (by (try simp only [List.length_nil, List.length_cons] at *); omega),
    phiLF_congr cl co (xs.length + 1 + (ys.length + 1)) (xs.length + 1 + ys.length + 1)
      (a :: xs) ys (by (try simp only [List.length_nil, List.length_cons] at *); omega) (by (try simp only [List.length_nil, List.length_cons] at *); omega)]

theorem phiL_skipX (cl : BaseInterface) (co : Costs) (a : Char) (xs Y : List Char)
    (ha : cl.isBase a = false) : phiL cl co (a :: xs) Y = phiL cl co xs Y := by
  cases Y with
  | nil => rw [phiL_cons_nil]; simp [insIfBase, ha]
  | cons b ys =>
    unfold phiL
    simp only [List.length_cons]
    rw [show xs.length + 1 + (ys.length + 1) + 1 = (xs.length + 1 + (ys.length + 1)) + 1
      from rfl]
    rw [phiLF_succ_cons_cons]
    simp only [ha, Bool.false_eq_true, not_false_eq_true, if_true]
    rw [phiLF_congr cl co (xs.length + 1 + (ys.length + 1)) (xs.length + (ys.length + 1) + 1)
      xs (b :: ys) (by (try simp only [List.length_nil, List.length_cons] at *); omega) (by (try simp only [List.length_nil, List.length_cons] at *); omega)]

theorem phiL_skipY (cl : BaseInterface) (co : Costs) (b : Char) (X ys : List Char)
    (hb : cl.isBase b = false) : phiL cl co X (b :: ys) = phiL cl co X ys := by
  induction X with
  | nil => rw [phiL_nil_cons]; simp [insIfBase, hb]
  | cons a xs ih =>
    by_cases ha : cl.isBase a = true
    · unfold phiL
      simp only [List.length_cons]
      rw [show xs.length + 1 + (ys.length + 1) + 1 = (xs.length + 1 + (ys.length + 1)) + 1
        from rfl]
      rw [phiLF_succ_cons_cons]
      simp only [ha, hb, not_true_eq_false, if_false, Bool.false_eq_true,
        not_false_eq_true, if_true]
      rw [phiLF_congr cl co (xs.length + 1 + (ys.length + 1)) (xs.length + 1 + ys.length + 1)
        (a :: xs) ys (by (try simp only [List.length_nil, List.length_cons] at *); omega) (by (try simp only [List.length_nil, List.length_cons] at *); omega)]
    · simp only [Bool.not_eq_true] at ha
      rw [phiL_skipX cl co a xs _ ha, phiL_skipX cl co a xs _ ha, ih]

theorem min3_le_left (a b c : Int) : min3 a b c ≤ a := by
  rw [min3_eq_min]; omega

theorem min3_nonneg (a b c : Int) (ha : 0 ≤ a) (hb : 0 ≤ b) (hc : 0 ≤ c) :
    0 ≤ min3 a b c := by
  rw [min3_eq_min]; omega

theorem insIfBase_nonneg (cl : BaseInterface) (co : Costs)
    (hi : 0 ≤ co.INSERTION_COST) (c : Char) : 0 ≤ insIfBase cl co c := by
  unfold insIfBase; split <;> omega

theorem diagCost_nonneg (cl : BaseInterface) (co : Costs)
    (hs : 0 ≤ co.SUBSTITUTION_COST) (hu : 0 ≤ co.SUBSTITUTION_UNKNOWN_COST)
    (x y : Char) : 0 ≤ diagCost cl co x y := by
  unfold diagCost; split
  · omega
  · split <;> omega

theorem phiL_nonneg_aux (cl : BaseInterface) (co : Costs)
    (hs : 0 ≤ co.SUBSTITUTION_COST) (hu : 0 ≤ co.SUBSTITUTION_UNKNOWN_COST)
    (hi : 0 ≤ co.INSERTION_COST) :
    ∀ (n : Nat) (X Y : List Char), X.length + Y.length ≤ n → 0 ≤ phiL cl co X Y := by
  intro n
  induction n with
  | zero =>
    intro X Y hlen
    have hX : X = [] := by cases X <;> simp_all
    have hY : Y = [] := by cases Y <;> simp_all
    subst hX; subst hY
    rw [phiL_nil_nil]
  | succ n ih =>
    intro X Y hlen
    cases X with
    | nil =>
      cases Y with
      | nil => rw [phiL_nil_nil]
      | cons b ys =>
        rw [phiL_nil_cons]
        have h1 := insIfBase_nonneg cl co hi b
        have h2 := ih [] ys (by (try simp only [List.length_nil, List.length_cons] at *); omega)
        omega
    | cons a xs =>
      cases Y with
      | nil =>
        rw [phiL_cons_nil]
        have h1 := insIfBase_nonneg cl co hi a
        have h2 := ih xs [] (by (try simp only [List.length_nil, List.length_cons] at *); omega)
        omega
      | cons b ys =>
        simp only [List.length_cons] at hlen
        by_cases ha : cl.isBase a = true
        · by_cases hb : cl.isBase b = true
          · rw [phiL_cons_cons cl co a b xs ys ha hb]
            have h1 := diagCost_nonneg cl co hs hu a b
            have h2 := ih xs ys (by (try simp only [List.length_nil, List.length_cons] at *); omega)
            have h3 := ih xs (b :: ys) (by (try simp only [List.length_nil, List.length_cons] at *); omega)
            have h4 := ih (a :: xs) ys (by (try simp only [List.length_nil, List.length_cons] at *); omega)
            exact min3_nonneg _ _ _ (by omega) (by omega) (by omega)
          · rw [phiL_skipY cl co b (a :: xs) ys (by simpa using hb)]
            exact ih (a :: xs) ys (by (try simp only [List.length_nil, List.length_cons] at *); omega)
        · rw [phiL_skipX cl co a xs (b :: ys) (by simpa using ha)]
          exact ih xs (b :: ys) (by (try simp only [List.length_nil, List.length_cons] at *); omega)

theorem phiL_nonneg (cl : BaseInterface) (co : Costs)
    (hs : 0 ≤ co.SUBSTITUTION_COST) (hu : 0 ≤ co.SUBSTITUTION_UNKNOWN_COST)
    (hi : 0 ≤ co.INSERTION_COST) (X Y : List Char) : 0 ≤ phiL cl co X Y :=
  phiL_nonneg_aux cl co hs hu hi (X.length + Y.length) X Y le_rfl

theorem phiL_filter_aux (cl : BaseInterface) (co : Costs) :
    ∀ (n : Nat) (X Y : List Char), X.length + Y.length ≤ n →
      phiL cl co X Y = phiL cl co (X.filter cl.isBase) (Y.filter cl.isBase) := by
  intro n
  induction n with
  | zero =>
    intro X Y hlen
    have hX : X = [] := by cases X <;> simp_all
    have hY : Y = [] := by cases Y <;> simp_all
    subst hX; subst hY; rfl
  | succ n ih =>
    intro X Y hlen
    cases X with
    | nil =>
      cases Y with
      | nil => rfl
      | cons b ys =>
        simp only [List.length_nil, List.length_cons] at hlen
        have hys := ih [] ys (by (try simp only [List.length_nil, List.length_cons] at *); omega)
        simp only [List.filter_nil] at hys
        simp only [List.filter_nil]
        by_cases hb : cl.isBase b = true
        · rw [List.filter_cons_of_pos hb, phiL_nil_cons, phiL_nil_cons, hys]
        · rw [List.filter_cons_of_neg (by simpa using hb),
            phiL_skipY cl co b [] ys (by simpa using hb), hys]
    | cons a xs =>
      cases Y with
      | nil =>
        simp only [List.length_nil, List.length_cons] at hlen
        have hxs := ih xs [] (by (try simp only [List.length_nil, List.length_cons] at *); omega)
        simp only [List.filter_nil] at hxs
        simp only [List.filter_nil]
        by_cases ha : cl.isBase a = true
        · rw [List.filter_cons_of_pos ha, phiL_cons_nil, phiL_cons_nil, hxs]
        · rw [List.filter_cons_of_neg (by simpa using ha),
            phiL_skipX cl co a xs [] (by simpa using ha), hxs]
      | cons b ys =>
        simp only [List.length_cons] at hlen
        by_cases ha : cl.isBase a = true
        · by_cases hb : cl.isBase b = true
          · rw [List.filter_cons_of_pos ha, List.filter_cons_of_pos hb,
              phiL_cons_cons cl co a b xs ys ha hb,
              phiL_cons_cons cl co a b _ _ ha hb,
              ih xs ys (by (try simp only [List.length_nil, List.length_cons] at *); omega),
              ih xs (b :: ys) (by (try simp only [List.length_nil, List.length_cons] at *); omega),
              ih (a :: xs) ys (by (try simp only [List.length_nil, List.length_cons] at *); omega)]
            rw [List.filter_cons_of_pos hb, List.filter_cons_of_pos ha]
          · rw [List.filter_cons_of_neg (a := b) (by simpa using hb),
              phiL_skipY cl co b (a :: xs) ys (by simpa using hb),
              ih (a :: xs) ys (by (try simp only [List.length_nil, List.length_cons] at *); omega)]
        · rw [List.filter_cons_of_neg (a := a) (by simpa using ha),
            phiL_skipX cl co a xs (b :: ys) (by simpa using ha),
            ih xs (b :: ys) (by (try simp only [List.length_nil, List.length_cons] at *); omega)]

theorem phiL_filter (cl : BaseInterface) (co : Costs) (X Y : List Char) :
    phiL cl co X Y = phiL cl co (X.filter cl.isBase) (Y.filter cl.isBase) :=
  phiL_filter_aux cl co (X.length + Y.length) X Y le_rfl

theorem phiL_comm_aux (cl : BaseInterface) (co : Costs)
    (hsym : ∀ a b, cl.isSameBase a b = cl.isSameBase b a) :
    ∀ (n : Nat) (X Y : List Char), X.length + Y.length ≤ n →
      (∀ c ∈ X, cl.isUnknownBase c = false) → (∀ c ∈ Y, cl.isUnknownBase c = false) →
      phiL cl co X Y = phiL cl co Y X := by
  intro n
  induction n with
  | zero =>
    intro X Y hlen _ _
    have hX : X = [] := by cases X <;> simp_all
    have hY : Y = [] := by cases Y <;> simp_all
    subst hX; subst hY; rfl
  | succ n ih =>
    intro X Y hlen hXu hYu
    cases X with
    | nil =>
      cases Y with
      | nil => rfl
      | cons b ys =>
        rw [phiL_nil_cons, phiL_cons_nil,
          ih [] ys (by (try simp only [List.length_nil, List.length_cons] at *); omega)
            (by simp) (fun c hc => hYu c (List.mem_cons_of_mem b hc))]
    | cons a xs =>
      cases Y with
      | nil =>
        rw [phiL_cons_nil, phiL_nil_cons,
          ih xs [] (by (try simp only [List.length_nil, List.length_cons] at *); omega)
            (fun c hc => hXu c (List.mem_cons_of_mem a hc)) (by simp)]
      | cons b ys =>
        simp only [List.length_cons] at hlen
        have hxu : ∀ c ∈ xs, cl.isUnknownBase c = false :=
          fun c hc => hXu c (List.mem_cons_of_mem a hc)
        have hyu : ∀ c ∈ ys, cl.isUnknownBase c = false :=
          fun c hc => hYu c (List.mem_cons_of_mem b hc)
        have hau : cl.isUnknownBase a = false := hXu a (List.mem_cons_self a xs)
        have hbu : cl.isUnknownBase b = false := hYu b (List.mem_cons_self b ys)
        by_cases ha : cl.isBase a = true
        · by_cases hb : cl.isBase b = true
          · rw [phiL_cons_cons cl co a b xs ys ha hb,
              phiL_cons_cons cl co b a ys xs hb ha,
              ih xs ys (by (try simp only [List.length_nil, List.length_cons] at *); omega)
                hxu hyu,
              ih xs (b :: ys)
                (by (try simp only [List.length_nil, List.length_cons] at *); omega)
                hxu hYu,
              ih (a :: xs) ys
                (by (try simp only [List.length_nil, List.length_cons] at *); omega)
                hXu hyu]
            have hd : diagCost cl co a b = diagCost cl co b a := by
              unfold diagCost
              rw [hau, hbu, hsym a b]
            rw [hd, min3_comm23]
          · rw [phiL_skipY cl co b (a :: xs) ys (by simpa using hb),
              phiL_skipX cl co b ys (a :: xs) (by simpa using hb),
              ih (a :: xs) ys
                (by (try simp only [List.length_nil, List.length_cons] at *); omega)
                hXu hyu]
        · rw [phiL_skipX cl co a xs (b :: ys) (by simpa using ha),
            phiL_skipY cl co a (b :: ys) xs (by simpa using ha),
            ih xs (b :: ys)
              (by (try simp only [List.length_nil, List.length_cons] at *); omega)
              hxu hYu]

theorem phiL_comm (cl : BaseInterface) (co : Costs)
    (hsym : ∀ a b, cl.isSameBase a b = cl.isSameBase b a) (X Y : List Char)
    (hXu : ∀ c ∈ X, cl.isUnknownBase c = false)
    (hYu : ∀ c ∈ Y, cl.isUnknownBase c = false) :
    phiL cl co X Y = phiL cl co Y X :=
  phiL_comm_aux cl co hsym (X.length + Y.length) X Y le_rfl hXu hYu

theorem phiL_self (cl : BaseInterface) (co : Costs)
    (hs : 0 ≤ co.SUBSTITUTION_COST) (hu : 0 ≤ co.SUBSTITUTION_UNKNOWN_COST)
    (hi : 0 ≤ co.INSERTION_COST) :
    ∀ S : List Char, (∀ c ∈ S, cl.isBase c = true) →
      (∀ c ∈ S, cl.isUnknownBase c = false) →
      (∀ c ∈ S, cl.isSameBase c c = true) → phiL cl co S S = 0 := by
  intro S
  induction S with
  | nil => intro _ _ _; rfl
  | cons a xs ih =>
    intro hbase hunk hrefl
    have ha : cl.isBase a = true := hbase a (List.mem_cons_self a xs)
    rw [phiL_cons_cons cl co a a xs xs ha ha]
    have hd : diagCost cl co a a = 0 := by
      unfold diagCost
      rw [hunk a (List.mem_cons_self a xs), hrefl a (List.mem_cons_self a xs)]
      simp
    rw [hd, ih (fun c hc => hbase c (List.mem_cons_of_mem a hc))
      (fun c hc => hunk c (List.mem_cons_of_mem a hc))
      (fun c hc => hrefl c (List.mem_cons_of_mem a hc))]
    have h2 := phiL_nonneg cl co hs hu hi xs (a :: xs)
    have h3 := phiL_nonneg cl co hs hu hi (a :: xs) xs
    rw [min3_eq_min]
    omega

theorem diagCost_le_ins (cl : BaseInterface) (co : Costs)
    (hi : 0 ≤ co.INSERTION_COST) (hsi : co.SUBSTITUTION_COST ≤ co.INSERTION_COST)
    (hui : co.SUBSTITUTION_UNKNOWN_COST ≤ co.INSERTION_COST) (x y : Char) :
    diagCost cl co x y ≤ co.INSERTION_COST := by
  unfold diagCost; split
  · omega
  · split <;> omega

theorem phiL_upper_aux (cl : BaseInterface) (co : Costs)
    (hs : 0 ≤ co.SUBSTITUTION_COST) (hu : 0 ≤ co.SUBSTITUTION_UNKNOWN_COST)
    (hi : 0 ≤ co.INSERTION_COST) (hsi : co.SUBSTITUTION_COST ≤ co.INSERTION_COST)
    (hui : co.SUBSTITUTION_UNKNOWN_COST ≤ co.INSERTION_COST) :
    ∀ (n : Nat) (X Y : List Char), X.length + Y.length ≤ n →
      phiL cl co X Y ≤
        co.INSERTION_COST *
          ((max (X.filter cl.isBase).length (Y.filter cl.isBase).length : Nat) : Int) := by
  intro n
  induction n with
  | zero =>
    intro X Y hlen
    have hX : X = [] := by cases X <;> simp_all
    have hY : Y = [] := by cases Y <;> simp_all
    subst hX; subst hY
    simp [phiL_nil_nil]
  | succ n ih =>
    intro X Y hlen
    cases X with
    | nil =>
      cases Y with
      | nil => simp [phiL_nil_nil]
      | cons b ys =>
        have hys := ih [] ys (by (try simp only [List.length_nil, List.length_cons] at *); omega)
        simp only [List.filter_nil, List.length_nil, Nat.max_eq_right (Nat.zero_le _)] at hys ⊢
        rw [phiL_nil_cons]
        by_cases hb : cl.isBase b = true
        · rw [List.filter_cons_of_pos hb]
          simp only [List.length_cons]
          have hins : insIfBase cl co b = co.INSERTION_COST := by simp [insIfBase, hb]
          rw [hins]
          push_cast
          have : co.INSERTION_COST * (((ys.filter cl.isBase).length : Int) + 1) =
              co.INSERTION_COST * ((ys.filter cl.isBase).length : Int) + co.INSERTION_COST := by
            ring
          omega
        · rw [List.filter_cons_of_neg (by simpa using hb)]
          have hins : insIfBase cl co b = 0 := by simp [insIfBase, hb]
          rw [hins]
          omega
    | cons a xs =>
      cases Y with
      | nil =>
        have hxs := ih xs [] (by (try simp only [List.length_nil, List.length_cons] at *); omega)
        simp only [List.filter_nil, List.length_nil, Nat.max_eq_left (Nat.zero_le _)] at hxs ⊢
        rw [phiL_cons_nil]
        by_cases ha : cl.isBase a = true
        · rw [List.filter_cons_of_pos ha]
          simp only [List.length_cons]
          have hins : insIfBase cl co a = co.INSERTION_COST := by simp [insIfBase, ha]
          rw [hins]
          push_cast
          have : co.INSERTION_COST * (((xs.filter cl.isBase).length : Int) + 1) =
              co.INSERTION_COST * ((xs.filter cl.isBase).length : Int) + co.INSERTION_COST := by
            ring
          omega
        · rw [List.filter_cons_of_neg (by simpa using ha)]
          have hins : insIfBase cl co a = 0 := by simp [insIfBase, ha]
          rw [hins]
          omega
      | cons b ys =>
        simp only [List.length_cons] at hlen
        by_cases ha : cl.isBase a = true
        · by_cases hb : cl.isBase b = true
          · rw [phiL_cons_cons cl co a b xs ys ha hb,
              List.filter_cons_of_pos ha, List.filter_cons_of_pos hb]
            have h1 := min3_le_left (diagCost cl co a b + phiL cl co xs ys)
              (co.INSERTION_COST + phiL cl co xs (b :: ys))
              (co.INSERTION_COST + phiL cl co (a :: xs) ys)
            have h2 := diagCost_le_ins cl co hi hsi hui a b
            have h3 := ih xs ys (by (try simp only [List.length_nil, List.length_cons] at *); omega)
            simp only [List.length_cons]
            have hmax : max ((xs.filter cl.isBase).length + 1) ((ys.filter cl.isBase).length + 1)
                = max (xs.filter cl.isBase).length (ys.filter cl.isBase).length + 1 := by
              omega
            rw [hmax]
            have hcast : ((max (xs.filter cl.isBase).length (ys.filter cl.isBase).length + 1 : Nat) : Int) =
                ((max (xs.filter cl.isBase).length (ys.filter cl.isBase).length : Nat) : Int) + 1 := by
              push_cast
              ring
            rw [hcast]
            have hdist : co.INSERTION_COST *
                (((max (xs.filter cl.isBase).length (ys.filter cl.isBase).length : Nat) : Int) + 1) =
                co.INSERTION_COST *
                  ((max (xs.filter cl.isBase).length (ys.filter cl.isBase).length : Nat) : Int)
                  + co.INSERTION_COST := by
              ring
            omega
          · rw [phiL_skipY cl co b (a :: xs) ys (by simpa using hb),
              List.filter_cons_of_neg (a := b) (by simpa using hb)]
            exact ih (a :: xs) ys (by (try simp only [List.length_nil, List.length_cons] at *); omega)
        · rw [phiL_skipX cl co a xs (b :: ys) (by simpa using ha),
            List.filter_cons_of_neg (a := a) (by simpa using ha)]
          exact ih xs (b :: ys) (by (try simp only [List.length_nil, List.length_cons] at *); omega)

theorem phiL_upper (cl : BaseInterface) (co : Costs)
    (hs : 0 ≤ co.SUBSTITUTION_COST) (hu : 0 ≤ co.SUBSTITUTION_UNKNOWN_COST)
    (hi : 0 ≤ co.INSERTION_COST) (hsi : co.SUBSTITUTION_COST ≤ co.INSERTION_COST)
    (hui : co.SUBSTITUTION_UNKNOWN_COST ≤ co.INSERTION_COST) (X Y : List Char) :
    phiL cl co X Y ≤ co.INSERTION_COST * ((max X.length Y.length : Nat) : Int) := by
  have h1 := phiL_upper_aux cl co hs hu hi hsi hui (X.length + Y.length) X Y le_rfl
  have h2 : max (X.filter cl.isBase).length (Y.filter cl.isBase).length ≤
      max X.length Y.length :=
    max_le_max (List.length_filter_le _ _) (List.length_filter_le _ _)
  have h3 : co.INSERTION_COST *
      ((max (X.filter cl.isBase).length (Y.filter cl.isBase).length : Nat) : Int) ≤
      co.INSERTION_COST * ((max X.length Y.length : Nat) : Int) := by
    apply mul_le_mul_of_nonneg_left _ hi
    exact_mod_cast h2
  omega

theorem specBase_N_isBase : specBase.isBase 'N' = true := by decide

theorem specBase_N_isUnknown : specBase.isUnknownBase 'N' = true := by decide

theorem phiL_repN_aux :
    ∀ (n a : Nat) (Y : List Char), a + Y.length ≤ n →
      (∀ c ∈ Y, specBase.isBase c = true ∧ specBase.isUnknownBase c = false) →
      phiL specBase specCosts (List.replicate a 'N') Y =
        2 * ((max a Y.length : Nat) : Int) := by
  intro n
  induction n with
  | zero =>
    intro a Y hlen _
    have ha : a = 0 := by omega
    have hY : Y = [] := by cases Y <;> simp_all
    subst ha; subst hY
    simp [phiL_nil_nil]
  | succ n ih =>
    intro a Y hlen hY
    cases a with
    | zero =>
      cases Y with
      | nil => simp [phiL_nil_nil]
      | cons b ys =>
        simp only [List.replicate_zero]
        rw [phiL_nil_cons]
        have hb := (hY b (List.mem_cons_self b ys)).1
        have hins : insIfBase specBase specCosts b = 2 := by
          simp [insIfBase, hb, specCosts]
        rw [hins]
        have hys := ih 0 ys (by (try simp only [List.length_nil, List.length_cons] at *); omega)
          (fun c hc => hY c (List.mem_cons_of_mem b hc))
        simp only [List.replicate_zero] at hys
        rw [hys]
        simp only [List.length_cons]
        push_cast
        omega
    | succ a =>
      cases Y with
      | nil =>
        simp only [List.replicate_succ]
        rw [phiL_cons_nil]
        have hins : insIfBase specBase specCosts 'N' = 2 := by decide
        rw [hins]
        have hrep := ih a [] (by (try simp only [List.length_nil, List.length_cons] at *); omega)
          (by simp)
        rw [hrep]
        simp only [List.length_nil]
        push_cast
        omega
      | cons b ys =>
        simp only [List.replicate_succ]
        have hb := (hY b (List.mem_cons_self b ys)).1
        rw [phiL_cons_cons specBase specCosts 'N' b _ _ specBase_N_isBase hb]
        have hdc : diagCost specBase specCosts 'N' b = 2 := by
          simp [diagCost, specBase_N_isUnknown, specCosts]
        rw [hdc]
        have h1 := ih a ys (by (try simp only [List.length_nil, List.length_cons] at *); omega)
          (fun c hc => hY c (List.mem_cons_of_mem b hc))
        have h2 := ih a (b :: ys) (by (try simp only [List.length_nil, List.length_cons] at *); omega)
          hY
        have h3' : a + 1 + ys.length ≤ n := by
          (try simp only [List.length_nil, List.length_cons] at *); omega
        have h3 := ih (a + 1) ys h3'
          (fun c hc => hY c (List.mem_cons_of_mem b hc))
        simp only [List.replicate_succ] at h2 h3
        rw [h1, h2, h3, min3_eq_min]
        simp only [specCosts, List.length_cons]
        push_cast
        omega

theorem phiL_repN (n : Nat) (Y : List Char) (hlen : Y.length = n)
    (hY : ∀ c ∈ Y, specBase.isBase c = true ∧ specBase.isUnknownBase c = false) :
    phiL specBase specCosts (List.replicate n 'N') Y = 2 * (n : Int) := by
  have h := phiL_repN_aux (n + Y.length) n Y le_rfl hY
  rw [hlen] at h
  simpa using h

theorem recMemoF_succ (cl : BaseInterface) (co : Costs) (X Y : List Char)
    (M N : Nat) (fuel i j : Nat) (memo : Nat → Nat → Int) :
    recMemoF cl co X Y M N (fuel + 1) i j memo =
      if memo i j = NOT_YET_COMPUTED then
        let Xi := chAt X i
        let Yj := chAt Y j
        let rm :=
          if i = M then
            if j = N then (0, memo)
            else
              let vm := recMemoF cl co X Y M N fuel i (j + 1) memo
              (insIfBase cl co Yj + vm.1, vm.2)
          else if j = N then
            let vm := recMemoF cl co X Y M N fuel (i + 1) j memo
            (insIfBase cl co Xi + vm.1, vm.2)
          else if ¬ cl.isBase Xi then
            recMemoF cl co X Y M N fuel (i + 1) j memo
          else if ¬ cl.isBase Yj then
            recMemoF cl co X Y M N fuel i (j + 1) memo
          else
            let vm1 := recMemoF cl co X Y M N fuel (i + 1) (j + 1) memo
            let mn1 := diagCost cl co Xi Yj + vm1.1
            let vm2 := recMemoF cl co X Y M N fuel (i + 1) j vm1.2
            let cas2 := co.INSERTION_COST + vm2.1
            let mn2 := if cas2 < mn1 then cas2 else mn1
            let vm3 := recMemoF cl co X Y M N fuel i (j + 1) vm2.2
            let cas3 := co.INSERTION_COST + vm3.1
            let mn3 := if cas3 < mn2 then cas3 else mn2
            (mn3, vm3.2)
        (rm.1, memoSet rm.2 i j rm.1)
      else (memo i j, memo) := rfl

theorem min_acc_eq_min3 (a b c : Int) :
    (if c < (if b < a then b else a) then c else (if b < a then b else a)) =
      min3 a b c := by
  unfold min3
  split_ifs <;> omega

theorem drop_cons_chAt (S : List Char) (i : Nat) (h : i < S.length) :
    S.drop i = chAt S i :: S.drop (i + 1) := by
  unfold chAt
  rw [List.getD_eq_getElem S _ h]
  exact List.drop_eq_getElem_cons h

theorem drop_len_nil (S : List Char) : S.drop S.length = [] := by
  simp

theorem recMemoF_correct (cl : BaseInterface) (co : Costs) (X Y : List Char) :
    ∀ (fuel i j : Nat) (memo : Nat → Nat → Int),
      i ≤ X.length → j ≤ Y.length →
      (X.length - i) + (Y.length - j) < fuel →
      (∀ i' j', i' ≤ X.length → j' ≤ Y.length →
        memo i' j' = NOT_YET_COMPUTED ∨
          memo i' j' = phiL cl co (X.drop i') (Y.drop j')) →
      (recMemoF cl co X Y X.length Y.length fuel i j memo).1 =
          phiL cl co (X.drop i) (Y.drop j) ∧
        (∀ i' j', i' ≤ X.length → j' ≤ Y.length →
          (recMemoF cl co X Y X.length Y.length fuel i j memo).2 i' j' =
              NOT_YET_COMPUTED ∨
            (recMemoF cl co X Y X.length Y.length fuel i j memo).2 i' j' =
              phiL cl co (X.drop i') (Y.drop j')) := by
  intro fuel
  induction fuel with
  | zero => intro i j memo hi hj hfuel hinv; omega
  | succ fuel ih =>
    intro i j memo hi hj hfuel hinv
    rw [recMemoF_succ]
    by_cases hm : memo i j = NOT_YET_COMPUTED
    · rw [if_pos hm]
      by_cases hiM : i = X.length
      · by_cases hjN : j = Y.length
        · subst hiM; subst hjN
          simp only [eq_self_iff_true, if_true]
          constructor
          · rw [drop_len_nil, drop_len_nil, phiL_nil_nil]
          · intro i' j' hi' hj'
            unfold memoSet
            by_cases hij : i' = X.length ∧ j' = Y.length
            · rw [if_pos hij, hij.1, hij.2, drop_len_nil, drop_len_nil, phiL_nil_nil]
              right; rfl
            · rw [if_neg hij]
              exact hinv i' j' hi' hj'
        · have hjlt : j < Y.length := lt_of_le_of_ne hj hjN
          have hrec := ih i (j + 1) memo hi hjlt (by omega) hinv
          subst hiM
          simp only [eq_self_iff_true, if_true, if_neg hjN]
          have hphi : phiL cl co (X.drop X.length) (Y.drop j) =
              insIfBase cl co (chAt Y j) + phiL cl co (X.drop X.length) (Y.drop (j + 1)) := by
            rw [drop_len_nil, drop_cons_chAt Y j hjlt, phiL_nil_cons]
          constructor
          · rw [hphi, hrec.1]
          · intro i' j' hi' hj'
            unfold memoSet
            by_cases hij : i' = X.length ∧ j' = j
            · rw [if_pos hij, hij.1, hij.2, hphi, hrec.1]
              right; rfl
            · rw [if_neg hij]
              exact hrec.2 i' j' hi' hj'
      · have hilt : i < X.length := lt_of_le_of_ne hi hiM
        by_cases hjN : j = Y.length
        · have hrec := ih (i + 1) j memo hilt hj (by omega) hinv
          subst hjN
          simp only [if_neg hiM, eq_self_iff_true, if_true]
          have hphi : phiL cl co (X.drop i) (Y.drop Y.length) =
              insIfBase cl co (chAt X i) + phiL cl co (X.drop (i + 1)) (Y.drop Y.length) := by
            rw [drop_len_nil, drop_cons_chAt X i hilt, phiL_cons_nil]
          constructor
          · rw [hphi, hrec.1]
          · intro i' j' hi' hj'
            unfold memoSet
            by_cases hij : i' = i ∧ j' = Y.length
            · rw [if_pos hij, hij.1, hij.2, hphi, hrec.1]
              right; rfl
            · rw [if_neg hij]
              exact hrec.2 i' j' hi' hj'
        · have hjlt : j < Y.length := lt_of_le_of_ne hj hjN
          by_cases hbx : cl.isBase (chAt X i) = true
          · by_cases hby : cl.isBase (chAt Y j) = true
            · have hrec1 := ih (i + 1) (j + 1) memo hilt hjlt (by omega) hinv
              have hrec2 := ih (i + 1) j
                (recMemoF cl co X Y X.length Y.length fuel (i + 1) (j + 1) memo).2
                hilt hj (by omega) hrec1.2
              have hrec3 := ih i (j + 1)
                (recMemoF cl co X Y X.length Y.length fuel (i + 1) j
                  (recMemoF cl co X Y X.length Y.length fuel (i + 1) (j + 1) memo).2).2
                hi hjlt (by omega) hrec2.2
              simp only [if_neg hiM, if_neg hjN, hbx, hby, not_true_eq_false,
                if_false]
              have hphi : phiL cl co (X.drop i) (Y.drop j) =
                  min3 (diagCost cl co (chAt X i) (chAt Y j) +
                      phiL cl co (X.drop (i + 1)) (Y.drop (j + 1)))
                    (co.INSERTION_COST + phiL cl co (X.drop (i + 1)) (Y.drop j))
                    (co.INSERTION_COST + phiL cl co (X.drop i) (Y.drop (j + 1))) := by
                rw [drop_cons_chAt X i hilt, drop_cons_chAt Y j hjlt,
                  phiL_cons_cons cl co _ _ _ _ hbx hby,
                  ← drop_cons_chAt X i hilt, ← drop_cons_chAt Y j hjlt]
              have hval : (if co.INSERTION_COST +
                    (recMemoF cl co X Y X.length Y.length fuel i (j + 1)
                      (recMemoF cl co X Y X.length Y.length fuel (i + 1) j
                        (recMemoF cl co X Y X.length Y.length fuel (i + 1) (j + 1) memo).2).2).1 <
                    (if co.INSERTION_COST +
                        (recMemoF cl co X Y X.length Y.length fuel (i + 1) j
                          (recMemoF cl co X Y X.length Y.length fuel (i + 1) (j + 1) memo).2).1 <
                        diagCost cl co (chAt X i) (chAt Y j) +
                          (recMemoF cl co X Y X.length Y.length fuel (i + 1) (j + 1) memo).1
                      then co.INSERTION_COST +
                        (recMemoF cl co X Y X.length Y.length fuel (i + 1) j
                          (recMemoF cl co X Y X.length Y.length fuel (i + 1) (j + 1) memo).2).1
                      else diagCost cl co (chAt X i) (chAt Y j) +
                        (recMemoF cl co X Y X.length Y.length fuel (i + 1) (j + 1) memo).1)
                  then co.INSERTION_COST +
                    (recMemoF cl co X Y X.length Y.length fuel i (j + 1)
                      (recMemoF cl co X Y X.length Y.length fuel (i + 1) j
                        (recMemoF cl co X Y X.length Y.length fuel (i + 1) (j + 1) memo).2).2).1
                  else (if co.INSERTION_COST +
                        (recMemoF cl co X Y X.length Y.length fuel (i + 1) j
                          (recMemoF cl co X Y X.length Y.length fuel (i + 1) (j + 1) memo).2).1 <
                        diagCost cl co (chAt X i) (chAt Y j) +
                          (recMemoF cl co X Y X.length Y.length fuel (i + 1) (j + 1) memo).1
                      then co.INSERTION_COST +
                        (recMemoF cl co X Y X.length Y.length fuel (i + 1) j
                          (recMemoF cl co X Y X.length Y.length fuel (i + 1) (j + 1) memo).2).1
                      else diagCost cl co (chAt X i) (chAt Y j) +
                        (recMemoF cl co X Y X.length Y.length fuel (i + 1) (j + 1) memo).1)) =
                  phiL cl co (X.drop i) (Y.drop j) := by
                rw [min_acc_eq_min3, hrec1.1, hrec2.1, hrec3.1, hphi]
              constructor
              · exact hval
              · intro i' j' hi' hj'
                unfold memoSet
                by_cases hij : i' = i ∧ j' = j
                · rw [if_pos hij, hij.1, hij.2]
                  right
                  exact hval
                · rw [if_neg hij]
                  exact hrec3.2 i' j' hi' hj'
            · have hrec := ih i (j + 1) memo hi hjlt (by omega) hinv
              simp only [if_neg hiM, if_neg hjN, hbx, hby, not_true_eq_false,
                Bool.false_eq_true, not_false_eq_true, if_true, if_false]
              have hphi : phiL cl co (X.drop i) (Y.drop j) =
                  phiL cl co (X.drop i) (Y.drop (j + 1)) := by
                rw [drop_cons_chAt Y j hjlt,
                  phiL_skipY cl co _ _ _ (by simpa using hby)]
              constructor
              · rw [hphi, hrec.1]
              · intro i' j' hi' hj'
                unfold memoSet
                by_cases hij : i' = i ∧ j' = j
                · rw [if_pos hij, hij.1, hij.2, hphi, hrec.1]
                  right; rfl
                · rw [if_neg hij]
                  exact hrec.2 i' j' hi' hj'
          · have hrec := ih (i + 1) j memo hilt hj (by omega) hinv
            simp only [if_neg hiM, if_neg hjN, hbx, Bool.false_eq_true,
              not_false_eq_true, if_true]
            have hphi : phiL cl co (X.drop i) (Y.drop j) =
                phiL cl co (X.drop (i + 1)) (Y.drop j) := by
              rw [drop_cons_chAt X i hilt,
                phiL_skipX cl co _ _ _ (by simpa using hbx)]
            constructor
            · rw [hphi, hrec.1]
            · intro i' j' hi' hj'
              unfold memoSet
              by_cases hij : i' = i ∧ j' = j
              · rw [if_pos hij, hij.1, hij.2, hphi, hrec.1]
                right; rfl
              · rw [if_neg hij]
                exact hrec.2 i' j' hi' hj'
    · rw [if_neg hm]
      rcases hinv i j hi hj with h | h
      · exact absurd h hm
      · exact ⟨h, hinv⟩

theorem Rec_eq_phi (cl : BaseInterface) (co : Costs) (A B : List Char) :
    EditDistance_NW_Rec cl co A B = phiL cl co (orientX A B) (orientY A B) := by
  unfold EditDistance_NW_Rec
  have h := recMemoF_correct cl co (orientX A B) (orientY A B)
    ((orientX A B).length + (orientY A B).length + 1) 0 0
    (fun _ _ => NOT_YET_COMPUTED) (Nat.zero_le _) (Nat.zero_le _) (by omega)
    (fun i' j' _ _ => Or.inl rfl)
  simpa using h.1

theorem Rec_finalMemo_inv (cl : BaseInterface) (co : Costs) (A B : List Char) :
    ∀ i j, i ≤ (orientX A B).length → j ≤ (orientY A B).length →
      NW_Rec_finalMemo cl co A B i j = NOT_YET_COMPUTED ∨
        NW_Rec_finalMemo cl co A B i j =
          phiL cl co ((orientX A B).drop i) ((orientY A B).drop j) := by
  intro i j hi hj
  unfold NW_Rec_finalMemo
  have h := recMemoF_correct cl co (orientX A B) (orientY A B)
    ((orientX A B).length + (orientY A B).length + 1) 0 0
    (fun _ _ => NOT_YET_COMPUTED) (Nat.zero_le _) (Nat.zero_le _) (by omega)
    (fun i' j' _ _ => Or.inl rfl)
  exact h.2 i j hi hj

theorem initColLoop_correct (cl : BaseInterface) (co : Costs) (Y : List Char) :
    ∀ (k : Nat) (b : Nat → Int), k ≤ Y.length →
      b k = phiL cl co [] (Y.drop k) →
      (∀ r, r ≤ k → initColLoop cl co Y k b r = phiL cl co [] (Y.drop r)) ∧
        (∀ r, k < r → initColLoop cl co Y k b r = b r) := by
  intro k
  induction k with
  | zero =>
    intro b _ hb
    constructor
    · intro r hr
      have : r = 0 := by omega
      subst this
      exact hb
    · intro r _; rfl
  | succ k ih =>
    intro b hk hb
    have hlt : k < Y.length := by omega
    have hb' : (updN b k (insIfBase cl co (chAt Y k) + b (k + 1))) k =
        phiL cl co [] (Y.drop k) := by
      unfold updN
      rw [if_pos rfl, hb, drop_cons_chAt Y k hlt, phiL_nil_cons]
    have hrec := ih (updN b k (insIfBase cl co (chAt Y k) + b (k + 1))) (by omega) hb'
    unfold initColLoop
    constructor
    · intro r hr
      by_cases hrk : r ≤ k
      · exact hrec.1 r hrk
      · have : r = k + 1 := by omega
        subst this
        rw [hrec.2 (k + 1) (by omega)]
        unfold updN
        rw [if_neg (by omega), hb]
    · intro r hr
      rw [hrec.2 r (by omega)]
      unfold updN
      rw [if_neg (by omega)]

theorem iterRowStep_correct (cl : BaseInterface) (co : Costs) (X Y : List Char)
    (c r : Nat) (hc : c < X.length) (hr : r ≤ Y.length) (s : (Nat → Int) × Int)
    (hbufhi : ∀ r', r < r' → r' ≤ Y.length →
      s.1 r' = phiL cl co (X.drop c) (Y.drop r'))
    (hbuflo : ∀ r', r' ≤ r → s.1 r' = phiL cl co (X.drop (c + 1)) (Y.drop r'))
    (hprev : r < Y.length → s.2 = phiL cl co (X.drop (c + 1)) (Y.drop (r + 1))) :
    (∀ r', r ≤ r' → r' ≤ Y.length →
        (iterRowStep cl co X Y Y.length c s r).1 r' =
          phiL cl co (X.drop c) (Y.drop r')) ∧
      (∀ r', r' < r →
        (iterRowStep cl co X Y Y.length c s r).1 r' =
          phiL cl co (X.drop (c + 1)) (Y.drop r')) ∧
      (iterRowStep cl co X Y Y.length c s r).2 =
        phiL cl co (X.drop (c + 1)) (Y.drop r) := by
  have hXc : X.drop c = chAt X c :: X.drop (c + 1) := drop_cons_chAt X c hc
  unfold iterRowStep
  by_cases hrN : r = Y.length
  · subst hrN
    rw [if_pos rfl]
    dsimp only [updN]
    refine ⟨?_, ?_, hbuflo Y.length le_rfl⟩
    · intro r' h1 h2
      have h3 : r' = Y.length := by omega
      subst h3
      rw [if_pos rfl, hbuflo Y.length le_rfl, drop_len_nil, hXc, phiL_cons_nil]
    · intro r' h1
      rw [if_neg (by omega)]
      exact hbuflo r' (by omega)
  · rw [if_neg hrN]
    have hrlt : r < Y.length := by omega
    have hYr : Y.drop r = chAt Y r :: Y.drop (r + 1) := drop_cons_chAt Y r hrlt
    by_cases hbx : cl.isBase (chAt X c) = true
    · rw [if_neg (by simp [hbx])]
      by_cases hby : cl.isBase (chAt Y r) = true
      · rw [if_neg (by simp [hby])]
        dsimp only [updN]
        refine ⟨?_, ?_, hbuflo r le_rfl⟩
        · intro r' h1 h2
          by_cases hr' : r' = r
          · subst hr'
            rw [if_pos rfl]
            have hphi : phiL cl co (X.drop c) (Y.drop r') =
                min3 (diagCost cl co (chAt X c) (chAt Y r') +
                    phiL cl co (X.drop (c + 1)) (Y.drop (r' + 1)))
                  (co.INSERTION_COST + phiL cl co (X.drop (c + 1)) (Y.drop r'))
                  (co.INSERTION_COST + phiL cl co (X.drop c) (Y.drop (r' + 1))) := by
              rw [hXc, hYr, phiL_cons_cons cl co _ _ _ _ hbx hby, ← hXc, ← hYr]
            rw [hphi, hprev hrlt, hbufhi (r' + 1) (by omega) (by omega),
              hbuflo r' le_rfl]
          · rw [if_neg hr']
            exact hbufhi r' (by omega) h2
        · intro r' h1
          rw [if_neg (by omega)]
          exact hbuflo r' (by omega)
      · rw [if_pos (by simp [hby])]
        dsimp only [updN]
        refine ⟨?_, ?_, hbuflo r le_rfl⟩
        · intro r' h1 h2
          by_cases hr' : r' = r
          · subst hr'
            rw [if_pos rfl]
            have hphi : phiL cl co (X.drop c) (Y.drop r') =
                phiL cl co (X.drop c) (Y.drop (r' + 1)) := by
              rw [hYr, phiL_skipY cl co _ _ _ (by simpa using hby)]
            rw [hphi]
            exact hbufhi (r' + 1) (by omega) (by omega)
          · rw [if_neg hr']
            exact hbufhi r' (by omega) h2
        · intro r' h1
          rw [if_neg (by omega)]
          exact hbuflo r' (by omega)
    · rw [if_pos (by simp [hbx])]
      dsimp only
      refine ⟨?_, ?_, hbuflo r le_rfl⟩
      · intro r' h1 h2
        by_cases hr' : r' = r
        · subst hr'
          have hphi : phiL cl co (X.drop c) (Y.drop r') =
              phiL cl co (X.drop (c + 1)) (Y.drop r') := by
            rw [hXc, phiL_skipX cl co _ _ _ (by simpa using hbx)]
          rw [hphi]
          exact hbuflo r' le_rfl
        · exact hbufhi r' (by omega) h2
      · intro r' h1
        exact hbuflo r' (by omega)

theorem iterRowLoop_correct (cl : BaseInterface) (co : Costs) (X Y : List Char)
    (c : Nat) (hc : c < X.length) :
    ∀ (k : Nat) (s : (Nat → Int) × Int), k ≤ Y.length →
      (∀ r', k < r' → r' ≤ Y.length → s.1 r' = phiL cl co (X.drop c) (Y.drop r')) →
      (∀ r', r' ≤ k → s.1 r' = phiL cl co (X.drop (c + 1)) (Y.drop r')) →
      (k < Y.length → s.2 = phiL cl co (X.drop (c + 1)) (Y.drop (k + 1))) →
      (∀ r', r' ≤ Y.length →
        (iterRowLoop cl co X Y Y.length c k s).1 r' =
          phiL cl co (X.drop c) (Y.drop r')) ∧
        (iterRowLoop cl co X Y Y.length c k s).2 =
          phiL cl co (X.drop (c + 1)) (Y.drop 0) := by
  intro k
  induction k with
  | zero =>
    intro s hk hhi hlo hprev
    have h := iterRowStep_correct cl co X Y c 0 hc hk s hhi hlo hprev
    unfold iterRowLoop
    exact ⟨fun r' hr' => h.1 r' (Nat.zero_le _) hr', h.2.2⟩
  | succ k ih =>
    intro s hk hhi hlo hprev
    have h := iterRowStep_correct cl co X Y c (k + 1) hc hk s hhi hlo hprev
    unfold iterRowLoop
    exact ih (iterRowStep cl co X Y Y.length c s (k + 1)) (by omega)
      (fun r' h1 h2 => h.1 r' (by omega) h2)
      (fun r' h1 => h.2.1 r' (by omega))
      (fun _ => h.2.2)

theorem iterColLoop_correct (cl : BaseInterface) (co : Costs) (X Y : List Char) :
    ∀ (k : Nat) (s : (Nat → Int) × Int), k ≤ X.length →
      (∀ r, r ≤ Y.length → s.1 r = phiL cl co (X.drop k) (Y.drop r)) →
      ∀ r, r ≤ Y.length →
        (iterColLoop cl co X Y Y.length k s).1 r = phiL cl co (X.drop 0) (Y.drop r) := by
  intro k
  induction k with
  | zero =>
    intro s hk hbuf r hr
    unfold iterColLoop
    exact hbuf r hr
  | succ k ih =>
    intro s hk hbuf r hr
    unfold iterColLoop
    have h := iterRowLoop_correct cl co X Y k (by omega) Y.length s le_rfl
      (fun r' h1 h2 => absurd h1 (by omega))
      (fun r' h1 => hbuf r' h1)
      (fun h1 => absurd h1 (by omega))
    exact ih (iterRowLoop cl co X Y Y.length k Y.length s) (by omega) h.1 r hr

theorem Iter_eq_phi (cl : BaseInterface) (co : Costs) (A B : List Char) :
    EditDistance_NW_Iter cl co A B = phiL cl co (orientX A B) (orientY A B) := by
  unfold EditDistance_NW_Iter
  have hinit := initColLoop_correct cl co (orientY A B) (orientY A B).length
    (fun _ => 0) le_rfl (by rw [drop_len_nil, phiL_nil_nil])
  have hbuf : ∀ r, r ≤ (orientY A B).length →
      (initColLoop cl co (orientY A B) (orientY A B).length (fun _ => 0)) r =
        phiL cl co ((orientX A B).drop (orientX A B).length) ((orientY A B).drop r) := by
    intro r hr
    rw [hinit.1 r hr, drop_len_nil]
  have h := iterColLoop_correct cl co (orientX A B) (orientY A B)
    (orientX A B).length
    (initColLoop cl co (orientY A B) (orientY A B).length (fun _ => 0), 0)
    le_rfl hbuf 0 (Nat.zero_le _)
  simpa using h

theorem chAtI_eq (S : List Char) (i : Int) (h : 0 ≤ i) :
    chAtI S i = chAt S i.toNat := by
  unfold chAtI
  rw [if_pos h]

theorem dropI_cons (S : List Char) (i : Int) (h0 : 0 ≤ i)
    (h1 : i < (S.length : Int)) :
    S.drop i.toNat = chAtI S i :: S.drop (i + 1).toNat := by
  rw [chAtI_eq S i h0]
  have h2 : i.toNat < S.length := by omega
  have h3 : (i + 1).toNat = i.toNat + 1 := by omega
  rw [h3]
  exact drop_cons_chAt S i.toNat h2

theorem dropI_len (S : List Char) (i : Int) (h : (S.length : Int) ≤ i) :
    S.drop i.toNat = [] := by
  apply List.drop_eq_nil_of_le
  omega

theorem updI_same (b : Int → Int) (i : Int) (v : Int) : updI b i v i = v := by
  unfold updI
  rw [if_pos rfl]

theorem updI_other (b : Int → Int) (i j : Int) (v : Int) (h : j ≠ i) :
    updI b i v j = b j := by
  unfold updI
  rw [if_neg h]

theorem coCellStep_rowN (cl : BaseInterface) (co : Costs) (X Y : List Char)
    (N Ze Ye col r : Int) (s : NWBufState) (hrN : r = N) :
    coCellStep cl co X Y N Ze Ye col r s =
      { Ycol := updI s.Ycol r (insIfBase cl co (chAtI X col) + s.Ycol r),
        Zrow := s.Zrow, pvy := s.Ycol r, pvz := s.pvz,
        vtk := insIfBase cl co (chAtI X col) + s.Ycol r } := by
  unfold coCellStep
  dsimp only
  rw [if_pos hrN]
  dsimp only
  rw [updI_same]

theorem coCellStep_skipX (cl : BaseInterface) (co : Costs) (X Y : List Char)
    (N Ze Ye col r : Int) (s : NWBufState) (hrN : r ≠ N)
    (hbx : cl.isBase (chAtI X col) = false) :
    coCellStep cl co X Y N Ze Ye col r s =
      { Ycol := s.Ycol, Zrow := s.Zrow, pvy := s.Ycol r, pvz := s.pvz,
        vtk := s.Ycol r } := by
  unfold coCellStep
  dsimp only
  rw [if_neg hrN, if_pos (by simp [hbx])]

theorem coCellStep_skipY (cl : BaseInterface) (co : Costs) (X Y : List Char)
    (N Ze Ye col r : Int) (s : NWBufState) (hrN : r ≠ N)
    (hbx : cl.isBase (chAtI X col) = true) (hby : cl.isBase (chAtI Y r) = false) :
    coCellStep cl co X Y N Ze Ye col r s =
      { Ycol := updI s.Ycol r (if r = Ye then s.Zrow col else s.Ycol (r + 1)),
        Zrow := s.Zrow, pvy := s.Ycol r, pvz := s.pvz,
        vtk := if r = Ye then s.Zrow col else s.Ycol (r + 1) } := by
  unfold coCellStep
  dsimp only
  rw [if_neg hrN, if_neg (by simp [hbx]), if_pos (by simp [hby])]
  dsimp only
  rw [updI_same]

theorem coCellStep_minCase (cl : BaseInterface) (co : Costs) (X Y : List Char)
    (N Ze Ye col r : Int) (s : NWBufState) (hrN : r ≠ N)
    (hbx : cl.isBase (chAtI X col) = true) (hby : cl.isBase (chAtI Y r) = true) :
    coCellStep cl co X Y N Ze Ye col r s =
      { Ycol := updI s.Ycol r
          (min3 (if r = Ye then
              (if col = Ze then diagCost cl co (chAtI X col) (chAtI Y r) + s.Zrow (col + 1)
               else diagCost cl co (chAtI X col) (chAtI Y r) + s.pvz)
            else diagCost cl co (chAtI X col) (chAtI Y r) + s.pvy)
            (co.INSERTION_COST + s.Ycol r)
            (if r = Ye then co.INSERTION_COST + s.Zrow col
             else co.INSERTION_COST + s.Ycol (r + 1))),
        Zrow := s.Zrow, pvy := s.Ycol r, pvz := s.pvz,
        vtk := min3 (if r = Ye then
              (if col = Ze then diagCost cl co (chAtI X col) (chAtI Y r) + s.Zrow (col + 1)
               else diagCost cl co (chAtI X col) (chAtI Y r) + s.pvz)
            else diagCost cl co (chAtI X col) (chAtI Y r) + s.pvy)
            (co.INSERTION_COST + s.Ycol r)
            (if r = Ye then co.INSERTION_COST + s.Zrow col
             else co.INSERTION_COST + s.Ycol (r + 1)) } := by
  unfold coCellStep
  dsimp only
  rw [if_neg hrN, if_neg (by simp [hbx]), if_neg (by simp [hby])]
  dsimp only
  rw [updI_same]

theorem coCellStep_correct (cl : BaseInterface) (co : Costs) (X Y : List Char)
    (Ze Ys Ye col r : Int) (s : NWBufState)
    (hcol0 : 0 ≤ col) (hcolM : col < (X.length : Int)) (hcolZ : col ≤ Ze)
    (hYs : 0 ≤ Ys) (hYsr : Ys ≤ r) (hrYe : r ≤ Ye) (hYeN : Ye ≤ (Y.length : Int))
    (hY1 : s.Ycol r = phiL cl co (X.drop (col + 1).toNat) (Y.drop r.toNat))
    (hY2 : r < Ye → s.Ycol (r + 1) = phiL cl co (X.drop col.toNat) (Y.drop (r + 1).toNat))
    (hpy : r < Ye → s.pvy = phiL cl co (X.drop (col + 1).toNat) (Y.drop (r + 1).toNat))
    (hz1 : r = Ye → Ye < (Y.length : Int) →
      s.Zrow col = phiL cl co (X.drop col.toNat) (Y.drop (Ye + 1).toNat))
    (hz2 : r = Ye → Ye < (Y.length : Int) → col = Ze →
      s.Zrow (col + 1) = phiL cl co (X.drop (col + 1).toNat) (Y.drop (Ye + 1).toNat))
    (hpz : r = Ye → Ye < (Y.length : Int) → col ≠ Ze →
      s.pvz = phiL cl co (X.drop (col + 1).toNat) (Y.drop (Ye + 1).toNat)) :
    (coCellStep cl co X Y (Y.length : Int) Ze Ye col r s).Ycol r =
        phiL cl co (X.drop col.toNat) (Y.drop r.toNat) ∧
      (∀ r', r' ≠ r → (coCellStep cl co X Y (Y.length : Int) Ze Ye col r s).Ycol r' =
        s.Ycol r') ∧
      (coCellStep cl co X Y (Y.length : Int) Ze Ye col r s).Zrow = s.Zrow ∧
      (coCellStep cl co X Y (Y.length : Int) Ze Ye col r s).pvy = s.Ycol r ∧
      (coCellStep cl co X Y (Y.length : Int) Ze Ye col r s).pvz = s.pvz ∧
      (coCellStep cl co X Y (Y.length : Int) Ze Ye col r s).vtk =
        phiL cl co (X.drop col.toNat) (Y.drop r.toNat) := by
  have hr0 : 0 ≤ r := by omega
  have hXc : X.drop col.toNat = chAtI X col :: X.drop (col + 1).toNat :=
    dropI_cons X col hcol0 hcolM
  by_cases hrN : r = (Y.length : Int)
  · rw [coCellStep_rowN cl co X Y _ Ze Ye col r s hrN]
    dsimp only
    have hphi : phiL cl co (X.drop col.toNat) (Y.drop r.toNat) =
        insIfBase cl co (chAtI X col) +
          phiL cl co (X.drop (col + 1).toNat) (Y.drop r.toNat) := by
      rw [hXc]
      have hnil : Y.drop r.toNat = [] := dropI_len Y r (by omega)
      rw [hnil, phiL_cons_nil, ← hnil]
    refine ⟨?_, ?_, rfl, rfl, rfl, ?_⟩
    · rw [updI_same, hphi, hY1]
    · intro r' hr'
      rw [updI_other _ _ _ _ hr']
    · rw [hphi, hY1]
  · have hrltN : r < (Y.length : Int) := by omega
    have hYr : Y.drop r.toNat = chAtI Y r :: Y.drop (r + 1).toNat :=
      dropI_cons Y r hr0 hrltN
    by_cases hbx : cl.isBase (chAtI X col) = true
    · by_cases hby : cl.isBase (chAtI Y r) = true
      · rw [coCellStep_minCase cl co X Y _ Ze Ye col r s hrN hbx hby]
        dsimp only
        have hphi : phiL cl co (X.drop col.toNat) (Y.drop r.toNat) =
            min3 (diagCost cl co (chAtI X col) (chAtI Y r) +
                phiL cl co (X.drop (col + 1).toNat) (Y.drop (r + 1).toNat))
              (co.INSERTION_COST + phiL cl co (X.drop (col + 1).toNat) (Y.drop r.toNat))
              (co.INSERTION_COST + phiL cl co (X.drop col.toNat) (Y.drop (r + 1).toNat)) := by
          rw [hXc, hYr, phiL_cons_cons cl co _ _ _ _ hbx hby, ← hXc, ← hYr]
        have hval : min3 (if r = Ye then
              (if col = Ze then diagCost cl co (chAtI X col) (chAtI Y r) + s.Zrow (col + 1)
               else diagCost cl co (chAtI X col) (chAtI Y r) + s.pvz)
            else diagCost cl co (chAtI X col) (chAtI Y r) + s.pvy)
            (co.INSERTION_COST + s.Ycol r)
            (if r = Ye then co.INSERTION_COST + s.Zrow col
             else co.INSERTION_COST + s.Ycol (r + 1)) =
            phiL cl co (X.drop col.toNat) (Y.drop r.toNat) := by
          by_cases hrYe2 : r = Ye
          · have hYelt : Ye < (Y.length : Int) := by omega
            rw [if_pos hrYe2, if_pos hrYe2, hz1 hrYe2 hYelt]
            by_cases hcZ : col = Ze
            · rw [if_pos hcZ, hz2 hrYe2 hYelt hcZ, hY1, hphi, hrYe2]
            · rw [if_neg hcZ, hpz hrYe2 hYelt hcZ, hY1, hphi, hrYe2]
          · have hrlt : r < Ye := by omega
            rw [if_neg hrYe2, if_neg hrYe2, hpy hrlt, hY2 hrlt, hY1, hphi]
        refine ⟨?_, ?_, rfl, rfl, rfl, hval⟩
        · rw [updI_same, hval]
        · intro r' hr'
          rw [updI_other _ _ _ _ hr']
      · rw [coCellStep_skipY cl co X Y _ Ze Ye col r s hrN hbx (by simpa using hby)]
        dsimp only
        have hphi : phiL cl co (X.drop col.toNat) (Y.drop r.toNat) =
            phiL cl co (X.drop col.toNat) (Y.drop (r + 1).toNat) := by
          rw [hYr, phiL_skipY cl co _ _ _ (by simpa using hby)]
        have hval : (if r = Ye then s.Zrow col else s.Ycol (r + 1)) =
            phiL cl co (X.drop col.toNat) (Y.drop r.toNat) := by
          by_cases hrYe2 : r = Ye
          · have hYelt : Ye < (Y.length : Int) := by omega
            rw [if_pos hrYe2, hz1 hrYe2 hYelt, hphi, hrYe2]
          · have hrlt : r < Ye := by omega
            rw [if_neg hrYe2, hY2 hrlt, hphi]
        refine ⟨?_, ?_, rfl, rfl, rfl, hval⟩
        · rw [updI_same, hval]
        · intro r' hr'
          rw [updI_other _ _ _ _ hr']
    · rw [coCellStep_skipX cl co X Y _ Ze Ye col r s hrN (by simpa using hbx)]
      dsimp only
      have hphi : phiL cl co (X.drop col.toNat) (Y.drop r.toNat) =
          phiL cl co (X.drop (col + 1).toNat) (Y.drop r.toNat) := by
        rw [hXc, phiL_skipX cl co _ _ _ (by simpa using hbx)]
      exact ⟨by rw [hphi, hY1], fun r' _ => rfl, rfl, rfl, rfl, by rw [hphi, hY1]⟩

theorem coRowLoop_correct (cl : BaseInterface) (co : Costs) (X Y : List Char)
    (Ze Ys Ye col : Int)
    (hcol0 : 0 ≤ col) (hcolM : col < (X.length : Int)) (hcolZ : col ≤ Ze)
    (hYs : 0 ≤ Ys) (hYeN : Ye ≤ (Y.length : Int)) :
    ∀ (f : Nat) (r : Int) (s : NWBufState),
      f = (r + 1 - Ys).toNat → Ys - 1 ≤ r → r ≤ Ye →
      (∀ r', r < r' → r' ≤ Ye →
        s.Ycol r' = phiL cl co (X.drop col.toNat) (Y.drop r'.toNat)) →
      (∀ r', Ys ≤ r' → r' ≤ r →
        s.Ycol r' = phiL cl co (X.drop (col + 1).toNat) (Y.drop r'.toNat)) →
      (r < Ye → s.pvy = phiL cl co (X.drop (col + 1).toNat) (Y.drop (r + 1).toNat)) →
      (Ye < (Y.length : Int) →
        s.Zrow col = phiL cl co (X.drop col.toNat) (Y.drop (Ye + 1).toNat)) →
      (Ye < (Y.length : Int) → col = Ze →
        s.Zrow (col + 1) = phiL cl co (X.drop (col + 1).toNat) (Y.drop (Ye + 1).toNat)) →
      (Ye < (Y.length : Int) → col ≠ Ze →
        s.pvz = phiL cl co (X.drop (col + 1).toNat) (Y.drop (Ye + 1).toNat)) →
      (r < Ye → s.vtk = phiL cl co (X.drop col.toNat) (Y.drop (r + 1).toNat)) →
      (∀ r', Ys ≤ r' → r' ≤ Ye →
          (coRowLoop cl co X Y (Y.length : Int) Ze Ye col f r s).Ycol r' =
            phiL cl co (X.drop col.toNat) (Y.drop r'.toNat)) ∧
        (∀ r', r' < Ys ∨ Ye < r' →
          (coRowLoop cl co X Y (Y.length : Int) Ze Ye col f r s).Ycol r' = s.Ycol r') ∧
        (coRowLoop cl co X Y (Y.length : Int) Ze Ye col f r s).Zrow = s.Zrow ∧
        (coRowLoop cl co X Y (Y.length : Int) Ze Ye col f r s).pvz = s.pvz ∧
        (Ys ≤ Ye →
          (coRowLoop cl co X Y (Y.length : Int) Ze Ye col f r s).pvy =
            phiL cl co (X.drop (col + 1).toNat) (Y.drop Ys.toNat)) ∧
        (Ys ≤ Ye →
          (coRowLoop cl co X Y (Y.length : Int) Ze Ye col f r s).vtk =
            phiL cl co (X.drop col.toNat) (Y.drop Ys.toNat)) := by
  intro f
  induction f with
  | zero =>
    intro r s hf hr1 hr2 ha hb hc _hd _he _hf hg
    have hrYs : r = Ys - 1 := by omega
    unfold coRowLoop
    refine ⟨?_, fun r' _ => rfl, rfl, rfl, ?_, ?_⟩
    · intro r' h1 h2
      exact ha r' (by omega) h2
    · intro hYsYe
      have h3 : r < Ye := by omega
      have h4 : r + 1 = Ys := by omega
      rw [← h4]
      exact hc h3
    · intro hYsYe
      have h3 : r < Ye := by omega
      have h4 : r + 1 = Ys := by omega
      rw [← h4]
      exact hg h3
  | succ f ih =>
    intro r s hf hr1 hr2 ha hb hc hd he hff hg
    have hYsr : Ys ≤ r := by omega
    have hstep := coCellStep_correct cl co X Y Ze Ys Ye col r s hcol0 hcolM hcolZ
      hYs hYsr hr2 hYeN
      (hb r hYsr le_rfl)
      (fun h => ha (r + 1) (by omega) (by omega))
      hc (fun _ h => hd h) (fun _ h1 h2 => he h1 h2) (fun _ h1 h2 => hff h1 h2)
    unfold coRowLoop
    have hr' : r - 1 + 1 = r := by omega
    have hrec := ih (r - 1) (coCellStep cl co X Y (Y.length : Int) Ze Ye col r s)
      (by omega) (by omega) (by omega)
      (by
        intro r' h1 h2
        by_cases hrr : r' = r
        · rw [hrr]
          exact hstep.1
        · rw [hstep.2.1 r' hrr]
          exact ha r' (by omega) h2)
      (by
        intro r' h1 h2
        rw [hstep.2.1 r' (by omega)]
        exact hb r' h1 (by omega))
      (by
        intro h1
        rw [hr', hstep.2.2.2.1]
        exact hb r hYsr le_rfl)
      (by
        intro h1
        rw [congrFun hstep.2.2.1 col]
        exact hd h1)
      (by
        intro h1 h2
        rw [congrFun hstep.2.2.1 (col + 1)]
        exact he h1 h2)
      (by
        intro h1 h2
        rw [hstep.2.2.2.2.1]
        exact hff h1 h2)
      (by
        intro h1
        rw [hr', hstep.2.2.2.2.2])
    refine ⟨hrec.1, ?_, ?_, ?_, hrec.2.2.2.2.1, hrec.2.2.2.2.2⟩
    · intro r' h1
      rw [hrec.2.1 r' h1, hstep.2.1 r' (by omega)]
    · rw [hrec.2.2.1, hstep.2.2.1]
    · rw [hrec.2.2.2.1, hstep.2.2.2.2.1]

theorem coColLoop_correct (cl : BaseInterface) (co : Costs) (X Y : List Char)
    (Zs Ze Ys Ye : Int)
    (hZs : 0 ≤ Zs) (hZsZe : Zs ≤ Ze) (hZeM : Ze < (X.length : Int))
    (hYs : 0 ≤ Ys) (hYsYe : Ys ≤ Ye) (hYeN : Ye ≤ (Y.length : Int)) :
    ∀ (f : Nat) (col : Int) (s : NWBufState),
      f = (col + 1 - Zs).toNat → Zs - 1 ≤ col → col ≤ Ze →
      (∀ r, Ys ≤ r → r ≤ Ye →
        s.Ycol r = phiL cl co (X.drop (col + 1).toNat) (Y.drop r.toNat)) →
      (∀ c', col < c' → c' ≤ Ze →
        s.Zrow c' = phiL cl co (X.drop c'.toNat) (Y.drop Ys.toNat)) →
      (col < Ze →
        s.Zrow (Ze + 1) = phiL cl co (X.drop (Ze + 1).toNat) (Y.drop Ys.toNat)) →
      (Ye < (Y.length : Int) → ∀ c', Zs ≤ c' → c' ≤ col →
        s.Zrow c' = phiL cl co (X.drop c'.toNat) (Y.drop (Ye + 1).toNat)) →
      (Ye < (Y.length : Int) → col = Ze →
        s.Zrow (Ze + 1) = phiL cl co (X.drop (Ze + 1).toNat) (Y.drop (Ye + 1).toNat)) →
      (Ye < (Y.length : Int) → col < Ze →
        s.pvz = phiL cl co (X.drop (col + 1).toNat) (Y.drop (Ye + 1).toNat)) →
      (∀ r, Ys ≤ r → r ≤ Ye →
          (coColLoop cl co X Y (Y.length : Int) Ze Ys Ye f col s).Ycol r =
            phiL cl co (X.drop Zs.toNat) (Y.drop r.toNat)) ∧
        (∀ r, r < Ys ∨ Ye < r →
          (coColLoop cl co X Y (Y.length : Int) Ze Ys Ye f col s).Ycol r = s.Ycol r) ∧
        (∀ c', Zs ≤ c' → c' ≤ Ze →
          (coColLoop cl co X Y (Y.length : Int) Ze Ys Ye f col s).Zrow c' =
            phiL cl co (X.drop c'.toNat) (Y.drop Ys.toNat)) ∧
        ((coColLoop cl co X Y (Y.length : Int) Ze Ys Ye f col s).Zrow (Ze + 1) =
          phiL cl co (X.drop (Ze + 1).toNat) (Y.drop Ys.toNat)) ∧
        (∀ c', c' < Zs ∨ Ze + 1 < c' →
          (coColLoop cl co X Y (Y.length : Int) Ze Ys Ye f col s).Zrow c' =
            s.Zrow c') := by
  intro f
  induction f with
  | zero =>
    intro col s hf h1 h2 hi hii hiii _hiv _hv _hvi
    have hcol : col = Zs - 1 := by omega
    unfold coColLoop
    have hZs1 : Zs - 1 + 1 = Zs := by omega
    refine ⟨?_, fun r _ => rfl, ?_, ?_, fun c' _ => rfl⟩
    · intro r hr1 hr2
      have := hi r hr1 hr2
      rw [hcol, hZs1] at this
      exact this
    · intro c' hc1 hc2
      exact hii c' (by omega) hc2
    · exact hiii (by omega)
  | succ f ih =>
    intro col s hf h1 h2 hi hii hiii hiv hv hvi
    have hZscol : Zs ≤ col := by omega
    have hcol0 : 0 ≤ col := by omega
    have hcolM : col < (X.length : Int) := by omega
    have hrow := coRowLoop_correct cl co X Y Ze Ys Ye col hcol0 hcolM h2
      hYs hYeN (Ye + 1 - Ys).toNat Ye s rfl (by omega) le_rfl
      (fun r' hr1 hr2 => absurd hr1 (by omega))
      (fun r' hr1 hr2 => hi r' hr1 hr2)
      (fun h => absurd h (by omega))
      (fun h => hiv h col hZscol le_rfl)
      (fun h hce => by rw [hce]; exact hv h hce)
      (fun h hce => hvi h (by omega))
      (fun h => absurd h (by omega))
    unfold coColLoop
    dsimp only
    set s1 := coRowLoop cl co X Y (Y.length : Int) Ze Ye col (Ye + 1 - Ys).toNat Ye s
      with hs1def
    have hcolm1 : col - 1 + 1 = col := by omega
    by_cases hcZ : col = Ze
    · rw [if_pos hcZ]
      have hrec := ih (col - 1)
        { Ycol := s1.Ycol,
          Zrow := updI (updI s1.Zrow col s1.vtk) (Ze + 1) s1.pvy,
          pvy := s1.pvy, pvz := s1.Zrow col, vtk := s1.vtk }
        (by omega) (by omega) (by omega)
        (by
          intro r hr1 hr2
          dsimp only
          rw [hcolm1, hrow.1 r hr1 hr2])
        (by
          intro c' hc1 hc2
          dsimp only
          rw [updI_other _ _ _ _ (by omega), hrow.2.2.1]
          by_cases hcc : c' = col
          · rw [hcc, updI_same]
            rw [hcc] at hc2
            exact hrow.2.2.2.2.2 hYsYe
          · omega)
        (by
          intro hlt
          dsimp only
          rw [updI_same, ← hcZ, hrow.2.2.2.2.1 hYsYe])
        (by
          intro hN c' hc1 hc2
          dsimp only
          rw [updI_other _ _ _ _ (by omega), updI_other _ _ _ _ (by omega),
            hrow.2.2.1]
          exact hiv hN c' hc1 (by omega))
        (by intro _ habs; omega)
        (by
          intro hN _
          dsimp only
          rw [hcolm1, congrFun hrow.2.2.1 col]
          exact hiv hN col hZscol le_rfl)
      refine ⟨hrec.1, ?_, hrec.2.2.1, hrec.2.2.2.1, ?_⟩
      · intro r hr
        rw [hrec.2.1 r hr]
        dsimp only
        exact hrow.2.1 r hr
      · intro c' hc
        rw [hrec.2.2.2.2 c' hc]
        dsimp only
        rw [updI_other _ _ _ _ (by omega), updI_other _ _ _ _ (by omega),
          hrow.2.2.1]
    · rw [if_neg hcZ]
      have hcltZe : col < Ze := by omega
      have hrec := ih (col - 1)
        { Ycol := s1.Ycol,
          Zrow := updI s1.Zrow col s1.vtk,
          pvy := s1.pvy, pvz := s1.Zrow col, vtk := s1.vtk }
        (by omega) (by omega) (by omega)
        (by
          intro r hr1 hr2
          dsimp only
          rw [hcolm1, hrow.1 r hr1 hr2])
        (by
          intro c' hc1 hc2
          dsimp only
          by_cases hcc : c' = col
          · rw [hcc, updI_same]
            exact hrow.2.2.2.2.2 hYsYe
          · rw [updI_other _ _ _ _ hcc, hrow.2.2.1]
            exact hii c' (by omega) hc2)
        (by
          intro hlt
          dsimp only
          rw [updI_other _ _ _ _ (by omega), hrow.2.2.1]
          exact hiii hcltZe)
        (by
          intro hN c' hc1 hc2
          dsimp only
          rw [updI_other _ _ _ _ (by omega), hrow.2.2.1]
          exact hiv hN c' hc1 (by omega))
        (by intro _ habs; omega)
        (by
          intro hN _
          dsimp only
          rw [hcolm1, congrFun hrow.2.2.1 col]
          exact hiv hN col hZscol le_rfl)
      refine ⟨hrec.1, ?_, hrec.2.2.1, hrec.2.2.2.1, ?_⟩
      · intro r hr
        rw [hrec.2.1 r hr]
        dsimp only
        exact hrow.2.1 r hr
      · intro c' hc
        rw [hrec.2.2.2.2 c' hc]
        dsimp only
        rw [updI_other _ _ _ _ (by omega), hrow.2.2.1]

theorem CalculateBlock_CO_succ (cl : BaseInterface) (co : Costs) (X Y : List Char)
    (N : Int) (fuel : Nat) (Zstart Zend Ystart Yend : Int) (s : NWBufState) :
    CalculateBlock_CO cl co X Y N (fuel + 1) Zstart Zend Ystart Yend s =
      if Zend - Zstart > CO_BREAKPOINT then
        CalculateBlock_CO cl co X Y N fuel
          Zstart (Zstart + (Zend - Zstart) / 2) Ystart Yend
          (CalculateBlock_CO cl co X Y N fuel
            (Zstart + (Zend - Zstart) / 2 + 1) Zend Ystart Yend s)
      else if Yend - Ystart > CO_BREAKPOINT then
        CalculateBlock_CO cl co X Y N fuel
          Zstart Zend Ystart (Ystart + (Yend - Ystart) / 2)
          (CalculateBlock_CO cl co X Y N fuel
            Zstart Zend (Ystart + (Yend - Ystart) / 2 + 1) Yend s)
      else
        coColLoop cl co X Y N Zend Ystart Yend (Zend + 1 - Zstart).toNat Zend s := rfl

theorem CalculateBlock_correct (cl : BaseInterface) (co : Costs) (X Y : List Char) :
    ∀ (fuel : Nat) (Zs Ze Ys Ye : Int) (s : NWBufState),
      (Ze - Zs).toNat + (Ye - Ys).toNat < fuel →
      0 ≤ Zs → Zs ≤ Ze → Ze < (X.length : Int) →
      0 ≤ Ys → Ys ≤ Ye → Ye ≤ (Y.length : Int) →
      (Ye = (Y.length : Int) ∨ Ze - Zs ≤ CO_BREAKPOINT) →
      (∀ r, Ys ≤ r → r ≤ Ye →
        s.Ycol r = phiL cl co (X.drop (Ze + 1).toNat) (Y.drop r.toNat)) →
      (Ye < (Y.length : Int) → ∀ c, Zs ≤ c → c ≤ Ze + 1 →
        s.Zrow c = phiL cl co (X.drop c.toNat) (Y.drop (Ye + 1).toNat)) →
      (∀ r, Ys ≤ r → r ≤ Ye →
          (CalculateBlock_CO cl co X Y (Y.length : Int) fuel Zs Ze Ys Ye s).Ycol r =
            phiL cl co (X.drop Zs.toNat) (Y.drop r.toNat)) ∧
        (∀ r, r < Ys ∨ Ye < r →
          (CalculateBlock_CO cl co X Y (Y.length : Int) fuel Zs Ze Ys Ye s).Ycol r =
            s.Ycol r) ∧
        (∀ c, Zs ≤ c → c ≤ Ze →
          (CalculateBlock_CO cl co X Y (Y.length : Int) fuel Zs Ze Ys Ye s).Zrow c =
            phiL cl co (X.drop c.toNat) (Y.drop Ys.toNat)) ∧
        ((CalculateBlock_CO cl co X Y (Y.length : Int) fuel Zs Ze Ys Ye s).Zrow (Ze + 1) =
          phiL cl co (X.drop (Ze + 1).toNat) (Y.drop Ys.toNat)) ∧
        (∀ c, c < Zs ∨ Ze + 1 < c →
          (CalculateBlock_CO cl co X Y (Y.length : Int) fuel Zs Ze Ys Ye s).Zrow c =
            s.Zrow c) := by
  intro fuel
  induction fuel with
  | zero => intro Zs Ze Ys Ye s hfuel; omega
  | succ fuel ih =>
    intro Zs Ze Ys Ye s hfuel hZs hZsZe hZeM hYs hYsYe hYeN hH hP1 hP2
    rw [CalculateBlock_CO_succ]
    by_cases hsplitC : Ze - Zs > CO_BREAKPOINT
    · rw [if_pos hsplitC]
      have hYeeq : Ye = (Y.length : Int) := by
        rcases hH with h | h
        · exact h
        · omega
      have hd2 : 0 ≤ (Ze - Zs) / 2 ∧ (Ze - Zs) / 2 + 1 ≤ Ze - Zs := by
        unfold CO_BREAKPOINT at hsplitC
        omega
      have hright := ih (Zs + (Ze - Zs) / 2 + 1) Ze Ys Ye s (by omega) (by omega)
        (by omega) hZeM hYs hYsYe hYeN (Or.inl hYeeq) hP1
        (fun h => absurd h (by omega))
      have hleft := ih Zs (Zs + (Ze - Zs) / 2) Ys Ye
        (CalculateBlock_CO cl co X Y (Y.length : Int) fuel
          (Zs + (Ze - Zs) / 2 + 1) Ze Ys Ye s)
        (by omega) hZs (by omega) (by omega) hYs hYsYe hYeN (Or.inl hYeeq)
        (by
          intro r hr1 hr2
          have h := hright.1 r hr1 hr2
          have heq : Zs + (Ze - Zs) / 2 + 1 = Zs + (Ze - Zs) / 2 + 1 := rfl
          exact h)
        (fun h => absurd h (by omega))
      refine ⟨hleft.1, ?_, ?_, ?_, ?_⟩
      · intro r hr
        rw [hleft.2.1 r hr, hright.2.1 r hr]
      · intro c hc1 hc2
        by_cases hcm : c ≤ Zs + (Ze - Zs) / 2
        · exact hleft.2.2.1 c hc1 hcm
        · by_cases hcm1 : c = Zs + (Ze - Zs) / 2 + 1
          · rw [hcm1]
            exact hleft.2.2.2.1
          · rw [hleft.2.2.2.2 c (by omega)]
            exact hright.2.2.1 c (by omega) hc2
      · rw [hleft.2.2.2.2 (Ze + 1) (by omega)]
        exact hright.2.2.2.1
      · intro c hc
        rw [hleft.2.2.2.2 c (by omega), hright.2.2.2.2 c (by omega)]
    · rw [if_neg hsplitC]
      by_cases hsplitR : Ye - Ys > CO_BREAKPOINT
      · rw [if_pos hsplitR]
        have he2 : 0 ≤ (Ye - Ys) / 2 ∧ (Ye - Ys) / 2 + 1 ≤ Ye - Ys := by
          unfold CO_BREAKPOINT at hsplitR
          omega
        have hbot := ih Zs Ze (Ys + (Ye - Ys) / 2 + 1) Ye s (by omega) hZs hZsZe
          hZeM (by omega) (by omega) hYeN (Or.inr (by omega))
          (fun r hr1 hr2 => hP1 r (by omega) hr2)
          (fun h c hc1 hc2 => hP2 h c hc1 hc2)
        have htop := ih Zs Ze Ys (Ys + (Ye - Ys) / 2)
          (CalculateBlock_CO cl co X Y (Y.length : Int) fuel
            Zs Ze (Ys + (Ye - Ys) / 2 + 1) Ye s)
          (by omega) hZs hZsZe hZeM hYs (by omega) (by omega) (Or.inr (by omega))
          (by
            intro r hr1 hr2
            rw [hbot.2.1 r (by omega)]
            exact hP1 r hr1 (by omega))
          (by
            intro h c hc1 hc2
            by_cases hce : c = Ze + 1
            · rw [hce]
              have := hbot.2.2.2.1
              have heq : Ys + (Ye - Ys) / 2 + 1 = Ys + (Ye - Ys) / 2 + 1 := rfl
              exact this
            · exact hbot.2.2.1 c hc1 (by omega))
        refine ⟨?_, ?_, htop.2.2.1, htop.2.2.2.1, ?_⟩
        · intro r hr1 hr2
          by_cases hrm : r ≤ Ys + (Ye - Ys) / 2
          · exact htop.1 r hr1 hrm
          · rw [htop.2.1 r (by omega)]
            exact hbot.1 r (by omega) hr2
        · intro r hr
          rw [htop.2.1 r (by omega), hbot.2.1 r (by omega)]
        · intro c hc
          rw [htop.2.2.2.2 c hc, hbot.2.2.2.2 c hc]
      · rw [if_neg hsplitR]
        have hcol := coColLoop_correct cl co X Y Zs Ze Ys Ye hZs hZsZe hZeM hYs
          hYsYe hYeN (Ze + 1 - Zs).toNat Ze s rfl (by omega) le_rfl
          (fun r hr1 hr2 => by
            have h := hP1 r hr1 hr2
            exact h)
          (fun c' hc1 hc2 => absurd hc1 (by omega))
          (fun h => absurd h (by omega))
          (fun h c' hc1 hc2 => hP2 h c' hc1 (by omega))
          (fun h _ => hP2 h (Ze + 1) (by omega) le_rfl)
          (fun h habs => absurd habs (by omega))
        exact hcol

theorem coInitLoop_correct (cl : BaseInterface) (co : Costs) (S : List Char) :
    ∀ (k : Nat) (b : Int → Int), k ≤ S.length →
      b (k : Int) = phiL cl co [] (S.drop k) →
      (∀ i : Int, 0 ≤ i → i ≤ (k : Int) →
        coInitLoop cl co S k b i = phiL cl co [] (S.drop i.toNat)) ∧
      (∀ j : Int, (k : Int) ≤ j → coInitLoop cl co S k b j = b j) := by
  intro k
  induction k with
  | zero =>
    intro b _ hb
    constructor
    · intro i h1 h2
      have h3 : i = 0 := by omega
      subst h3
      exact hb
    · intro j _; rfl
  | succ k ih =>
    intro b hk hb
    have hlt : k < S.length := by omega
    have hcast : ((k : Int) + 1) = ((k + 1 : Nat) : Int) := by push_cast; ring
    have hb' : (updI b (k : Int) (insIfBase cl co (chAt S k) + b ((k : Int) + 1)))
        (k : Int) = phiL cl co [] (S.drop k) := by
      rw [updI_same, hcast, hb, drop_cons_chAt S k hlt, phiL_nil_cons]
    have hrec := ih (updI b (k : Int) (insIfBase cl co (chAt S k) + b ((k : Int) + 1)))
      (by omega) hb'
    unfold coInitLoop
    constructor
    · intro i h1 h2
      by_cases hik : i ≤ (k : Int)
      · exact hrec.1 i h1 hik
      · have h3 : i = ((k + 1 : Nat) : Int) := by push_cast; omega
        subst h3
        rw [hrec.2 _ (by push_cast; omega), updI_other _ _ _ _ (by push_cast; omega)]
        have h3 : ((k + 1 : Nat) : Int).toNat = k + 1 := by omega
        rw [h3, hb]
    · intro j hj
      rw [hrec.2 j (by push_cast at hj ⊢; omega),
        updI_other _ _ _ _ (by push_cast at hj ⊢; omega)]

theorem orientY_le_orientX (A B : List Char) :
    (orientY A B).length ≤ (orientX A B).length := by
  unfold orientX orientY
  split
  · omega
  · omega

theorem orient_nil (A B : List Char) (hA : A = []) (hB : B = []) :
    orientX A B = [] ∧ orientY A B = [] := by
  subst hA; subst hB
  constructor <;> rfl

theorem CO_eq_phi (cl : BaseInterface) (co : Costs) (A B : List Char) :
    EditDistance_NW_Iter_CO cl co A B = phiL cl co (orientX A B) (orientY A B) := by
  by_cases hM : (orientX A B).length = 0
  · have hN : (orientY A B).length = 0 := by
      have := orientY_le_orientX A B
      omega
    have hXnil : orientX A B = [] := List.length_eq_zero.mp hM
    have hYnil : orientY A B = [] := List.length_eq_zero.mp hN
    have hAB : A = [] ∧ B = [] := by
      simp only [orientX, orientY] at hXnil hYnil
      by_cases h : A.length ≥ B.length
      · rw [if_pos h] at hXnil hYnil
        exact ⟨hXnil, hYnil⟩
      · rw [if_neg h] at hXnil hYnil
        exact ⟨hYnil, hXnil⟩
    rw [hAB.1, hAB.2]
    rfl
  · have hM1 : 1 ≤ (orientX A B).length := by omega
    unfold EditDistance_NW_Iter_CO
    have hinit := coInitLoop_correct cl co (orientY A B) (orientY A B).length
      (fun _ => 0) le_rfl (by rw [List.drop_length, phiL_nil_nil])
    have hblock := CalculateBlock_correct cl co (orientX A B) (orientY A B)
      ((orientX A B).length + (orientY A B).length + 2)
      0 (((orientX A B).length : Int) - 1) 0 ((orientY A B).length : Int)
      { Ycol := coInitLoop cl co (orientY A B) (orientY A B).length (fun _ => 0),
        Zrow := coInitLoop cl co (orientX A B) (orientX A B).length (fun _ => 0),
        pvy := 0, pvz := 0, vtk := 0 }
      (by omega) (by omega) (by omega) (by omega) (by omega) (by omega) le_rfl
      (Or.inl rfl)
      (by
        intro r hr1 hr2
        dsimp only
        have h1 : (((orientX A B).length : Int) - 1 + 1).toNat = (orientX A B).length := by
          omega
        rw [h1, List.drop_length]
        have h2 := hinit.1 r hr1 hr2
        rw [h2])
      (by intro habs _ _ _; omega)
    have h0 := hblock.1 0 le_rfl (by omega)
    simp only [List.drop_zero] at h0
    exact h0

theorem caCellStep_rowN (cl : BaseInterface) (co : Costs) (X Y : List Char)
    (N nzr Zrl mc mr z_row cc col cr row : Int) (s : NWBufState) (hrN : row = N) :
    caCellStep cl co X Y N nzr Zrl mc mr z_row cc col cr row s =
      { Ycol := updI s.Ycol row (insIfBase cl co (chAtI X col) + s.Ycol row),
        Zrow := s.Zrow, pvy := s.Ycol row, pvz := s.pvz,
        vtk := insIfBase cl co (chAtI X col) + s.Ycol row } := by
  unfold caCellStep
  dsimp only
  rw [if_pos hrN]
  dsimp only
  rw [updI_same]

theorem caCellStep_skipX (cl : BaseInterface) (co : Costs) (X Y : List Char)
    (N nzr Zrl mc mr z_row cc col cr row : Int) (s : NWBufState) (hrN : row ≠ N)
    (hbx : cl.isBase (chAtI X col) = false) :
    caCellStep cl co X Y N nzr Zrl mc mr z_row cc col cr row s =
      { Ycol := s.Ycol, Zrow := s.Zrow, pvy := s.Ycol row, pvz := s.pvz,
        vtk := s.Ycol row } := by
  unfold caCellStep
  dsimp only
  rw [if_neg hrN, if_pos (by simp [hbx])]

theorem caCellStep_skipY (cl : BaseInterface) (co : Costs) (X Y : List Char)
    (N nzr Zrl mc mr z_row cc col cr row : Int) (s : NWBufState) (hrN : row ≠ N)
    (hbx : cl.isBase (chAtI X col) = true) (hby : cl.isBase (chAtI Y row) = false) :
    caCellStep cl co X Y N nzr Zrl mc mr z_row cc col cr row s =
      { Ycol := updI s.Ycol row
          (if cr = mr then s.Zrow (cc + Zrl - mc) else s.Ycol (row + 1)),
        Zrow := s.Zrow, pvy := s.Ycol row, pvz := s.pvz,
        vtk := if cr = mr then s.Zrow (cc + Zrl - mc) else s.Ycol (row + 1) } := by
  unfold caCellStep
  dsimp only
  rw [if_neg hrN, if_neg (by simp [hbx]), if_pos (by simp [hby])]
  dsimp only
  rw [updI_same]

theorem caCellStep_minNormal (cl : BaseInterface) (co : Costs) (X Y : List Char)
    (N nzr Zrl mc mr z_row cc col cr row : Int) (s : NWBufState) (hrN : row ≠ N)
    (hbx : cl.isBase (chAtI X col) = true) (hby : cl.isBase (chAtI Y row) = true)
    (hc : z_row = nzr - 1 ∨ cr ≠ mr) :
    caCellStep cl co X Y N nzr Zrl mc mr z_row cc col cr row s =
      { Ycol := updI s.Ycol row
          (min3 (diagCost cl co (chAtI X col) (chAtI Y row) + s.pvy)
            (co.INSERTION_COST + s.Ycol row)
            (co.INSERTION_COST + s.Ycol (row + 1))),
        Zrow := s.Zrow, pvy := s.Ycol row, pvz := s.pvz,
        vtk := min3 (diagCost cl co (chAtI X col) (chAtI Y row) + s.pvy)
          (co.INSERTION_COST + s.Ycol row)
          (co.INSERTION_COST + s.Ycol (row + 1)) } := by
  unfold caCellStep
  dsimp only
  rw [if_neg hrN, if_neg (by simp [hbx]), if_neg (by simp [hby]), if_pos hc]
  dsimp only
  rw [updI_same]

theorem caCellStep_minBoundary (cl : BaseInterface) (co : Costs) (X Y : List Char)
    (N nzr Zrl mc mr z_row cc col cr row : Int) (s : NWBufState) (hrN : row ≠ N)
    (hbx : cl.isBase (chAtI X col) = true) (hby : cl.isBase (chAtI Y row) = true)
    (hc : ¬(z_row = nzr - 1 ∨ cr ≠ mr)) :
    caCellStep cl co X Y N nzr Zrl mc mr z_row cc col cr row s =
      { Ycol := updI s.Ycol row
          (min3 (if cc = mc - 1 then
              diagCost cl co (chAtI X col) (chAtI Y row) + s.Zrow (cc + Zrl - mc + 1)
            else diagCost cl co (chAtI X col) (chAtI Y row) + s.pvz)
            (co.INSERTION_COST + s.Ycol row)
            (co.INSERTION_COST + s.Zrow (cc + Zrl - mc))),
        Zrow := s.Zrow, pvy := s.Ycol row, pvz := s.pvz,
        vtk := min3 (if cc = mc - 1 then
              diagCost cl co (chAtI X col) (chAtI Y row) + s.Zrow (cc + Zrl - mc + 1)
            else diagCost cl co (chAtI X col) (chAtI Y row) + s.pvz)
          (co.INSERTION_COST + s.Ycol row)
          (co.INSERTION_COST + s.Zrow (cc + Zrl - mc)) } := by
  unfold caCellStep
  dsimp only
  rw [if_neg hrN, if_neg (by simp [hbx]), if_neg (by simp [hby]), if_neg hc]
  dsimp only
  rw [updI_same]

theorem caCellStep_correct (cl : BaseInterface) (co : Costs) (X Y : List Char)
    (nzr Zrl mc mr z_row cc col cr row Ys Ye : Int) (s : NWBufState)
    (hcol0 : 0 ≤ col) (hcolM : col < (X.length : Int))
    (hYs : 0 ≤ Ys) (hYsr : Ys ≤ row) (hrYe : row ≤ Ye) (hYeN : Ye ≤ (Y.length : Int))
    (haff : row - cr = Ye - mr)
    (hbot : z_row = nzr - 1 → Ye = (Y.length : Int))
    (hY1 : s.Ycol row = phiL cl co (X.drop (col + 1).toNat) (Y.drop row.toNat))
    (hY2 : row < Ye →
      s.Ycol (row + 1) = phiL cl co (X.drop col.toNat) (Y.drop (row + 1).toNat))
    (hpy : row < Ye →
      s.pvy = phiL cl co (X.drop (col + 1).toNat) (Y.drop (row + 1).toNat))
    (hz1 : row = Ye → Ye < (Y.length : Int) →
      s.Zrow (cc + Zrl - mc) = phiL cl co (X.drop col.toNat) (Y.drop (Ye + 1).toNat))
    (hz2 : row = Ye → Ye < (Y.length : Int) → cc = mc - 1 →
      s.Zrow (cc + Zrl - mc + 1) =
        phiL cl co (X.drop (col + 1).toNat) (Y.drop (Ye + 1).toNat))
    (hpz : row = Ye → Ye < (Y.length : Int) → cc ≠ mc - 1 →
      s.pvz = phiL cl co (X.drop (col + 1).toNat) (Y.drop (Ye + 1).toNat)) :
    (caCellStep cl co X Y (Y.length : Int) nzr Zrl mc mr z_row cc col cr row s).Ycol row =
        phiL cl co (X.drop col.toNat) (Y.drop row.toNat) ∧
      (∀ r', r' ≠ row →
        (caCellStep cl co X Y (Y.length : Int) nzr Zrl mc mr z_row cc col cr row s).Ycol r' =
          s.Ycol r') ∧
      (caCellStep cl co X Y (Y.length : Int) nzr Zrl mc mr z_row cc col cr row s).Zrow =
        s.Zrow ∧
      (caCellStep cl co X Y (Y.length : Int) nzr Zrl mc mr z_row cc col cr row s).pvy =
        s.Ycol row ∧
      (caCellStep cl co X Y (Y.length : Int) nzr Zrl mc mr z_row cc col cr row s).pvz =
        s.pvz ∧
      (caCellStep cl co X Y (Y.length : Int) nzr Zrl mc mr z_row cc col cr row s).vtk =
        phiL cl co (X.drop col.toNat) (Y.drop row.toNat) := by
  have hr0 : 0 ≤ row := by omega
  have hXc : X.drop col.toNat = chAtI X col :: X.drop (col + 1).toNat :=
    dropI_cons X col hcol0 hcolM
  by_cases hrN : row = (Y.length : Int)
  · rw [caCellStep_rowN cl co X Y _ nzr Zrl mc mr z_row cc col cr row s hrN]
    dsimp only
    have hphi : phiL cl co (X.drop col.toNat) (Y.drop row.toNat) =
        insIfBase cl co (chAtI X col) +
          phiL cl co (X.drop (col + 1).toNat) (Y.drop row.toNat) := by
      rw [hXc]
      have hnil : Y.drop row.toNat = [] := dropI_len Y row (by omega)
      rw [hnil, phiL_cons_nil, ← hnil]
    refine ⟨?_, ?_, rfl, rfl, rfl, ?_⟩
    · rw [updI_same, hphi, hY1]
    · intro r' hr'
      rw [updI_other _ _ _ _ hr']
    · rw [hphi, hY1]
  · have hrltN : row < (Y.length : Int) := by omega
    have hYr : Y.drop row.toNat = chAtI Y row :: Y.drop (row + 1).toNat :=
      dropI_cons Y row hr0 hrltN
    by_cases hbx : cl.isBase (chAtI X col) = true
    · by_cases hby : cl.isBase (chAtI Y row) = true
      · have hphi : phiL cl co (X.drop col.toNat) (Y.drop row.toNat) =
            min3 (diagCost cl co (chAtI X col) (chAtI Y row) +
                phiL cl co (X.drop (col + 1).toNat) (Y.drop (row + 1).toNat))
              (co.INSERTION_COST + phiL cl co (X.drop (col + 1).toNat) (Y.drop row.toNat))
              (co.INSERTION_COST + phiL cl co (X.drop col.toNat) (Y.drop (row + 1).toNat)) := by
          rw [hXc, hYr, phiL_cons_cons cl co _ _ _ _ hbx hby, ← hXc, ← hYr]
        by_cases hcond : z_row = nzr - 1 ∨ cr ≠ mr
        · have hrlt : row < Ye := by
            rcases hcond with hz | hcr
            · have := hbot hz
              omega
            · omega
          rw [caCellStep_minNormal cl co X Y _ nzr Zrl mc mr z_row cc col cr row s
            hrN hbx hby hcond]
          dsimp only
          have hval : min3 (diagCost cl co (chAtI X col) (chAtI Y row) + s.pvy)
              (co.INSERTION_COST + s.Ycol row)
              (co.INSERTION_COST + s.Ycol (row + 1)) =
              phiL cl co (X.drop col.toNat) (Y.drop row.toNat) := by
            rw [hpy hrlt, hY1, hY2 hrlt, hphi]
          refine ⟨?_, ?_, rfl, rfl, rfl, hval⟩
          · rw [updI_same, hval]
          · intro r' hr'
            rw [updI_other _ _ _ _ hr']
        · have hcr : cr = mr := by
            by_contra h
            exact hcond (Or.inr h)
          have hrYe2 : row = Ye := by omega
          have hYelt : Ye < (Y.length : Int) := by omega
          rw [caCellStep_minBoundary cl co X Y _ nzr Zrl mc mr z_row cc col cr row s
            hrN hbx hby hcond]
          dsimp only
          have hval : min3 (if cc = mc - 1 then
                diagCost cl co (chAtI X col) (chAtI Y row) + s.Zrow (cc + Zrl - mc + 1)
              else diagCost cl co (chAtI X col) (chAtI Y row) + s.pvz)
              (co.INSERTION_COST + s.Ycol row)
              (co.INSERTION_COST + s.Zrow (cc + Zrl - mc)) =
              phiL cl co (X.drop col.toNat) (Y.drop row.toNat) := by
            rw [hz1 hrYe2 hYelt]
            by_cases hccol : cc = mc - 1
            · rw [if_pos hccol, hz2 hrYe2 hYelt hccol, hY1, hphi, hrYe2]
            · rw [if_neg hccol, hpz hrYe2 hYelt hccol, hY1, hphi, hrYe2]
          refine ⟨?_, ?_, rfl, rfl, rfl, hval⟩
          · rw [updI_same, hval]
          · intro r' hr'
            rw [updI_other _ _ _ _ hr']
      · rw [caCellStep_skipY cl co X Y _ nzr Zrl mc mr z_row cc col cr row s hrN hbx
          (by simpa using hby)]
        dsimp only
        have hphi : phiL cl co (X.drop col.toNat) (Y.drop row.toNat) =
            phiL cl co (X.drop col.toNat) (Y.drop (row + 1).toNat) := by
          rw [hYr, phiL_skipY cl co _ _ _ (by simpa using hby)]
        have hval : (if cr = mr then s.Zrow (cc + Zrl - mc) else s.Ycol (row + 1)) =
            phiL cl co (X.drop col.toNat) (Y.drop row.toNat) := by
          by_cases hcr : cr = mr
          · have hrYe2 : row = Ye := by omega
            have hYelt : Ye < (Y.length : Int) := by omega
            rw [if_pos hcr, hz1 hrYe2 hYelt, hphi, hrYe2]
          · have hrlt : row < Ye := by omega
            rw [if_neg hcr, hY2 hrlt, hphi]
        refine ⟨?_, ?_, rfl, rfl, rfl, hval⟩
        · rw [updI_same, hval]
        · intro r' hr'
          rw [updI_other _ _ _ _ hr']
    · rw [caCellStep_skipX cl co X Y _ nzr Zrl mc mr z_row cc col cr row s hrN
        (by simpa using hbx)]
      dsimp only
      have hphi : phiL cl co (X.drop col.toNat) (Y.drop row.toNat) =
          phiL cl co (X.drop (col + 1).toNat) (Y.drop row.toNat) := by
        rw [hXc, phiL_skipX cl co _ _ _ (by simpa using hbx)]
      exact ⟨by rw [hphi, hY1], fun r' _ => rfl, rfl, rfl, rfl, by rw [hphi, hY1]⟩

theorem caRowLoop_correct (cl : BaseInterface) (co : Costs) (X Y : List Char)
    (nzr Zrl mc mr z_row cc col RB Ys Ye : Int)
    (hcol0 : 0 ≤ col) (hcolM : col < (X.length : Int))
    (hYs : 0 ≤ Ys) (hYeN : Ye ≤ (Y.length : Int))
    (hYsRB : Ys = RB) (hYemr : Ye = mr + RB)
    (hbot : z_row = nzr - 1 → Ye = (Y.length : Int))
    (hRB : ∀ t : Int,
      (if z_row > 0 then t + (z_row - 1) * CA_Z + (Y.length : Int) - (nzr - 1) * CA_Z
       else t) = t + RB) :
    ∀ (f : Nat) (cr : Int) (s : NWBufState),
      f = (cr + 1).toNat → -1 ≤ cr → cr ≤ mr →
      (∀ r', cr + RB < r' → r' ≤ Ye →
        s.Ycol r' = phiL cl co (X.drop col.toNat) (Y.drop r'.toNat)) →
      (∀ r', Ys ≤ r' → r' ≤ cr + RB →
        s.Ycol r' = phiL cl co (X.drop (col + 1).toNat) (Y.drop r'.toNat)) →
      (cr + RB < Ye →
        s.pvy = phiL cl co (X.drop (col + 1).toNat) (Y.drop (cr + RB + 1).toNat)) →
      (Ye < (Y.length : Int) →
        s.Zrow (cc + Zrl - mc) = phiL cl co (X.drop col.toNat) (Y.drop (Ye + 1).toNat)) →
      (Ye < (Y.length : Int) → cc = mc - 1 →
        s.Zrow (cc + Zrl - mc + 1) =
          phiL cl co (X.drop (col + 1).toNat) (Y.drop (Ye + 1).toNat)) →
      (Ye < (Y.length : Int) → cc ≠ mc - 1 →
        s.pvz = phiL cl co (X.drop (col + 1).toNat) (Y.drop (Ye + 1).toNat)) →
      (cr + RB < Ye →
        s.vtk = phiL cl co (X.drop col.toNat) (Y.drop (cr + RB + 1).toNat)) →
      (∀ r', Ys ≤ r' → r' ≤ Ye →
          (caRowLoop cl co X Y (Y.length : Int) nzr Zrl mc mr z_row cc col f cr s).Ycol r' =
            phiL cl co (X.drop col.toNat) (Y.drop r'.toNat)) ∧
        (∀ r', r' < Ys ∨ Ye < r' →
          (caRowLoop cl co X Y (Y.length : Int) nzr Zrl mc mr z_row cc col f cr s).Ycol r' =
            s.Ycol r') ∧
        (caRowLoop cl co X Y (Y.length : Int) nzr Zrl mc mr z_row cc col f cr s).Zrow =
          s.Zrow ∧
        (caRowLoop cl co X Y (Y.length : Int) nzr Zrl mc mr z_row cc col f cr s).pvz =
          s.pvz ∧
        (Ys ≤ Ye →
          (caRowLoop cl co X Y (Y.length : Int) nzr Zrl mc mr z_row cc col f cr s).pvy =
            phiL cl co (X.drop (col + 1).toNat) (Y.drop Ys.toNat)) ∧
        (Ys ≤ Ye →
          (caRowLoop cl co X Y (Y.length : Int) nzr Zrl mc mr z_row cc col f cr s).vtk =
            phiL cl co (X.drop col.toNat) (Y.drop Ys.toNat)) := by
  intro f
  induction f with
  | zero =>
    intro cr s hf hr1 hr2 ha hb hc _hd _he _hf hg
    have hcr : cr = -1 := by omega
    unfold caRowLoop
    refine ⟨?_, fun r' _ => rfl, rfl, rfl, ?_, ?_⟩
    · intro r' h1 h2
      exact ha r' (by omega) h2
    · intro hYsYe
      have h3 : cr + RB < Ye := by omega
      have h4 : cr + RB + 1 = Ys := by omega
      rw [← h4]
      exact hc h3
    · intro hYsYe
      have h3 : cr + RB < Ye := by omega
      have h4 : cr + RB + 1 = Ys := by omega
      rw [← h4]
      exact hg h3
  | succ f ih =>
    intro cr s hf hr1 hr2 ha hb hc hd he hff hg
    have hcr0 : 0 ≤ cr := by omega
    have hstep := caCellStep_correct cl co X Y nzr Zrl mc mr z_row cc col cr (cr + RB)
      Ys Ye s hcol0 hcolM hYs (by omega) (by omega) hYeN (by omega) hbot
      (hb (cr + RB) (by omega) le_rfl)
      (fun h => ha (cr + RB + 1) (by omega) (by omega))
      hc (fun _ h => hd h) (fun _ h1 h2 => he h1 h2) (fun _ h1 h2 => hff h1 h2)
    unfold caRowLoop
    dsimp only
    rw [hRB cr]
    have hr' : cr - 1 + RB + 1 = cr + RB := by omega
    have hrec := ih (cr - 1)
      (caCellStep cl co X Y (Y.length : Int) nzr Zrl mc mr z_row cc col cr (cr + RB) s)
      (by omega) (by omega) (by omega)
      (by
        intro r' h1 h2
        by_cases hrr : r' = cr + RB
        · rw [hrr]
          exact hstep.1
        · rw [hstep.2.1 r' hrr]
          exact ha r' (by omega) h2)
      (by
        intro r' h1 h2
        rw [hstep.2.1 r' (by omega)]
        exact hb r' h1 (by omega))
      (by
        intro h1
        rw [hr', hstep.2.2.2.1]
        exact hb (cr + RB) (by omega) le_rfl)
      (by
        intro h1
        rw [congrFun hstep.2.2.1 (cc + Zrl - mc)]
        exact hd h1)
      (by
        intro h1 h2
        rw [congrFun hstep.2.2.1 (cc + Zrl - mc + 1)]
        exact he h1 h2)
      (by
        intro h1 h2
        rw [hstep.2.2.2.2.1]
        exact hff h1 h2)
      (by
        intro h1
        rw [hr', hstep.2.2.2.2.2])
    refine ⟨hrec.1, ?_, ?_, ?_, hrec.2.2.2.2.1, hrec.2.2.2.2.2⟩
    · intro r' h1
      rw [hrec.2.1 r' h1, hstep.2.1 r' (by omega)]
    · rw [hrec.2.2.1, hstep.2.2.1]
    · rw [hrec.2.2.2.1, hstep.2.2.2.2.1]

theorem caColLoop_correct (cl : BaseInterface) (co : Costs) (X Y : List Char)
    (nzr nzc Zrl mc mr z_row z_col CB D RB Ys Ye : Int)
    (hD : D = Zrl - mc - CB)
    (hCB0 : 0 ≤ CB) (hmc : 1 ≤ mc) (hZeM : mc - 1 + CB < (X.length : Int))
    (hYs : 0 ≤ Ys) (hYsYe : Ys ≤ Ye) (hYeN : Ye ≤ (Y.length : Int))
    (hYsRB : Ys = RB) (hYemr : Ye = mr + RB)
    (hbot : z_row = nzr - 1 → Ye = (Y.length : Int))
    (hRB : ∀ t : Int,
      (if z_row > 0 then t + (z_row - 1) * CA_Z + (Y.length : Int) - (nzr - 1) * CA_Z
       else t) = t + RB)
    (hCBr : ∀ t : Int,
      (if z_col > 0 then t + (z_col - 1) * CA_Z + (X.length : Int) - (nzc - 1) * CA_Z
       else t) = t + CB) :
    ∀ (f : Nat) (cc : Int) (s : NWBufState),
      f = (cc + 1).toNat → -1 ≤ cc → cc ≤ mc - 1 →
      (∀ r, Ys ≤ r → r ≤ Ye →
        s.Ycol r = phiL cl co (X.drop (cc + CB + 1).toNat) (Y.drop r.toNat)) →
      (∀ c', cc + CB < c' → c' ≤ mc - 1 + CB →
        s.Zrow (c' + D) = phiL cl co (X.drop c'.toNat) (Y.drop Ys.toNat)) →
      (cc < mc - 1 →
        s.Zrow Zrl = phiL cl co (X.drop (mc + CB).toNat) (Y.drop Ys.toNat)) →
      (Ye < (Y.length : Int) → ∀ c', CB ≤ c' → c' ≤ cc + CB →
        s.Zrow (c' + D) = phiL cl co (X.drop c'.toNat) (Y.drop (Ye + 1).toNat)) →
      (Ye < (Y.length : Int) → cc = mc - 1 →
        s.Zrow Zrl = phiL cl co (X.drop (mc + CB).toNat) (Y.drop (Ye + 1).toNat)) →
      (Ye < (Y.length : Int) → cc < mc - 1 →
        s.pvz = phiL cl co (X.drop (cc + CB + 1).toNat) (Y.drop (Ye + 1).toNat)) →
      (∀ r, Ys ≤ r → r ≤ Ye →
          (caColLoop cl co X Y (Y.length : Int) (X.length : Int) nzr nzc Zrl mc mr
              z_row z_col f cc s).Ycol r =
            phiL cl co (X.drop CB.toNat) (Y.drop r.toNat)) ∧
        (∀ r, r < Ys ∨ Ye < r →
          (caColLoop cl co X Y (Y.length : Int) (X.length : Int) nzr nzc Zrl mc mr
              z_row z_col f cc s).Ycol r = s.Ycol r) ∧
        (∀ c', CB ≤ c' → c' ≤ mc - 1 + CB →
          (caColLoop cl co X Y (Y.length : Int) (X.length : Int) nzr nzc Zrl mc mr
              z_row z_col f cc s).Zrow (c' + D) =
            phiL cl co (X.drop c'.toNat) (Y.drop Ys.toNat)) ∧
        ((caColLoop cl co X Y (Y.length : Int) (X.length : Int) nzr nzc Zrl mc mr
              z_row z_col f cc s).Zrow Zrl =
          phiL cl co (X.drop (mc + CB).toNat) (Y.drop Ys.toNat)) ∧
        (∀ i, i < CB + D ∨ Zrl < i →
          (caColLoop cl co X Y (Y.length : Int) (X.length : Int) nzr nzc Zrl mc mr
              z_row z_col f cc s).Zrow i = s.Zrow i) := by
  intro f
  induction f with
  | zero =>
    intro cc s hf h1 h2 hi hii hiii _hiv _hv _hvi
    have hcc : cc = -1 := by omega
    unfold caColLoop
    refine ⟨?_, fun r _ => rfl, ?_, ?_, fun i _ => rfl⟩
    · intro r hr1 hr2
      have := hi r hr1 hr2
      have h0 : cc + CB + 1 = CB := by omega
      rw [h0] at this
      exact this
    · intro c' hc1 hc2
      exact hii c' (by omega) hc2
    · exact hiii (by omega)
  | succ f ih =>
    intro cc s hf h1 h2 hi hii hiii hiv hv hvi
    have hcc0 : 0 ≤ cc := by omega
    have hmr0 : 0 ≤ mr := by omega
    have hrow := caRowLoop_correct cl co X Y nzr Zrl mc mr z_row cc (cc + CB) RB Ys Ye
      (by omega) (by omega) hYs hYeN hYsRB hYemr hbot hRB
      (mr + 1).toNat mr s rfl (by omega) le_rfl
      (fun r' hr1 hr2 => absurd hr1 (by omega))
      (fun r' hr1 hr2 => hi r' hr1 (by omega))
      (fun h => absurd h (by omega))
      (fun h => by
        have := hiv h (cc + CB) (by omega) le_rfl
        have heq : cc + CB + D = cc + Zrl - mc := by omega
        rw [heq] at this
        exact this)
      (fun h hce => by
        have := hv h hce
        have heq : cc + Zrl - mc + 1 = Zrl := by omega
        have heq2 : cc + CB + 1 = mc + CB := by omega
        rw [heq, heq2]
        exact this)
      (fun h hce => hvi h (by omega))
      (fun h => absurd h (by omega))
    unfold caColLoop
    dsimp only
    rw [hCBr cc]
    set s1 := caRowLoop cl co X Y (Y.length : Int) nzr Zrl mc mr z_row cc (cc + CB)
      (mr + 1).toNat mr s with hs1def
    have hcolm1 : cc - 1 + CB + 1 = cc + CB := by omega
    by_cases hcZ : cc = mc - 1
    · rw [if_pos hcZ]
      have hrec := ih (cc - 1)
        { Ycol := s1.Ycol,
          Zrow := updI (updI s1.Zrow (cc + Zrl - mc) s1.vtk) Zrl s1.pvy,
          pvy := s1.pvy, pvz := s1.Zrow (cc + Zrl - mc), vtk := s1.vtk }
        (by omega) (by omega) (by omega)
        (by
          intro r hr1 hr2
          dsimp only
          rw [hcolm1, hrow.1 r hr1 hr2])
        (by
          intro c' hc1 hc2
          dsimp only
          rw [updI_other _ _ _ _ (by omega)]
          by_cases hcc : c' = cc + CB
          · have heq : c' + D = cc + Zrl - mc := by omega
            rw [heq, updI_same, hrow.2.2.2.2.2 hYsYe, hcc]
          · rw [updI_other _ _ _ _ (by omega), congrFun hrow.2.2.1 (c' + D)]
            exact hii c' (by omega) hc2)
        (by
          intro hlt
          dsimp only
          rw [updI_same, hrow.2.2.2.2.1 hYsYe,
            (by omega : cc + CB + 1 = mc + CB)])
        (by
          intro hN c' hc1 hc2
          dsimp only
          rw [updI_other _ _ _ _ (by omega), updI_other _ _ _ _ (by omega),
            congrFun hrow.2.2.1 (c' + D)]
          exact hiv hN c' hc1 (by omega))
        (by intro _ habs; omega)
        (by
          intro hN _
          dsimp only
          rw [hcolm1, congrFun hrow.2.2.1 (cc + Zrl - mc)]
          have := hiv hN (cc + CB) (by omega) le_rfl
          have heq : cc + CB + D = cc + Zrl - mc := by omega
          rw [heq] at this
          exact this)
      refine ⟨hrec.1, ?_, hrec.2.2.1, hrec.2.2.2.1, ?_⟩
      · intro r hr
        rw [hrec.2.1 r hr]
        dsimp only
        exact hrow.2.1 r hr
      · intro i hic
        rw [hrec.2.2.2.2 i hic]
        dsimp only
        rw [updI_other _ _ _ _ (by omega), updI_other _ _ _ _ (by omega),
          congrFun hrow.2.2.1 i]
    · rw [if_neg hcZ]
      have hcltZe : cc < mc - 1 := by omega
      have hrec := ih (cc - 1)
        { Ycol := s1.Ycol,
          Zrow := updI s1.Zrow (cc + Zrl - mc) s1.vtk,
          pvy := s1.pvy, pvz := s1.Zrow (cc + Zrl - mc), vtk := s1.vtk }
        (by omega) (by omega) (by omega)
        (by
          intro r hr1 hr2
          dsimp only
          rw [hcolm1, hrow.1 r hr1 hr2])
        (by
          intro c' hc1 hc2
          dsimp only
          by_cases hcc : c' = cc + CB
          · have heq : c' + D = cc + Zrl - mc := by omega
            rw [heq, updI_same, hrow.2.2.2.2.2 hYsYe, hcc]
          · rw [updI_other _ _ _ _ (by omega), congrFun hrow.2.2.1 (c' + D)]
            exact hii c' (by omega) hc2)
        (by
          intro hlt
          dsimp only
          rw [updI_other _ _ _ _ (by omega), congrFun hrow.2.2.1 Zrl]
          exact hiii hcltZe)
        (by
          intro hN c' hc1 hc2
          dsimp only
          rw [updI_other _ _ _ _ (by omega), congrFun hrow.2.2.1 (c' + D)]
          exact hiv hN c' hc1 (by omega))
        (by intro _ habs; omega)
        (by
          intro hN _
          dsimp only
          rw [hcolm1, congrFun hrow.2.2.1 (cc + Zrl - mc)]
          have := hiv hN (cc + CB) (by omega) le_rfl
          have heq : cc + CB + D = cc + Zrl - mc := by omega
          rw [heq] at this
          exact this)
      refine ⟨hrec.1, ?_, hrec.2.2.1, hrec.2.2.2.1, ?_⟩
      · intro r hr
        rw [hrec.2.1 r hr]
        dsimp only
        exact hrow.2.1 r hr
      · intro i hic
        rw [hrec.2.2.2.2 i hic]
        dsimp only
        rw [updI_other _ _ _ _ (by omega), congrFun hrow.2.2.1 i]

theorem caColLoop_emptyRows (cl : BaseInterface) (co : Costs) (X Y : List Char)
    (N M nzr nzc Zrl mc mr z_row z_col : Int) (hmr : mr < 0) :
    ∀ (f : Nat) (cc : Int) (s : NWBufState),
      (caColLoop cl co X Y N M nzr nzc Zrl mc mr z_row z_col f cc s).Ycol = s.Ycol := by
  intro f
  induction f with
  | zero => intro cc s; rfl
  | succ f ih =>
    intro cc s
    unfold caColLoop
    dsimp only
    have h0 : (mr + 1).toNat = 0 := by omega
    rw [h0, ih]
    by_cases hcc : cc = mc - 1
    · rw [if_pos hcc]
      rfl
    · rw [if_neg hcc]
      rfl

theorem caZrowLoop_emptyCols (cl : BaseInterface) (co : Costs) (X Y : List Char)
    (N M nzr nzc Zrl mc z_col : Int) (hmc : mc ≤ 0) :
    ∀ (f : Nat) (j : Int) (s : NWBufState),
      caZrowLoop cl co X Y N M nzr nzc Zrl mc z_col f j s = s := by
  intro f
  induction f with
  | zero => intro j s; rfl
  | succ f ih =>
    intro j s
    unfold caZrowLoop
    dsimp only
    have h0 : mc.toNat = 0 := by omega
    rw [h0, ih]
    rfl

theorem caZrowLoopAux (cl : BaseInterface) (co : Costs) (X Y : List Char)
    (nzr nzc Zrl mc z_col CB D : Int)
    (hnzr : nzr = (Y.length : Int) / 100 + 1)
    (hD : D = Zrl - mc - CB)
    (hCB0 : 0 ≤ CB) (hmc : 1 ≤ mc) (hZeM : mc - 1 + CB < (X.length : Int))
    (hCBr : ∀ t : Int,
      (if z_col > 0 then t + (z_col - 1) * CA_Z + (X.length : Int) - (nzc - 1) * CA_Z
       else t) = t + CB) :
    ∀ (f : Nat) (j : Int) (s : NWBufState),
      f = (j + 1).toNat → -1 ≤ j → j ≤ nzr - 2 →
      (∀ r, (Y.length : Int) - (nzr - 1 - j) * 100 ≤ r → 0 ≤ r → r ≤ (Y.length : Int) →
        s.Ycol r = phiL cl co (X.drop CB.toNat) (Y.drop r.toNat)) →
      (∀ r, 0 ≤ r → r < (Y.length : Int) - (nzr - 1 - j) * 100 →
        s.Ycol r = phiL cl co (X.drop (mc + CB).toNat) (Y.drop r.toNat)) →
      (∀ c', CB ≤ c' → c' ≤ mc - 1 + CB →
        s.Zrow (c' + D) = phiL cl co (X.drop c'.toNat)
          (Y.drop ((Y.length : Int) - (nzr - 1 - j) * 100).toNat)) →
      (s.Zrow Zrl = phiL cl co (X.drop (mc + CB).toNat)
        (Y.drop ((Y.length : Int) - (nzr - 1 - j) * 100).toNat)) →
      ∀ r, 0 ≤ r → r ≤ (Y.length : Int) →
        (caZrowLoop cl co X Y (Y.length : Int) (X.length : Int) nzr nzc Zrl mc z_col
            f j s).Ycol r =
          phiL cl co (X.drop CB.toNat) (Y.drop r.toNat) := by
  intro f
  induction f with
  | zero =>
    intro j s hf h1 h2 hYhi hYlo hZ1 hZ2 r hr0 hrN
    have hj : j = -1 := by omega
    subst hj
    unfold caZrowLoop
    exact hYhi r (by omega) hr0 hrN
  | succ f ih =>
    intro j s hf h1 h2 hYhi hYlo hZ1 hZ2
    have hj0 : 0 ≤ j := by omega
    unfold caZrowLoop
    dsimp only
    simp only [CA_Z]
    rw [if_pos (show j ≠ nzr - 1 by omega)]
    by_cases hBc : (Y.length : Int) - (nzr - 1 - j) * 100 > 100
    · rw [if_pos hBc]
      have hj1 : 0 < j := by omega
      have hstep := caColLoop_correct cl co X Y nzr nzc Zrl mc (100 - 1) j z_col CB D
        ((Y.length : Int) - (nzr - 1 - (j - 1)) * 100)
        ((Y.length : Int) - (nzr - 1 - (j - 1)) * 100)
        ((Y.length : Int) - (nzr - 1 - j) * 100 - 1)
        hD hCB0 hmc hZeM (by omega) (by omega) (by omega) rfl (by omega)
        (fun h => absurd h (by omega))
        (by
          intro t
          rw [if_pos (show j > 0 by omega)]
          simp only [CA_Z]
          omega)
        hCBr
        mc.toNat (mc - 1) s (by omega) (by omega) le_rfl
        (by
          intro r hr1 hr2
          rw [(by omega : mc - 1 + CB + 1 = mc + CB)]
          exact hYlo r (by omega) (by omega))
        (fun c' hc1 hc2 => absurd hc1 (by omega))
        (fun h => absurd h (by omega))
        (by
          intro hN c' hc1 hc2
          rw [(by omega : (Y.length : Int) - (nzr - 1 - j) * 100 - 1 + 1 =
            (Y.length : Int) - (nzr - 1 - j) * 100)]
          exact hZ1 c' hc1 hc2)
        (by
          intro hN _
          rw [(by omega : (Y.length : Int) - (nzr - 1 - j) * 100 - 1 + 1 =
            (Y.length : Int) - (nzr - 1 - j) * 100)]
          exact hZ2)
        (fun _ h => absurd h (by omega))
      refine ih (j - 1) _ (by omega) (by omega) (by omega) ?_ ?_ ?_ ?_
      · intro r hrB hr0 hrN
        by_cases hrY : r ≤ (Y.length : Int) - (nzr - 1 - j) * 100 - 1
        · exact hstep.1 r (by omega) hrY
        · rw [hstep.2.1 r (Or.inr (by omega))]
          exact hYhi r (by omega) hr0 hrN
      · intro r hr0 hrB
        rw [hstep.2.1 r (Or.inl (by omega))]
        exact hYlo r hr0 (by omega)
      · intro c' hc1 hc2
        exact hstep.2.2.1 c' hc1 hc2
      · exact hstep.2.2.2.1
    · rw [if_neg hBc]
      by_cases hB0 : 1 ≤ (Y.length : Int) - (nzr - 1 - j) * 100
      · have hstep := caColLoop_correct cl co X Y nzr nzc Zrl mc
          ((Y.length : Int) - (nzr - 1 - j) * 100 - 1) j z_col CB D
          0 0 ((Y.length : Int) - (nzr - 1 - j) * 100 - 1)
          hD hCB0 hmc hZeM le_rfl (by omega) (by omega) rfl (by omega)
          (fun h => absurd h (by omega))
          (by
            intro t
            by_cases hjp : j > 0
            · rw [if_pos hjp]
              simp only [CA_Z]
              omega
            · rw [if_neg hjp]
              omega)
          hCBr
          mc.toNat (mc - 1) s (by omega) (by omega) le_rfl
          (by
            intro r hr1 hr2
            rw [(by omega : mc - 1 + CB + 1 = mc + CB)]
            exact hYlo r (by omega) (by omega))
          (fun c' hc1 hc2 => absurd hc1 (by omega))
          (fun h => absurd h (by omega))
          (by
            intro hN c' hc1 hc2
            rw [(by omega : (Y.length : Int) - (nzr - 1 - j) * 100 - 1 + 1 =
              (Y.length : Int) - (nzr - 1 - j) * 100)]
            exact hZ1 c' hc1 hc2)
          (by
            intro hN _
            rw [(by omega : (Y.length : Int) - (nzr - 1 - j) * 100 - 1 + 1 =
              (Y.length : Int) - (nzr - 1 - j) * 100)]
            exact hZ2)
          (fun _ h => absurd h (by omega))
        refine ih (j - 1) _ (by omega) (by omega) (by omega) ?_ ?_ ?_ ?_
        · intro r hrB hr0 hrN
          by_cases hrY : r ≤ (Y.length : Int) - (nzr - 1 - j) * 100 - 1
          · exact hstep.1 r (by omega) hrY
          · rw [hstep.2.1 r (Or.inr (by omega))]
            exact hYhi r (by omega) hr0 hrN
        · intro r hr0 hrB
          exact absurd hrB (by omega)
        · intro c' hc1 hc2
          rw [(by omega : ((Y.length : Int) - (nzr - 1 - (j - 1)) * 100).toNat =
            ((0 : Int)).toNat)]
          exact hstep.2.2.1 c' hc1 hc2
        · rw [(by omega : ((Y.length : Int) - (nzr - 1 - (j - 1)) * 100).toNat =
            ((0 : Int)).toNat)]
          exact hstep.2.2.2.1
      · have hj00 : j = 0 := by omega
        have hf0 : f = 0 := by omega
        subst hf0
        intro r hr0 hrN
        rw [show ∀ (jj : Int) (t : NWBufState),
          caZrowLoop cl co X Y (Y.length : Int) (X.length : Int) nzr nzc Zrl mc z_col
            0 jj t = t from fun jj t => rfl]
        rw [congrFun (caColLoop_emptyRows cl co X Y (Y.length : Int) (X.length : Int)
          nzr nzc Zrl mc ((Y.length : Int) - (nzr - 1 - j) * 100 - 1) j z_col
          (by omega) mc.toNat (mc - 1) s) r]
        exact hYhi r (by omega) hr0 hrN

theorem caZrowLoop_strip (cl : BaseInterface) (co : Costs) (X Y : List Char)
    (nzr nzc Zrl mc z_col CB D : Int)
    (hnzr : nzr = (Y.length : Int) / 100 + 1)
    (hD : D = Zrl - mc - CB)
    (hCB0 : 0 ≤ CB) (hmc : 1 ≤ mc) (hZeM : mc - 1 + CB < (X.length : Int))
    (hCBr : ∀ t : Int,
      (if z_col > 0 then t + (z_col - 1) * CA_Z + (X.length : Int) - (nzc - 1) * CA_Z
       else t) = t + CB)
    (s : NWBufState)
    (hY : ∀ r, 0 ≤ r → r ≤ (Y.length : Int) →
      s.Ycol r = phiL cl co (X.drop (mc + CB).toNat) (Y.drop r.toNat)) :
    ∀ r, 0 ≤ r → r ≤ (Y.length : Int) →
      (caZrowLoop cl co X Y (Y.length : Int) (X.length : Int) nzr nzc Zrl mc z_col
          nzr.toNat (nzr - 1) s).Ycol r =
        phiL cl co (X.drop CB.toNat) (Y.drop r.toNat) := by
  have hnzr1 : 1 ≤ nzr := by omega
  have hfuel : nzr.toNat = (nzr - 1).toNat + 1 := by omega
  rw [hfuel]
  unfold caZrowLoop
  dsimp only
  simp only [CA_Z]
  rw [if_neg (show ¬(nzr - 1 ≠ nzr - 1) by omega)]
  by_cases hNZ : (Y.length : Int) - (nzr - 1 - (nzr - 1)) * 100 > 100
  · rw [if_pos hNZ]
    have hstep := caColLoop_correct cl co X Y nzr nzc Zrl mc 100 (nzr - 1) z_col CB D
      ((Y.length : Int) - 100) ((Y.length : Int) - 100) (Y.length : Int)
      hD hCB0 hmc hZeM (by omega) (by omega) le_rfl rfl (by omega)
      (fun _ => rfl)
      (by
        intro t
        rw [if_pos (show nzr - 1 > 0 by omega)]
        simp only [CA_Z]
        omega)
      hCBr
      mc.toNat (mc - 1) s (by omega) (by omega) le_rfl
      (by
        intro r hr1 hr2
        rw [(by omega : mc - 1 + CB + 1 = mc + CB)]
        exact hY r (by omega) hr2)
      (fun c' hc1 hc2 => absurd hc1 (by omega))
      (fun h => absurd h (by omega))
      (fun h => absurd h (by omega))
      (fun h => absurd h (by omega))
      (fun h => absurd h (by omega))
    refine caZrowLoopAux cl co X Y nzr nzc Zrl mc z_col CB D hnzr hD hCB0 hmc hZeM hCBr
      (nzr - 1).toNat (nzr - 1 - 1) _ (by omega) (by omega) (by omega) ?_ ?_ ?_ ?_
    · intro r hrB hr0 hrN
      exact hstep.1 r (by omega) hrN
    · intro r hr0 hrB
      rw [hstep.2.1 r (Or.inl (by omega))]
      exact hY r hr0 (by omega)
    · intro c' hc1 hc2
      rw [(by omega : ((Y.length : Int) - (nzr - 1 - (nzr - 1 - 1)) * 100).toNat =
        ((Y.length : Int) - 100).toNat)]
      exact hstep.2.2.1 c' hc1 hc2
    · rw [(by omega : ((Y.length : Int) - (nzr - 1 - (nzr - 1 - 1)) * 100).toNat =
        ((Y.length : Int) - 100).toNat)]
      exact hstep.2.2.2.1
  · rw [if_neg hNZ]
    have hstep := caColLoop_correct cl co X Y nzr nzc Zrl mc
      ((Y.length : Int) - (nzr - 1 - (nzr - 1)) * 100) (nzr - 1) z_col CB D
      0 0 (Y.length : Int)
      hD hCB0 hmc hZeM le_rfl (by omega) le_rfl rfl (by omega)
      (fun _ => rfl)
      (by
        intro t
        by_cases hjp : nzr - 1 > 0
        · rw [if_pos hjp]
          simp only [CA_Z]
          omega
        · rw [if_neg hjp]
          omega)
      hCBr
      mc.toNat (mc - 1) s (by omega) (by omega) le_rfl
      (by
        intro r hr1 hr2
        rw [(by omega : mc - 1 + CB + 1 = mc + CB)]
        exact hY r hr1 hr2)
      (fun c' hc1 hc2 => absurd hc1 (by omega))
      (fun h => absurd h (by omega))
      (fun h => absurd h (by omega))
      (fun h => absurd h (by omega))
      (fun h => absurd h (by omega))
    refine caZrowLoopAux cl co X Y nzr nzc Zrl mc z_col CB D hnzr hD hCB0 hmc hZeM hCBr
      (nzr - 1).toNat (nzr - 1 - 1) _ (by omega) (by omega) (by omega) ?_ ?_ ?_ ?_
    · intro r hrB hr0 hrN
      exact hstep.1 r hr0 hrN
    · intro r hr0 hrB
      exact absurd hrB (by omega)
    · intro c' hc1 hc2
      rw [(by omega : ((Y.length : Int) - (nzr - 1 - (nzr - 1 - 1)) * 100).toNat =
        ((0 : Int)).toNat)]
      exact hstep.2.2.1 c' hc1 hc2
    · rw [(by omega : ((Y.length : Int) - (nzr - 1 - (nzr - 1 - 1)) * 100).toNat =
        ((0 : Int)).toNat)]
      exact hstep.2.2.2.1

theorem caZcolLoop_correct (cl : BaseInterface) (co : Costs) (X Y : List Char)
    (nzr nzc Zrl : Int)
    (hnzr : nzr = (Y.length : Int) / 100 + 1)
    (hnzc : nzc = (X.length : Int) / 100 + 1) :
    ∀ (f : Nat) (k : Int) (s : NWBufState),
      f = (k + 1).toNat → -1 ≤ k → k ≤ nzc - 1 →
      (∀ r, 0 ≤ r → r ≤ (Y.length : Int) →
        s.Ycol r = phiL cl co (X.drop ((X.length : Int) - (nzc - 1 - k) * 100).toNat)
          (Y.drop r.toNat)) →
      ∀ r, 0 ≤ r → r ≤ (Y.length : Int) →
        (caZcolLoop cl co X Y (Y.length : Int) (X.length : Int) nzr nzc Zrl f k s).Ycol r =
          phiL cl co X (Y.drop r.toNat) := by
  intro f
  induction f with
  | zero =>
    intro k s hf h1 h2 hY r hr0 hrN
    have hk : k = -1 := by omega
    subst hk
    unfold caZcolLoop
    have := hY r hr0 hrN
    rw [(by omega : ((X.length : Int) - (nzc - 1 - (-1 : Int)) * 100).toNat = 0)] at this
    rw [List.drop_zero] at this
    exact this
  | succ f ih =>
    intro k s hf h1 h2 hY
    have hk0 : 0 ≤ k := by omega
    unfold caZcolLoop
    dsimp only
    simp only [CA_Z]
    by_cases hMc : (X.length : Int) - (nzc - 1 - k) * 100 > 100
    · rw [if_pos hMc]
      have hk1 : 0 < k := by omega
      have hstrip := caZrowLoop_strip cl co X Y nzr nzc Zrl 100 k
        ((X.length : Int) - (nzc - 1 - (k - 1)) * 100)
        (Zrl - 100 - ((X.length : Int) - (nzc - 1 - (k - 1)) * 100))
        hnzr rfl (by omega) (by omega) (by omega)
        (by
          intro t
          rw [if_pos (show k > 0 by omega)]
          simp only [CA_Z]
          omega)
        s
        (by
          intro r hr0 hrN
          have := hY r hr0 hrN
          rw [(by omega : ((X.length : Int) - (nzc - 1 - k) * 100).toNat =
            ((100 : Int) + ((X.length : Int) - (nzc - 1 - (k - 1)) * 100)).toNat)] at this
          exact this)
      refine ih (k - 1) _ (by omega) (by omega) (by omega) ?_
      intro r hr0 hrN
      exact hstrip r hr0 hrN
    · rw [if_neg hMc]
      by_cases hmc1 : 1 ≤ (X.length : Int) - (nzc - 1 - k) * 100
      · have hstrip := caZrowLoop_strip cl co X Y nzr nzc Zrl
          ((X.length : Int) - (nzc - 1 - k) * 100) k 0
          (Zrl - ((X.length : Int) - (nzc - 1 - k) * 100) - 0)
          hnzr rfl le_rfl hmc1 (by omega)
          (by
            intro t
            by_cases hkp : k > 0
            · rw [if_pos hkp]
              simp only [CA_Z]
              omega
            · rw [if_neg hkp]
              omega)
          s
          (by
            intro r hr0 hrN
            have := hY r hr0 hrN
            rw [(by omega : ((X.length : Int) - (nzc - 1 - k) * 100).toNat =
              (((X.length : Int) - (nzc - 1 - k) * 100 + (0 : Int))).toNat)] at this
            exact this)
        refine ih (k - 1) _ (by omega) (by omega) (by omega) ?_
        intro r hr0 hrN
        rw [(by omega : ((X.length : Int) - (nzc - 1 - (k - 1)) * 100).toNat =
          ((0 : Int)).toNat)]
        exact hstrip r hr0 hrN
      · have hk00 : k = 0 := by omega
        have hf0 : f = 0 := by omega
        subst hf0
        intro r hr0 hrN
        rw [show ∀ (kk : Int) (t : NWBufState),
          caZcolLoop cl co X Y (Y.length : Int) (X.length : Int) nzr nzc Zrl 0 kk t = t
          from fun kk t => rfl]
        rw [caZrowLoop_emptyCols cl co X Y (Y.length : Int) (X.length : Int) nzr nzc Zrl
          ((X.length : Int) - (nzc - 1 - k) * 100) k (by omega) nzr.toNat (nzr - 1) s]
        have := hY r hr0 hrN
        rw [(by omega : ((X.length : Int) - (nzc - 1 - k) * 100).toNat = 0)] at this
        rw [List.drop_zero] at this
        exact this

theorem CA_eq_phi (cl : BaseInterface) (co : Costs) (junkZ : Int → Int) (A B : List Char) :
    EditDistance_NW_Iter_CA cl co junkZ A B = phiL cl co (orientX A B) (orientY A B) := by
  unfold EditDistance_NW_Iter_CA
  dsimp only
  simp only [CA_Z]
  have hinit := coInitLoop_correct cl co (orientY A B) (orientY A B).length
    (fun _ => 0) le_rfl (by rw [List.drop_length, phiL_nil_nil])
  have hmain := caZcolLoop_correct cl co (orientX A B) (orientY A B)
    (((orientY A B).length : Int) / 100 + 1) (((orientX A B).length : Int) / 100 + 1)
    (if (100 : Int) > ((orientX A B).length : Int) then ((orientX A B).length : Int)
     else (100 : Int))
    rfl rfl
    ((((orientX A B).length : Int) / 100 + 1)).toNat
    ((((orientX A B).length : Int) / 100 + 1) - 1)
    { Ycol := coInitLoop cl co (orientY A B) (orientY A B).length (fun _ => 0),
      Zrow := junkZ, pvy := 0, pvz := 0, vtk := 0 }
    (by omega) (by omega) le_rfl
    (by
      intro r hr0 hrN
      dsimp only
      rw [(by omega : (((orientX A B).length : Int) -
        ((((orientX A B).length : Int) / 100 + 1) - 1 -
          ((((orientX A B).length : Int) / 100 + 1) - 1)) * 100).toNat =
        (orientX A B).length)]
      rw [List.drop_length]
      exact hinit.1 r hr0 hrN)
  have h0 := hmain 0 le_rfl (by omega)
  simp only [Int.toNat_zero, List.drop_zero] at h0
  exact h0

theorem recMemoCntF_succ (cl : BaseInterface) (co : Costs) (X Y : List Char)
    (M N : Nat) (fuel i j : Nat) (mc : (Nat → Nat → Int) × (Nat → Nat → Nat)) :
    recMemoCntF cl co X Y M N (fuel + 1) i j mc =
      if mc.1 i j = NOT_YET_COMPUTED then
        let Xi := chAt X i
        let Yj := chAt Y j
        let rm :=
          if i = M then
            if j = N then (0, mc)
            else
              let vm := recMemoCntF cl co X Y M N fuel i (j + 1) mc
              (insIfBase cl co Yj + vm.1, vm.2)
          else if j = N then
            let vm := recMemoCntF cl co X Y M N fuel (i + 1) j mc
            (insIfBase cl co Xi + vm.1, vm.2)
          else if ¬ cl.isBase Xi then
            recMemoCntF cl co X Y M N fuel (i + 1) j mc
          else if ¬ cl.isBase Yj then
            recMemoCntF cl co X Y M N fuel i (j + 1) mc
          else
            let vm1 := recMemoCntF cl co X Y M N fuel (i + 1) (j + 1) mc
            let mn1 := diagCost cl co Xi Yj + vm1.1
            let vm2 := recMemoCntF cl co X Y M N fuel (i + 1) j vm1.2
            let cas2 := co.INSERTION_COST + vm2.1
            let mn2 := if cas2 < mn1 then cas2 else mn1
            let vm3 := recMemoCntF cl co X Y M N fuel i (j + 1) vm2.2
            let cas3 := co.INSERTION_COST + vm3.1
            let mn3 := if cas3 < mn2 then cas3 else mn2
            (mn3, vm3.2)
        (rm.1, memoSet rm.2.1 i j rm.1, cntBump rm.2.2 i j)
      else (mc.1 i j, mc) := rfl

theorem recMemoCntF_correct (cl : BaseInterface) (co : Costs) (X Y : List Char)
    (hs : 0 ≤ co.SUBSTITUTION_COST) (hu : 0 ≤ co.SUBSTITUTION_UNKNOWN_COST)
    (hins : 0 ≤ co.INSERTION_COST) :
    ∀ (fuel i j : Nat) (mc : (Nat → Nat → Int) × (Nat → Nat → Nat)),
      i ≤ X.length → j ≤ Y.length →
      (X.length - i) + (Y.length - j) < fuel →
      (∀ i' j', i' ≤ X.length → j' ≤ Y.length →
        (mc.1 i' j' = NOT_YET_COMPUTED ∧ mc.2 i' j' = 0) ∨
          (mc.1 i' j' = phiL cl co (X.drop i') (Y.drop j') ∧ 0 ≤ mc.1 i' j' ∧
            mc.2 i' j' = 1)) →
      (∀ i' j', X.length < i' ∨ Y.length < j' → mc.2 i' j' = 0) →
      (recMemoCntF cl co X Y X.length Y.length fuel i j mc).1 =
          phiL cl co (X.drop i) (Y.drop j) ∧
        (∀ i' j', i' ≤ X.length → j' ≤ Y.length →
          ((recMemoCntF cl co X Y X.length Y.length fuel i j mc).2.1 i' j' =
              NOT_YET_COMPUTED ∧
            (recMemoCntF cl co X Y X.length Y.length fuel i j mc).2.2 i' j' = 0) ∨
          ((recMemoCntF cl co X Y X.length Y.length fuel i j mc).2.1 i' j' =
              phiL cl co (X.drop i') (Y.drop j') ∧
            0 ≤ (recMemoCntF cl co X Y X.length Y.length fuel i j mc).2.1 i' j' ∧
            (recMemoCntF cl co X Y X.length Y.length fuel i j mc).2.2 i' j' = 1)) ∧
        (∀ i' j', X.length < i' ∨ Y.length < j' →
          (recMemoCntF cl co X Y X.length Y.length fuel i j mc).2.2 i' j' = 0) ∧
        (∀ i' j', i' < i ∨ j' < j →
          (recMemoCntF cl co X Y X.length Y.length fuel i j mc).2.1 i' j' =
              mc.1 i' j' ∧
            (recMemoCntF cl co X Y X.length Y.length fuel i j mc).2.2 i' j' =
              mc.2 i' j') := by
  intro fuel
  induction fuel with
  | zero => intro i j mc hi hj hfuel hinv hout; omega
  | succ fuel ih =>
    intro i j mc hi hj hfuel hinv hout
    rw [recMemoCntF_succ]
    by_cases hm : mc.1 i j = NOT_YET_COMPUTED
    · rw [if_pos hm]
      have hcnt0 : mc.2 i j = 0 := by
        rcases hinv i j hi hj with ⟨_, h2⟩ | ⟨h1, h2, _⟩
        · exact h2
        · rw [hm] at h2
          simp only [NOT_YET_COMPUTED] at h2
          omega
      by_cases hiM : i = X.length
      · by_cases hjN : j = Y.length
        · subst hiM; subst hjN
          simp only [eq_self_iff_true, if_true]
          refine ⟨?_, ?_, ?_, ?_⟩
          · rw [drop_len_nil, drop_len_nil, phiL_nil_nil]
          · intro i' j' hi' hj'
            unfold memoSet cntBump
            by_cases hij : i' = X.length ∧ j' = Y.length
            · simp only [if_pos hij]
              right
              refine ⟨?_, le_rfl, ?_⟩
              · rw [hij.1, hij.2, drop_len_nil, drop_len_nil, phiL_nil_nil]
              · rw [hij.1, hij.2, hcnt0]
            · simp only [if_neg hij]
              exact hinv i' j' hi' hj'
          · intro i' j' hout'
            unfold cntBump
            rw [if_neg (by omega)]
            exact hout i' j' hout'
          · intro i' j' hlt
            constructor
            · unfold memoSet
              rw [if_neg (by omega)]
            · unfold cntBump
              rw [if_neg (by omega)]
        · have hjlt : j < Y.length := lt_of_le_of_ne hj hjN
          have hrec := ih i (j + 1) mc hi hjlt (by omega) hinv hout
          subst hiM
          simp only [eq_self_iff_true, if_true, if_neg hjN]
          have hphi : phiL cl co (X.drop X.length) (Y.drop j) =
              insIfBase cl co (chAt Y j) +
                phiL cl co (X.drop X.length) (Y.drop (j + 1)) := by
            rw [drop_len_nil, drop_cons_chAt Y j hjlt, phiL_nil_cons]
          have hval : insIfBase cl co (chAt Y j) +
              (recMemoCntF cl co X Y X.length Y.length fuel X.length (j + 1) mc).1 =
              phiL cl co (X.drop X.length) (Y.drop j) := by
            rw [hrec.1, ← hphi]
          have hnn : 0 ≤ phiL cl co (X.drop X.length) (Y.drop j) :=
            phiL_nonneg cl co hs hu hins _ _
          have hvmc : (recMemoCntF cl co X Y X.length Y.length fuel X.length (j + 1)
              mc).2.2 X.length j = 0 := by
            rw [(hrec.2.2.2 X.length j (Or.inr (by omega))).2, hcnt0]
          refine ⟨hval, ?_, ?_, ?_⟩
          · intro i' j' hi' hj'
            unfold memoSet cntBump
            by_cases hij : i' = X.length ∧ j' = j
            · simp only [if_pos hij]
              right
              refine ⟨?_, ?_, ?_⟩
              · rw [hij.1, hij.2]
                exact hval
              · rw [hval]
                exact hnn
              · rw [hij.1, hij.2, hvmc]
            · simp only [if_neg hij]
              exact hrec.2.1 i' j' hi' hj'
          · intro i' j' hout'
            unfold cntBump
            rw [if_neg (by omega)]
            exact hrec.2.2.1 i' j' hout'
          · intro i' j' hlt
            have hf := hrec.2.2.2 i' j' (by omega)
            constructor
            · unfold memoSet
              rw [if_neg (by omega)]
              exact hf.1
            · unfold cntBump
              rw [if_neg (by omega)]
              exact hf.2
      · have hilt : i < X.length := lt_of_le_of_ne hi hiM
        by_cases hjN : j = Y.length
        · have hrec := ih (i + 1) j mc hilt hj (by omega) hinv hout
          subst hjN
          simp only [if_neg hiM, eq_self_iff_true, if_true]
          have hphi : phiL cl co (X.drop i) (Y.drop Y.length) =
              insIfBase cl co (chAt X i) +
                phiL cl co (X.drop (i + 1)) (Y.drop Y.length) := by
            rw [drop_len_nil, drop_cons_chAt X i hilt, phiL_cons_nil]
          have hval : insIfBase cl co (chAt X i) +
              (recMemoCntF cl co X Y X.length Y.length fuel (i + 1) Y.length mc).1 =
              phiL cl co (X.drop i) (Y.drop Y.length) := by
            rw [hrec.1, ← hphi]
          have hnn : 0 ≤ phiL cl co (X.drop i) (Y.drop Y.length) :=
            phiL_nonneg cl co hs hu hins _ _
          have hvmc : (recMemoCntF cl co X Y X.length Y.length fuel (i + 1) Y.length
              mc).2.2 i Y.length = 0 := by
            rw [(hrec.2.2.2 i Y.length (Or.inl (by omega))).2, hcnt0]
          refine ⟨hval, ?_, ?_, ?_⟩
          · intro i' j' hi' hj'
            unfold memoSet cntBump
            by_cases hij : i' = i ∧ j' = Y.length
            · simp only [if_pos hij]
              right
              refine ⟨?_, ?_, ?_⟩
              · rw [hij.1, hij.2]
                exact hval
              · rw [hval]
                exact hnn
              · rw [hij.1, hij.2, hvmc]
            · simp only [if_neg hij]
              exact hrec.2.1 i' j' hi' hj'
          · intro i' j' hout'
            unfold cntBump
            rw [if_neg (by omega)]
            exact hrec.2.2.1 i' j' hout'
          · intro i' j' hlt
            have hf := hrec.2.2.2 i' j' (by omega)
            constructor
            · unfold memoSet
              rw [if_neg (by omega)]
              exact hf.1
            · unfold cntBump
              rw [if_neg (by omega)]
              exact hf.2
        · have hjlt : j < Y.length := lt_of_le_of_ne hj hjN
          by_cases hbx : cl.isBase (chAt X i) = true
          · by_cases hby : cl.isBase (chAt Y j) = true
            · have hrec1 := ih (i + 1) (j + 1) mc hilt hjlt (by omega) hinv hout
              have hrec2 := ih (i + 1) j
                (recMemoCntF cl co X Y X.length Y.length fuel (i + 1) (j + 1) mc).2
                hilt hj (by omega) hrec1.2.1 hrec1.2.2.1
              have hrec3 := ih i (j + 1)
                (recMemoCntF cl co X Y X.length Y.length fuel (i + 1) j
                  (recMemoCntF cl co X Y X.length Y.length fuel (i + 1) (j + 1)
                    mc).2).2
                hi hjlt (by omega) hrec2.2.1 hrec2.2.2.1
              simp only [if_neg hiM, if_neg hjN, hbx, hby, not_true_eq_false,
                if_false]
              have hphi : phiL cl co (X.drop i) (Y.drop j) =
                  min3 (diagCost cl co (chAt X i) (chAt Y j) +
                      phiL cl co (X.drop (i + 1)) (Y.drop (j + 1)))
                    (co.INSERTION_COST + phiL cl co (X.drop (i + 1)) (Y.drop j))
                    (co.INSERTION_COST + phiL cl co (X.drop i) (Y.drop (j + 1))) := by
                rw [drop_cons_chAt X i hilt, drop_cons_chAt Y j hjlt,
                  phiL_cons_cons cl co _ _ _ _ hbx hby,
                  ← drop_cons_chAt X i hilt, ← drop_cons_chAt Y j hjlt]
              have hval : (if co.INSERTION_COST +
                    (recMemoCntF cl co X Y X.length Y.length fuel i (j + 1)
                      (recMemoCntF cl co X Y X.length Y.length fuel (i + 1) j
                        (recMemoCntF cl co X Y X.length Y.length fuel (i + 1) (j + 1)
                          mc).2).2).1 <
                    (if co.INSERTION_COST +
                        (recMemoCntF cl co X Y X.length Y.length fuel (i + 1) j
                          (recMemoCntF cl co X Y X.length Y.length fuel (i + 1)
                            (j + 1) mc).2).1 <
                        diagCost cl co (chAt X i) (chAt Y j) +
                          (recMemoCntF cl co X Y X.length Y.length fuel (i + 1)
                            (j + 1) mc).1
                      then co.INSERTION_COST +
                        (recMemoCntF cl co X Y X.length Y.length fuel (i + 1) j
                          (recMemoCntF cl co X Y X.length Y.length fuel (i + 1)
                            (j + 1) mc).2).1
                      else diagCost cl co (chAt X i) (chAt Y j) +
                        (recMemoCntF cl co X Y X.length Y.length fuel (i + 1)
                          (j + 1) mc).1)
                  then co.INSERTION_COST +
                    (recMemoCntF cl co X Y X.length Y.length fuel i (j + 1)
                      (recMemoCntF cl co X Y X.length Y.length fuel (i + 1) j
                        (recMemoCntF cl co X Y X.length Y.length fuel (i + 1) (j + 1)
                          mc).2).2).1
                  else (if co.INSERTION_COST +
                        (recMemoCntF cl co X Y X.length Y.length fuel (i + 1) j
                          (recMemoCntF cl co X Y X.length Y.length fuel (i + 1)
                            (j + 1) mc).2).1 <
                        diagCost cl co (chAt X i) (chAt Y j) +
                          (recMemoCntF cl co X Y X.length Y.length fuel (i + 1)
                            (j + 1) mc).1
                      then co.INSERTION_COST +
                        (recMemoCntF cl co X Y X.length Y.length fuel (i + 1) j
                          (recMemoCntF cl co X Y X.length Y.length fuel (i + 1)
                            (j + 1) mc).2).1
                      else diagCost cl co (chAt X i) (chAt Y j) +
                        (recMemoCntF cl co X Y X.length Y.length fuel (i + 1)
                          (j + 1) mc).1)) =
                  phiL cl co (X.drop i) (Y.drop j) := by
                rw [min_acc_eq_min3, hrec1.1, hrec2.1, hrec3.1, hphi]
              have hnn : 0 ≤ phiL cl co (X.drop i) (Y.drop j) :=
                phiL_nonneg cl co hs hu hins _ _
              have hvmc : (recMemoCntF cl co X Y X.length Y.length fuel i (j + 1)
                  (recMemoCntF cl co X Y X.length Y.length fuel (i + 1) j
                    (recMemoCntF cl co X Y X.length Y.length fuel (i + 1) (j + 1)
                      mc).2).2).2.2 i j = 0 := by
                rw [(hrec3.2.2.2 i j (Or.inr (by omega))).2,
                  (hrec2.2.2.2 i j (Or.inl (by omega))).2,
                  (hrec1.2.2.2 i j (Or.inl (by omega))).2, hcnt0]
              refine ⟨hval, ?_, ?_, ?_⟩
              · intro i' j' hi' hj'
                unfold memoSet cntBump
                by_cases hij : i' = i ∧ j' = j
                · simp only [if_pos hij]
                  right
                  refine ⟨?_, ?_, ?_⟩
                  · rw [hij.1, hij.2]
                    exact hval
                  · rw [hval]
                    exact hnn
                  · rw [hij.1, hij.2, hvmc]
                · simp only [if_neg hij]
                  exact hrec3.2.1 i' j' hi' hj'
              · intro i' j' hout'
                unfold cntBump
                rw [if_neg (by omega)]
                exact hrec3.2.2.1 i' j' hout'
              · intro i' j' hlt
                have hf1 := hrec1.2.2.2 i' j' (by omega)
                have hf2 := hrec2.2.2.2 i' j' (by omega)
                have hf3 := hrec3.2.2.2 i' j' (by omega)
                constructor
                · unfold memoSet
                  rw [if_neg (by omega), hf3.1, hf2.1, hf1.1]
                · unfold cntBump
                  rw [if_neg (by omega), hf3.2, hf2.2, hf1.2]
            · have hrec := ih i (j + 1) mc hi hjlt (by omega) hinv hout
              simp only [if_neg hiM, if_neg hjN, hbx, hby, not_true_eq_false,
                Bool.false_eq_true, not_false_eq_true, if_true, if_false]
              have hphi : phiL cl co (X.drop i) (Y.drop j) =
                  phiL cl co (X.drop i) (Y.drop (j + 1)) := by
                rw [drop_cons_chAt Y j hjlt,
                  phiL_skipY cl co _ _ _ (by simpa using hby)]
              have hval : (recMemoCntF cl co X Y X.length Y.length fuel i (j + 1)
                  mc).1 = phiL cl co (X.drop i) (Y.drop j) := by
                rw [hrec.1, ← hphi]
              have hnn : 0 ≤ phiL cl co (X.drop i) (Y.drop j) :=
                phiL_nonneg cl co hs hu hins _ _
              have hvmc : (recMemoCntF cl co X Y X.length Y.length fuel i (j + 1)
                  mc).2.2 i j = 0 := by
                rw [(hrec.2.2.2 i j (Or.inr (by omega))).2, hcnt0]
              refine ⟨hval, ?_, ?_, ?_⟩
              · intro i' j' hi' hj'
                unfold memoSet cntBump
                by_cases hij : i' = i ∧ j' = j
                · simp only [if_pos hij]
                  right
                  refine ⟨?_, ?_, ?_⟩
                  · rw [hij.1, hij.2]
                    exact hval
                  · rw [hval]
                    exact hnn
                  · rw [hij.1, hij.2, hvmc]
                · simp only [if_neg hij]
                  exact hrec.2.1 i' j' hi' hj'
              · intro i' j' hout'
                unfold cntBump
                rw [if_neg (by omega)]
                exact hrec.2.2.1 i' j' hout'
              · intro i' j' hlt
                have hf := hrec.2.2.2 i' j' (by omega)
                constructor
                · unfold memoSet
                  rw [if_neg (by omega)]
                  exact hf.1
                · unfold cntBump
                  rw [if_neg (by omega)]
                  exact hf.2
          · have hrec := ih (i + 1) j mc hilt hj (by omega) hinv hout
            simp only [if_neg hiM, if_neg hjN, hbx, Bool.false_eq_true,
              not_false_eq_true, if_true]
            have hphi : phiL cl co (X.drop i) (Y.drop j) =
                phiL cl co (X.drop (i + 1)) (Y.drop j) := by
              rw [drop_cons_chAt X i hilt,
                phiL_skipX cl co _ _ _ (by simpa using hbx)]
            have hval : (recMemoCntF cl co X Y X.length Y.length fuel (i + 1) j
                mc).1 = phiL cl co (X.drop i) (Y.drop j) := by
              rw [hrec.1, ← hphi]
            have hnn : 0 ≤ phiL cl co (X.drop i) (Y.drop j) :=
              phiL_nonneg cl co hs hu hins _ _
            have hvmc : (recMemoCntF cl co X Y X.length Y.length fuel (i + 1) j
                mc).2.2 i j = 0 := by
              rw [(hrec.2.2.2 i j (Or.inl (by omega))).2, hcnt0]
            refine ⟨hval, ?_, ?_, ?_⟩
            · intro i' j' hi' hj'
              unfold memoSet cntBump
              by_cases hij : i' = i ∧ j' = j
              · simp only [if_pos hij]
                right
                refine ⟨?_, ?_, ?_⟩
                · rw [hij.1, hij.2]
                  exact hval
                · rw [hval]
                  exact hnn
                · rw [hij.1, hij.2, hvmc]
              · simp only [if_neg hij]
                exact hrec.2.1 i' j' hi' hj'
            · intro i' j' hout'
              unfold cntBump
              rw [if_neg (by omega)]
              exact hrec.2.2.1 i' j' hout'
            · intro i' j' hlt
              have hf := hrec.2.2.2 i' j' (by omega)
              constructor
              · unfold memoSet
                rw [if_neg (by omega)]
                exact hf.1
              · unfold cntBump
                rw [if_neg (by omega)]
                exact hf.2
    · rw [if_neg hm]
      rcases hinv i j hi hj with ⟨h1, _⟩ | ⟨h1, _, _⟩
      · exact absurd h1 hm
      · exact ⟨h1, hinv, hout, fun i' j' _ => ⟨rfl, rfl⟩⟩

theorem NW_Rec_bodyCount_le_one (cl : BaseInterface) (co : Costs) (A B : List Char)
    (hs : 0 ≤ co.SUBSTITUTION_COST) (hu : 0 ≤ co.SUBSTITUTION_UNKNOWN_COST)
    (hins : 0 ≤ co.INSERTION_COST) :
    ∀ i j, NW_Rec_bodyCount cl co A B i j ≤ 1 := by
  intro i j
  unfold NW_Rec_bodyCount
  have h := recMemoCntF_correct cl co (orientX A B) (orientY A B) hs hu hins
    ((orientX A B).length + (orientY A B).length + 1) 0 0
    (fun _ _ => NOT_YET_COMPUTED, fun _ _ => 0) (Nat.zero_le _) (Nat.zero_le _)
    (by omega)
    (fun i' j' _ _ => Or.inl ⟨rfl, rfl⟩)
    (fun i' j' _ => rfl)
  by_cases hin : i ≤ (orientX A B).length ∧ j ≤ (orientY A B).length
  · rcases h.2.1 i j hin.1 hin.2 with ⟨_, hc⟩ | ⟨_, _, hc⟩ <;> omega
  · have := h.2.2.1 i j (by omega)
    omega

/-! Claim theorems. -/

/-- C1: for every classifier, cost configuration, Z_row initial contents and
input pair, the four engines EditDistance_NW_Rec, EditDistance_NW_Iter,
EditDistance_NW_Iter_CA and EditDistance_NW_Iter_CO return the same integer
distance. -/
theorem claim_C1_engines_agree (cl : BaseInterface) (co : Costs) (junkZ : Int → Int)
    (A B : List Char) :
    EditDistance_NW_Iter cl co A B = EditDistance_NW_Rec cl co A B ∧
      EditDistance_NW_Iter_CA cl co junkZ A B = EditDistance_NW_Rec cl co A B ∧
      EditDistance_NW_Iter_CO cl co A B = EditDistance_NW_Rec cl co A B := by
  rw [Rec_eq_phi, Iter_eq_phi, CA_eq_phi, CO_eq_phi]
  exact ⟨rfl, rfl, rfl⟩

/-- C2: EditDistance_NW_Rec returns phi(0, 0) of the reference recurrence over
the oriented pair, and phi satisfies the recurrence of section 4.2: the empty
case is 0, edge cases add the insertion cost only for base symbols, non-base
positions are skipped at no cost, and the two-base case is the three-way
minimum over the diagonal, insert-into-X and insert-into-Y options. -/
theorem claim_C2_rec_matches_recurrence (cl : BaseInterface) (co : Costs)
    (A B : List Char) (a b : Char) (xs ys : List Char) :
    EditDistance_NW_Rec cl co A B = phiL cl co (orientX A B) (orientY A B) ∧
      phiL cl co [] [] = 0 ∧
      phiL cl co [] (b :: ys) = insIfBase cl co b + phiL cl co [] ys ∧
      phiL cl co (a :: xs) [] = insIfBase cl co a + phiL cl co xs [] ∧
      phiL cl co (a :: xs) (b :: ys) =
        (if ¬ cl.isBase a then phiL cl co xs (b :: ys)
         else if ¬ cl.isBase b then phiL cl co (a :: xs) ys
         else min3 (diagCost cl co a b + phiL cl co xs ys)
           (co.INSERTION_COST + phiL cl co xs (b :: ys))
           (co.INSERTION_COST + phiL cl co (a :: xs) ys)) := by
  refine ⟨Rec_eq_phi cl co A B, phiL_nil_nil cl co, phiL_nil_cons cl co b ys,
    phiL_cons_nil cl co a xs, ?_⟩
  by_cases hbx : cl.isBase a = true
  · by_cases hby : cl.isBase b = true
    · rw [if_neg (by simp [hbx]), if_neg (by simp [hby]),
        phiL_cons_cons cl co a b xs ys hbx hby]
    · rw [if_neg (by simp [hbx]), if_pos hby,
        phiL_skipY cl co b (a :: xs) ys (by simpa using hby)]
  · rw [if_pos hbx, phiL_skipX cl co a xs (b :: ys) (by simpa using hbx)]

/-- C3 (corrected): the diagonal option charges the unknown-substitution cost
exactly when the PRIMARY symbol is the wildcard, not when either symbol is.
The all-wildcard scenario holds when the wildcard sequence is the primary one:
a replicate of N against a wildcard-free all-base sequence of the same length
yields length times the unknown-substitution cost from every engine, because
equal lengths make the first argument primary. -/
theorem claim_C3_wildcard_cost_primary (n : Nat) (Y : List Char) (junkZ : Int → Int)
    (hlen : Y.length = n)
    (hY : ∀ c ∈ Y, specBase.isBase c = true ∧ specBase.isUnknownBase c = false) :
    EditDistance_NW_Rec specBase specCosts (List.replicate n 'N') Y =
        specCosts.SUBSTITUTION_UNKNOWN_COST * (n : Int) ∧
      EditDistance_NW_Iter specBase specCosts (List.replicate n 'N') Y =
        specCosts.SUBSTITUTION_UNKNOWN_COST * (n : Int) ∧
      EditDistance_NW_Iter_CA specBase specCosts junkZ (List.replicate n 'N') Y =
        specCosts.SUBSTITUTION_UNKNOWN_COST * (n : Int) ∧
      EditDistance_NW_Iter_CO specBase specCosts (List.replicate n 'N') Y =
        specCosts.SUBSTITUTION_UNKNOWN_COST * (n : Int) := by
  have hox : orientX (List.replicate n 'N') Y = List.replicate n 'N' := by
    unfold orientX
    rw [if_pos (by simp [hlen])]
  have hoy : orientY (List.replicate n 'N') Y = Y := by
    unfold orientY
    rw [if_pos (by simp [hlen])]
  have hval : phiL specBase specCosts (orientX (List.replicate n 'N') Y)
      (orientY (List.replicate n 'N') Y) =
      specCosts.SUBSTITUTION_UNKNOWN_COST * (n : Int) := by
    rw [hox, hoy, show specCosts.SUBSTITUTION_UNKNOWN_COST = (2 : Int) from rfl]
    exact phiL_repN n Y hlen hY
  exact ⟨by rw [Rec_eq_phi]; exact hval, by rw [Iter_eq_phi]; exact hval,
    by rw [CA_eq_phi]; exact hval, by rw [CO_eq_phi]; exact hval⟩

/-- Witness for C3 at n = 3 against ACG. -/
theorem claim_C3_wildcard_cost_primary_witness :
    (['A', 'C', 'G'] : List Char).length = 3 ∧
      EditDistance_NW_Rec specBase specCosts (List.replicate 3 'N') ['A', 'C', 'G'] =
        specCosts.SUBSTITUTION_UNKNOWN_COST * (3 : Int) :=
  ⟨rfl, (claim_C3_wildcard_cost_primary 3 ['A', 'C', 'G'] (fun _ => 0) rfl
    (by decide)).1⟩

/-- Counterexample to the spec wording of C3: both symbols are bases, the
secondary one is the wildcard, yet the distance of A against N is the plain
substitution cost, not the unknown-substitution cost: the code tests only the
primary symbol. -/
theorem claim_C3_diag_primary_only_cex :
    specBase.isBase 'A' = true ∧ specBase.isBase 'N' = true ∧
      specBase.isUnknownBase 'N' = true ∧ specBase.isUnknownBase 'A' = false ∧
      EditDistance_NW_Rec specBase specCosts ['A'] ['N'] =
        specCosts.SUBSTITUTION_COST ∧
      EditDistance_NW_Rec specBase specCosts ['A'] ['N'] ≠
        specCosts.SUBSTITUTION_UNKNOWN_COST * ((1 : Nat) : Int) := by decide

/-- C4 (corrected): swapping the two argument sequences preserves the result
of every engine when the classifier's base equality is symmetric and both
sequences are free of the wildcard; with a wildcard present the distance is
asymmetric because the diagonal cost tests only the primary symbol. -/
theorem claim_C4_swap_wildcard_free (cl : BaseInterface) (co : Costs)
    (junkZ : Int → Int) (A B : List Char)
    (hsym : ∀ a b, cl.isSameBase a b = cl.isSameBase b a)
    (hAu : ∀ c ∈ A, cl.isUnknownBase c = false)
    (hBu : ∀ c ∈ B, cl.isUnknownBase c = false) :
    EditDistance_NW_Rec cl co A B = EditDistance_NW_Rec cl co B A ∧
      EditDistance_NW_Iter cl co A B = EditDistance_NW_Iter cl co B A ∧
      EditDistance_NW_Iter_CA cl co junkZ A B = EditDistance_NW_Iter_CA cl co junkZ B A ∧
      EditDistance_NW_Iter_CO cl co A B = EditDistance_NW_Iter_CO cl co B A := by
  have hkey : phiL cl co (orientX A B) (orientY A B) =
      phiL cl co (orientX B A) (orientY B A) := by
    unfold orientX orientY
    by_cases hab : A.length ≥ B.length
    · by_cases hba : B.length ≥ A.length
      · rw [if_pos hab, if_pos hab, if_pos hba, if_pos hba]
        exact phiL_comm cl co hsym A B hAu hBu
      · rw [if_pos hab, if_pos hab, if_neg hba, if_neg hba]
    · have hba : B.length ≥ A.length := by omega
      rw [if_neg hab, if_neg hab, if_pos hba, if_pos hba]
  rw [Rec_eq_phi, Rec_eq_phi, Iter_eq_phi, Iter_eq_phi, CA_eq_phi, CA_eq_phi,
    CO_eq_phi, CO_eq_phi]
  exact ⟨hkey, hkey, hkey, hkey⟩

/-- Witness for C4 on the wildcard-free pair A and CG. -/
theorem claim_C4_swap_wildcard_free_witness :
    EditDistance_NW_Rec specBase specCosts ['A'] ['C', 'G'] =
      EditDistance_NW_Rec specBase specCosts ['C', 'G'] ['A'] :=
  (claim_C4_swap_wildcard_free specBase specCosts (fun _ => 0) ['A'] ['C', 'G']
    (fun a b => decide_eq_decide.mpr eq_comm) (by decide) (by decide)).1

/-- Counterexample to C4 as stated: with a wildcard in one sequence, all four
engines give different results for the two argument orders. -/
theorem claim_C4_swap_cex :
    EditDistance_NW_Rec specBase specCosts ['A'] ['N'] = 1 ∧
      EditDistance_NW_Rec specBase specCosts ['N'] ['A'] = 2 ∧
      EditDistance_NW_Rec specBase specCosts ['A'] ['N'] ≠
        EditDistance_NW_Rec specBase specCosts ['N'] ['A'] ∧
      EditDistance_NW_Iter specBase specCosts ['A'] ['N'] ≠
        EditDistance_NW_Iter specBase specCosts ['N'] ['A'] ∧
      EditDistance_NW_Iter_CA specBase specCosts (fun _ => 0) ['A'] ['N'] ≠
        EditDistance_NW_Iter_CA specBase specCosts (fun _ => 0) ['N'] ['A'] ∧
      EditDistance_NW_Iter_CO specBase specCosts ['A'] ['N'] ≠
        EditDistance_NW_Iter_CO specBase specCosts ['N'] ['A'] := by decide

/-- C5 (corrected): inserting a non-base symbol at any position of either
sequence leaves the distance of every engine unchanged PROVIDED the insertion
does not change which argument the orientation normalizer designates as
primary: the primary role is decided by raw lengths, non-base symbols
included, so an insertion that changes the length comparison outcome can
change the result.  The first conjunct inserts into the first argument, the
second into the second argument; each hypothesis says only that the length
comparison that picks the primary sequence has the same outcome before and
after the insertion, whichever argument is primary. -/
theorem claim_C5_nonbase_insertion (cl : BaseInterface) (co : Costs)
    (junkZ : Int → Int) (c : Char) (u v B : List Char)
    (hc : cl.isBase c = false) :
    (((u ++ v).length ≥ B.length ↔ (u ++ c :: v).length ≥ B.length) →
      EditDistance_NW_Rec cl co (u ++ c :: v) B =
          EditDistance_NW_Rec cl co (u ++ v) B ∧
        EditDistance_NW_Iter cl co (u ++ c :: v) B =
          EditDistance_NW_Iter cl co (u ++ v) B ∧
        EditDistance_NW_Iter_CA cl co junkZ (u ++ c :: v) B =
          EditDistance_NW_Iter_CA cl co junkZ (u ++ v) B ∧
        EditDistance_NW_Iter_CO cl co (u ++ c :: v) B =
          EditDistance_NW_Iter_CO cl co (u ++ v) B) ∧
    ((B.length ≥ (u ++ v).length ↔ B.length ≥ (u ++ c :: v).length) →
      EditDistance_NW_Rec cl co B (u ++ c :: v) =
          EditDistance_NW_Rec cl co B (u ++ v) ∧
        EditDistance_NW_Iter cl co B (u ++ c :: v) =
          EditDistance_NW_Iter cl co B (u ++ v) ∧
        EditDistance_NW_Iter_CA cl co junkZ B (u ++ c :: v) =
          EditDistance_NW_Iter_CA cl co junkZ B (u ++ v) ∧
        EditDistance_NW_Iter_CO cl co B (u ++ c :: v) =
          EditDistance_NW_Iter_CO cl co B (u ++ v)) := by
  have hfilter : (u ++ c :: v).filter cl.isBase = (u ++ v).filter cl.isBase := by
    simp [List.filter_append, List.filter_cons, hc]
  have hphi1 : phiL cl co (u ++ c :: v) B = phiL cl co (u ++ v) B := by
    rw [phiL_filter, hfilter, ← phiL_filter]
  have hphi2 : phiL cl co B (u ++ c :: v) = phiL cl co B (u ++ v) := by
    rw [phiL_filter cl co B (u ++ c :: v), hfilter, ← phiL_filter]
  constructor
  · intro hiff
    have hkey : phiL cl co (orientX (u ++ c :: v) B) (orientY (u ++ c :: v) B) =
        phiL cl co (orientX (u ++ v) B) (orientY (u ++ v) B) := by
      unfold orientX orientY
      by_cases hge : (u ++ v).length ≥ B.length
      · rw [if_pos (hiff.mp hge), if_pos (hiff.mp hge), if_pos hge, if_pos hge]
        exact hphi1
      · have hge2 : ¬((u ++ c :: v).length ≥ B.length) := fun h => hge (hiff.mpr h)
        rw [if_neg hge2, if_neg hge2, if_neg hge, if_neg hge]
        exact hphi2
    exact ⟨by rw [Rec_eq_phi, Rec_eq_phi]; exact hkey,
      by rw [Iter_eq_phi, Iter_eq_phi]; exact hkey,
      by rw [CA_eq_phi, CA_eq_phi]; exact hkey,
      by rw [CO_eq_phi, CO_eq_phi]; exact hkey⟩
  · intro hiff
    have hkey : phiL cl co (orientX B (u ++ c :: v)) (orientY B (u ++ c :: v)) =
        phiL cl co (orientX B (u ++ v)) (orientY B (u ++ v)) := by
      unfold orientX orientY
      by_cases hge : B.length ≥ (u ++ v).length
      · rw [if_pos (hiff.mp hge), if_pos (hiff.mp hge), if_pos hge, if_pos hge]
        exact hphi2
      · have hge2 : ¬(B.length ≥ (u ++ c :: v).length) := fun h => hge (hiff.mpr h)
        rw [if_neg hge2, if_neg hge2, if_neg hge, if_neg hge]
        exact hphi1
    exact ⟨by rw [Rec_eq_phi, Rec_eq_phi]; exact hkey,
      by rw [Iter_eq_phi, Iter_eq_phi]; exact hkey,
      by rw [CA_eq_phi, CA_eq_phi]; exact hkey,
      by rw [CO_eq_phi, CO_eq_phi]; exact hkey⟩

/-- Witness for C5: inserting a line feed into the primary first argument,
and inserting one into a second argument that is and stays primary. -/
theorem claim_C5_nonbase_insertion_witness :
    specBase.isBase (Char.ofNat 10) = false ∧
      EditDistance_NW_Rec specBase specCosts
          (['A'] ++ Char.ofNat 10 :: ['C']) ['G'] =
        EditDistance_NW_Rec specBase specCosts (['A'] ++ ['C']) ['G'] ∧
      EditDistance_NW_Rec specBase specCosts
          ['A'] (['C'] ++ Char.ofNat 10 :: ['G', 'T']) =
        EditDistance_NW_Rec specBase specCosts ['A'] (['C'] ++ ['G', 'T']) :=
  ⟨by decide,
    ((claim_C5_nonbase_insertion specBase specCosts (fun _ => 0)
      (Char.ofNat 10) ['A'] ['C'] ['G'] (by decide)).1 (by decide)).1,
    ((claim_C5_nonbase_insertion specBase specCosts (fun _ => 0)
      (Char.ofNat 10) ['C'] ['G', 'T'] ['A'] (by decide)).2 (by decide)).1⟩

/-- Counterexample to C5 as stated: inserting a line feed in front of the
secondary sequence A flips the orientation (the modified sequence becomes
the longer, hence primary, one), and the distance to N changes from 2 to 1. -/
theorem claim_C5_orientation_flip_cex :
    specBase.isBase (Char.ofNat 10) = false ∧
      EditDistance_NW_Rec specBase specCosts ['N'] ['A'] = 2 ∧
      EditDistance_NW_Rec specBase specCosts ['N'] [Char.ofNat 10, 'A'] = 1 ∧
      EditDistance_NW_Rec specBase specCosts ['N'] [Char.ofNat 10, 'A'] ≠
        EditDistance_NW_Rec specBase specCosts ['N'] ['A'] := by decide

/-- C6 (corrected): the distance of a sequence against itself is 0 for every
engine when every symbol is a base, none is the wildcard, and base equality
is reflexive on the symbols of the sequence; an all-base sequence containing
the wildcard N has a nonzero self-distance because the diagonal charges the
unknown-substitution cost even for N against N. -/
theorem claim_C6_identity_wildcard_free (cl : BaseInterface) (co : Costs)
    (junkZ : Int → Int) (S : List Char)
    (hs : 0 ≤ co.SUBSTITUTION_COST) (hu : 0 ≤ co.SUBSTITUTION_UNKNOWN_COST)
    (hi : 0 ≤ co.INSERTION_COST)
    (hbase : ∀ c ∈ S, cl.isBase c = true)
    (hunk : ∀ c ∈ S, cl.isUnknownBase c = false)
    (hrefl : ∀ c ∈ S, cl.isSameBase c c = true) :
    EditDistance_NW_Rec cl co S S = 0 ∧
      EditDistance_NW_Iter cl co S S = 0 ∧
      EditDistance_NW_Iter_CA cl co junkZ S S = 0 ∧
      EditDistance_NW_Iter_CO cl co S S = 0 := by
  have hox : orientX S S = S := by
    unfold orientX
    rw [if_pos le_rfl]
  have hoy : orientY S S = S := by
    unfold orientY
    rw [if_pos le_rfl]
  have hval : phiL cl co (orientX S S) (orientY S S) = 0 := by
    rw [hox, hoy]
    exact phiL_self cl co hs hu hi S hbase hunk hrefl
  exact ⟨by rw [Rec_eq_phi]; exact hval, by rw [Iter_eq_phi]; exact hval,
    by rw [CA_eq_phi]; exact hval, by rw [CO_eq_phi]; exact hval⟩

/-- Witness for C6 on the wildcard-free sequence AC. -/
theorem claim_C6_identity_wildcard_free_witness :
    EditDistance_NW_Rec specBase specCosts ['A', 'C'] ['A', 'C'] = 0 :=
  (claim_C6_identity_wildcard_free specBase specCosts (fun _ => 0) ['A', 'C']
    (by decide) (by decide) (by decide) (by decide) (by decide) (by decide)).1

/-- Counterexample to C6 as stated: N is a valid base, yet the self-distance
of the sequence N is the unknown-substitution cost 2, not 0. -/
theorem claim_C6_identity_cex :
    specBase.isBase 'N' = true ∧
      EditDistance_NW_Rec specBase specCosts ['N'] ['N'] = 2 ∧
      EditDistance_NW_Rec specBase specCosts ['N'] ['N'] ≠ 0 := by decide

/-- C7 (corrected): under non-negative cost constants every engine returns a
non-negative distance, and the upper bound insertion_cost times the longer
length additionally needs the substitution and unknown-substitution costs to
be at most the insertion cost; with a substitution cost above the insertion
cost the bound fails. -/
theorem claim_C7_nonneg_and_bound (cl : BaseInterface) (co : Costs)
    (junkZ : Int → Int) (A B : List Char)
    (hs : 0 ≤ co.SUBSTITUTION_COST) (hu : 0 ≤ co.SUBSTITUTION_UNKNOWN_COST)
    (hi : 0 ≤ co.INSERTION_COST) :
    (0 ≤ EditDistance_NW_Rec cl co A B ∧
      0 ≤ EditDistance_NW_Iter cl co A B ∧
      0 ≤ EditDistance_NW_Iter_CA cl co junkZ A B ∧
      0 ≤ EditDistance_NW_Iter_CO cl co A B) ∧
    (co.SUBSTITUTION_COST ≤ co.INSERTION_COST →
      co.SUBSTITUTION_UNKNOWN_COST ≤ co.INSERTION_COST →
      EditDistance_NW_Rec cl co A B ≤
          co.INSERTION_COST * ((max A.length B.length : Nat) : Int) ∧
        EditDistance_NW_Iter cl co A B ≤
          co.INSERTION_COST * ((max A.length B.length : Nat) : Int) ∧
        EditDistance_NW_Iter_CA cl co junkZ A B ≤
          co.INSERTION_COST * ((max A.length B.length : Nat) : Int) ∧
        EditDistance_NW_Iter_CO cl co A B ≤
          co.INSERTION_COST * ((max A.length B.length : Nat) : Int)) := by
  have hnn := phiL_nonneg cl co hs hu hi (orientX A B) (orientY A B)
  have hmax : ((max (orientX A B).length (orientY A B).length : Nat) : Int) =
      ((max A.length B.length : Nat) : Int) := by
    unfold orientX orientY
    by_cases hab : A.length ≥ B.length
    · rw [if_pos hab, if_pos hab]
    · rw [if_neg hab, if_neg hab]
      omega
  constructor
  · exact ⟨by rw [Rec_eq_phi]; exact hnn, by rw [Iter_eq_phi]; exact hnn,
      by rw [CA_eq_phi]; exact hnn, by rw [CO_eq_phi]; exact hnn⟩
  · intro hsi hui
    have hub := phiL_upper cl co hs hu hi hsi hui (orientX A B) (orientY A B)
    rw [hmax] at hub
    exact ⟨by rw [Rec_eq_phi]; exact hub, by rw [Iter_eq_phi]; exact hub,
      by rw [CA_eq_phi]; exact hub, by rw [CO_eq_phi]; exact hub⟩

/-- Witness for C7 with the representative costs on A versus CG. -/
theorem claim_C7_nonneg_and_bound_witness :
    (0 : Int) ≤ EditDistance_NW_Rec specBase specCosts ['A'] ['C', 'G'] ∧
      EditDistance_NW_Rec specBase specCosts ['A'] ['C', 'G'] ≤
        specCosts.INSERTION_COST *
          ((max (['A'] : List Char).length (['C', 'G'] : List Char).length : Nat) : Int) :=
  ⟨(claim_C7_nonneg_and_bound specBase specCosts (fun _ => 0) ['A'] ['C', 'G']
      (by decide) (by decide) (by decide)).1.1,
    ((claim_C7_nonneg_and_bound specBase specCosts (fun _ => 0) ['A'] ['C', 'G']
      (by decide) (by decide) (by decide)).2 (by decide) (by decide)).1⟩

/-- Counterexample to C7 as stated: the non-negative costs (3, 0, 1) give
distance 2 for A versus C, above insertion_cost times the longer length 1. -/
theorem claim_C7_bound_cex :
    (0 : Int) ≤ (Costs.mk 3 0 1).SUBSTITUTION_COST ∧
      (0 : Int) ≤ (Costs.mk 3 0 1).SUBSTITUTION_UNKNOWN_COST ∧
      (0 : Int) ≤ (Costs.mk 3 0 1).INSERTION_COST ∧
      EditDistance_NW_Rec specBase (Costs.mk 3 0 1) ['A'] ['C'] = 2 ∧
      ¬(EditDistance_NW_Rec specBase (Costs.mk 3 0 1) ['A'] ['C'] ≤
        (Costs.mk 3 0 1).INSERTION_COST *
          ((max (['A'] : List Char).length (['C'] : List Char).length : Nat) : Int)) := by
  decide

/-- C8 (code bug): the cache-aware engine checks the Y_col allocation (a
failure is an abort, modelled as the error result) but performs NO check on
the Z_row allocation: with Z_row allocation failed the engine still returns
an ok value computed from the invalid buffer contents junkZ, instead of
aborting.  The same pattern occurs in the cache-oblivious engine. -/
theorem claim_C8_zrow_alloc_unchecked (cl : BaseInterface) (co : Costs)
    (junkZ : Int → Int) (A B : List Char) :
    EditDistance_NW_Iter_CA_alloc cl co false true junkZ A B = Except.error () ∧
      EditDistance_NW_Iter_CA_alloc cl co true false junkZ A B =
        Except.ok (EditDistance_NW_Iter_CA cl co junkZ A B) := ⟨rfl, rfl⟩

/-- C9: under non-negative cost constants, every memo entry the recursion has
written is non-negative and in particular never the sentinel
NOT_YET_COMPUTED, so the memo test is sound; the ghost execution counter of
the instrumented recursion shows that the memoized body runs at most once
per cell. -/
theorem claim_C9_memo_sound (cl : BaseInterface) (co : Costs) (A B : List Char)
    (hs : 0 ≤ co.SUBSTITUTION_COST) (hu : 0 ≤ co.SUBSTITUTION_UNKNOWN_COST)
    (hins : 0 ≤ co.INSERTION_COST) :
    (∀ i j, i ≤ (orientX A B).length → j ≤ (orientY A B).length →
      NW_Rec_finalMemo cl co A B i j = NOT_YET_COMPUTED ∨
        (0 ≤ NW_Rec_finalMemo cl co A B i j ∧
          NW_Rec_finalMemo cl co A B i j ≠ NOT_YET_COMPUTED)) ∧
      (∀ i j, NW_Rec_bodyCount cl co A B i j ≤ 1) := by
  constructor
  · intro i j hi hj
    rcases Rec_finalMemo_inv cl co A B i j hi hj with h | h
    · exact Or.inl h
    · right
      have hnn := phiL_nonneg cl co hs hu hins ((orientX A B).drop i)
        ((orientY A B).drop j)
      have h0 : 0 ≤ NW_Rec_finalMemo cl co A B i j := by
        rw [h]
        exact hnn
      refine ⟨h0, ?_⟩
      intro habs
      rw [habs] at h0
      simp only [NOT_YET_COMPUTED] at h0
      omega
  · exact NW_Rec_bodyCount_le_one cl co A B hs hu hins

/-- Witness for C9 at cell (0, 0) of the pair A versus C. -/
theorem claim_C9_memo_sound_witness :
    (NW_Rec_finalMemo specBase specCosts ['A'] ['C'] 0 0 = NOT_YET_COMPUTED ∨
      (0 ≤ NW_Rec_finalMemo specBase specCosts ['A'] ['C'] 0 0 ∧
        NW_Rec_finalMemo specBase specCosts ['A'] ['C'] 0 0 ≠ NOT_YET_COMPUTED)) ∧
      NW_Rec_bodyCount specBase specCosts ['A'] ['C'] 0 0 ≤ 1 :=
  ⟨(claim_C9_memo_sound specBase specCosts ['A'] ['C'] (by decide) (by decide)
      (by decide)).1 0 0 (Nat.zero_le _) (Nat.zero_le _),
    (claim_C9_memo_sound specBase specCosts ['A'] ['C'] (by decide) (by decide)
      (by decide)).2 0 0⟩

/-- C10: with equal lengths every engine designates the first argument as the
primary sequence X and the second as the secondary Y, and returns the
recurrence evaluated on exactly that orientation (so the wildcard test of the
diagonal option is applied to the first argument's symbols). -/
theorem claim_C10_equal_lengths_primary (cl : BaseInterface) (co : Costs)
    (junkZ : Int → Int) (A B : List Char) (hlen : A.length = B.length) :
    orientX A B = A ∧ orientY A B = B ∧
      EditDistance_NW_Rec cl co A B = phiL cl co A B ∧
      EditDistance_NW_Iter cl co A B = phiL cl co A B ∧
      EditDistance_NW_Iter_CA cl co junkZ A B = phiL cl co A B ∧
      EditDistance_NW_Iter_CO cl co A B = phiL cl co A B := by
  have hox : orientX A B = A := by
    unfold orientX
    rw [if_pos (by omega)]
  have hoy : orientY A B = B := by
    unfold orientY
    rw [if_pos (by omega)]
  refine ⟨hox, hoy, ?_, ?_, ?_, ?_⟩
  · rw [Rec_eq_phi, hox, hoy]
  · rw [Iter_eq_phi, hox, hoy]
  · rw [CA_eq_phi, hox, hoy]
  · rw [CO_eq_phi, hox, hoy]

/-- Witness for C10 on the equal-length pair N versus A, where the wildcard
test falls on the first argument. -/
theorem claim_C10_equal_lengths_primary_witness :
    orientX ['N'] ['A'] = ['N'] ∧
      EditDistance_NW_Rec specBase specCosts ['N'] ['A'] =
        phiL specBase specCosts ['N'] ['A'] :=
  ⟨(claim_C10_equal_lengths_primary specBase specCosts (fun _ => 0) ['N'] ['A']
      rfl).1,
    (claim_C10_equal_lengths_primary specBase specCosts (fun _ => 0) ['N'] ['A']
      rfl).2.2.1⟩
